import Mathlib

/-!
# Category-feature encoding: encoder formulas and encoding-statistics lookups

Shallow embedding of
* `include/LightGBM/category_feature_encoder.hpp` (the encoder family and its
  `CalcValue` overloads),
* `include/LightGBM/category_encoding_provider.hpp` (the statistics store of
  `CategoryEncodingProvider`, its lookups, `AddCountAndLabel`, the transform of
  one categorical value and the column iterator
  `Category_Encoding_CSC_RowIterator`),
* `src/io/category_feature_encoding/category_feature_encoder.cpp`
  (`CreateFromCharPointer`), and
* `src/io/category_feature_encoding/target_label_mean_encoder.cpp` (the line
  form and the JSON form of `TargetEncoderLabelMean`).

Conventions of the embedding.
* A C++ `double` is a rational number (exact arithmetic).  The only operation
  of the embedded code that can leave the finite numbers is the division in
  the target-encoding formulas; it is modelled by `fdiv`, which yields `none`
  for a zero divisor (the IEEE result there is an infinity or a NaN).
* A C++ `int` is an `Int`; the one place where the embedded code does
  arithmetic on an `int` (`+=` in `AddCountAndLabel`) wraps to 32 bits.
* `std::unordered_map<int, V>` is an association list with one entry per key,
  `std::vector<T>` is a `List T`.
* `Log::Fatal`, the `std::out_of_range` thrown by the checked accessors `at`,
  and undefined behaviour (unchecked access outside a vector) are the three
  kinds of `Err`; code that can raise one returns `Except Err _`.
* The two `CalcValue` overloads are `CalcValue3` (three arguments, the
  inference view) and `CalcValue4` (four arguments, the training view).
* The functions that fill the statistics store during the fit
  (`ProcessOneLineInner`, `FinishProcess`) are only declared in the header;
  where a statement needs the fitted store it is modelled from the spec
  (`fold_cell`, `all_folds_cell`, `fitted_count_info`, `fitted_label_info`),
  on top of the source's `AddCountAndLabel`.
* Text is a list of characters.  The helpers of `Common` that the parser and
  the writer call (`GetLine`, `SkipNewLine`, `StartsWith`, `Split`,
  `UnorderedMapToString`) and the base class `CSC_RowIterator` are not among
  the sources and are modelled from the spec; the conversions between numbers
  and text are the parameter `NumberText`; callbacks are modelled by the list
  of their calls.
* The conversions `ConvertCatToEncodingValues`, which the header only
  declares, are parameters of the boundary adapters (`ParseOneLine`, `Get`,
  `WrapRowFunctionInner`).  A sequence of `AddCountAndLabel` calls is a list
  of updates (`apply_updates`); two maps are compared by their contents, the
  value stored under every key.
-/

namespace LightGBM

/-! ## Errors, numbers, containers -/

/-- The ways in which the embedded code can stop without a result. -/
inductive Err where
  /-- A call of `Log::Fatal` with the given message. -/
  | fatal (msg : String)
  /-- The exception `std::out_of_range` of `unordered_map::at` and `vector::at`. -/
  | out_of_range
  /-- Undefined behaviour: `back()` of an empty vector, `operator[]` outside a vector. -/
  | undefined_behavior
  deriving DecidableEq, Repr

/-- Division of two doubles in exact arithmetic.  A zero divisor gives `none`:
the C++ quotient is then an infinity or a NaN, not a number. -/
def fdiv (a b : ℚ) : Option ℚ :=
  if b = 0 then none else some (a / b)

/-- Two's-complement reduction of an integer to the range of a 32-bit `int`. -/
def wrap32 (x : Int) : Int :=
  (x + 2147483648) % 4294967296 - 2147483648

/-- The conversion `static_cast<int>(fval)` of a double: truncation toward zero.
For a value whose truncation is outside the range of `int` the C++ conversion
is undefined; the model returns `INT_MIN` there (the x86 result). -/
def static_cast_int (fval : ℚ) : Int :=
  let t := fval.num.tdiv fval.den
  if -2147483648 ≤ t ∧ t ≤ 2147483647 then t else -2147483648

/-- The type `std::unordered_map<int, V>`: a list of (key, value) entries. -/
abbrev UMap (V : Type) := List (Int × V)

namespace UMap

/-- The value stored under key `k`, if any. -/
def find? {V : Type} : UMap V → Int → Option V
  | [], _ => none
  | (k', v) :: t, k => if k' = k then some v else find? t k

/-- The member `count(k)`: 1 when the key is present, 0 otherwise. -/
def count {V : Type} (m : UMap V) (k : Int) : Nat :=
  match find? m k with
  | some _ => 1
  | none => 0

/-- The checked access `at(k)`: throws `std::out_of_range` for an absent key. -/
def at_ {V : Type} (m : UMap V) (k : Int) : Except Err V :=
  match find? m k with
  | some v => .ok v
  | none => .error .out_of_range

/-- The value read through `operator[](k)`: an absent key is value-initialised (zero). -/
def index {V : Type} [Zero V] (m : UMap V) (k : Int) : V :=
  match find? m k with
  | some v => v
  | none => 0

/-- The assignment `operator[](k) = v`: overwrite the entry of `k`, or add one. -/
def set {V : Type} : UMap V → Int → V → UMap V
  | [], k, v => [(k, v)]
  | (k', v') :: t, k, v => if k' = k then (k, v) :: t else (k', v') :: set t k v

end UMap

namespace Vec

/-- The checked access `vector::at(i)` with an `int` index: the index is converted to
`size_t`, so a negative one is out of range like one past the end. -/
def at_ {α : Type} (v : List α) (i : Int) : Except Err α :=
  if i < 0 then .error .out_of_range
  else match v[i.toNat]? with
    | some x => .ok x
    | none => .error .out_of_range

/-- The member `vector::back()`: the last element; undefined on an empty vector. -/
def back {α : Type} (v : List α) : Except Err α :=
  match v.getLast? with
  | some x => .ok x
  | none => .error .undefined_behavior

/-- The unchecked access `vector::operator[](i)`: undefined outside the vector. -/
def index {α : Type} (v : List α) (i : Int) : Except Err α :=
  if i < 0 then .error .undefined_behavior
  else match v[i.toNat]? with
    | some x => .ok x
    | none => .error .undefined_behavior

end Vec

/-! ## The encoders (`category_feature_encoder.hpp`) -/

/-- The class `TargetEncoder`: the inherited mapping and the two private members. -/
structure TargetEncoder where
  cat_fid_to_convert_fid_ : UMap Int
  prior_ : ℚ
  prior_weight_ : ℚ

/-- The class `CountEncoder`: only the inherited mapping. -/
structure CountEncoder where
  cat_fid_to_convert_fid_ : UMap Int

/-- The class `TargetEncoderLabelMean`: the inherited mapping and the three private members. -/
structure TargetEncoderLabelMean where
  cat_fid_to_convert_fid_ : UMap Int
  prior_ : ℚ
  prior_weight_ : ℚ
  prior_set_ : Bool

/-- The message of the two `Log::Fatal` calls of `TargetEncoderLabelMean::CalcValue`. -/
def prior_not_set_msg : String :=
  "TargetEncoderLabelMean is not ready since the prior value is not set."

namespace TargetEncoder

/-- The constructor `TargetEncoder(prior)`: it initialises `prior_` only; the mapping is
empty and `prior_weight_` keeps the indeterminate value `indeterminate_weight`. -/
def new (prior indeterminate_weight : ℚ) : TargetEncoder :=
  { cat_fid_to_convert_fid_ := [], prior_ := prior, prior_weight_ := indeterminate_weight }

/-- The inference view `CalcValue(sum_label, sum_count, all_fold_sum_count)`. -/
def CalcValue3 (e : TargetEncoder) (sum_label sum_count _all_fold_sum_count : ℚ) :
    Except Err (Option ℚ) :=
  .ok (fdiv (sum_label + e.prior_ * e.prior_weight_) (sum_count + e.prior_weight_))

/-- The training view `CalcValue(sum_label, sum_count, all_fold_sum_count, prior)`. -/
def CalcValue4 (e : TargetEncoder) (sum_label sum_count _all_fold_sum_count _prior : ℚ) :
    Except Err (Option ℚ) :=
  .ok (fdiv (sum_label + e.prior_ * e.prior_weight_) (sum_count + e.prior_weight_))

end TargetEncoder

namespace CountEncoder

/-- The constructor `CountEncoder()`. -/
def new : CountEncoder :=
  { cat_fid_to_convert_fid_ := [] }

/-- The inference view `CalcValue(sum_label, sum_count, all_fold_sum_count)`. -/
def CalcValue3 (_e : CountEncoder) (_sum_label _sum_count all_fold_sum_count : ℚ) :
    Except Err (Option ℚ) :=
  .ok (some all_fold_sum_count)

/-- The training view `CalcValue(sum_label, sum_count, all_fold_sum_count, prior)`. -/
def CalcValue4 (_e : CountEncoder) (_sum_label _sum_count all_fold_sum_count _prior : ℚ) :
    Except Err (Option ℚ) :=
  .ok (some all_fold_sum_count)

end CountEncoder

namespace TargetEncoderLabelMean

/-- The constructor `TargetEncoderLabelMean()`: it clears `prior_set_`; `prior_` and
`prior_weight_` keep indeterminate values. -/
def new (indeterminate_prior indeterminate_weight : ℚ) : TargetEncoderLabelMean :=
  { cat_fid_to_convert_fid_ := [], prior_ := indeterminate_prior,
    prior_weight_ := indeterminate_weight, prior_set_ := false }

/-- The member `SetPrior(prior, prior_weight)`. -/
def SetPrior (e : TargetEncoderLabelMean) (prior prior_weight : ℚ) : TargetEncoderLabelMean :=
  { e with prior_ := prior, prior_weight_ := prior_weight, prior_set_ := true }

/-- The inference view `CalcValue(sum_label, sum_count, all_fold_sum_count)`. -/
def CalcValue3 (e : TargetEncoderLabelMean) (sum_label sum_count _all_fold_sum_count : ℚ) :
    Except Err (Option ℚ) :=
  if !e.prior_set_ then .error (.fatal prior_not_set_msg)
  else .ok (fdiv (sum_label + e.prior_weight_ * e.prior_) (sum_count + e.prior_weight_))

/-- The training view `CalcValue(sum_label, sum_count, all_fold_sum_count, prior)`. -/
def CalcValue4 (e : TargetEncoderLabelMean) (sum_label sum_count _all_fold_sum_count prior : ℚ) :
    Except Err (Option ℚ) :=
  if !e.prior_set_ then .error (.fatal prior_not_set_msg)
  else .ok (fdiv (sum_label + prior * e.prior_weight_) (sum_count + e.prior_weight_))

end TargetEncoderLabelMean

/-- An object of the abstract class `CategoryFeatureEncoder`: one of its three subclasses. -/
inductive CategoryFeatureEncoder where
  | target (e : TargetEncoder)
  | count (e : CountEncoder)
  | label_mean (e : TargetEncoderLabelMean)

namespace CategoryFeatureEncoder

/-- Virtual dispatch of the three-argument `CalcValue`. -/
def CalcValue3 (enc : CategoryFeatureEncoder) (sum_label sum_count all_fold_sum_count : ℚ) :
    Except Err (Option ℚ) :=
  match enc with
  | target e => e.CalcValue3 sum_label sum_count all_fold_sum_count
  | count e => e.CalcValue3 sum_label sum_count all_fold_sum_count
  | label_mean e => e.CalcValue3 sum_label sum_count all_fold_sum_count

/-- Virtual dispatch of the four-argument `CalcValue`. -/
def CalcValue4 (enc : CategoryFeatureEncoder)
    (sum_label sum_count all_fold_sum_count prior : ℚ) : Except Err (Option ℚ) :=
  match enc with
  | target e => e.CalcValue4 sum_label sum_count all_fold_sum_count prior
  | count e => e.CalcValue4 sum_label sum_count all_fold_sum_count prior
  | label_mean e => e.CalcValue4 sum_label sum_count all_fold_sum_count prior

/-- The member `cat_fid_to_convert_fid_` of the base class. -/
def cat_fid_to_convert_fid_ : CategoryFeatureEncoder → UMap Int
  | target e => e.cat_fid_to_convert_fid_
  | count e => e.cat_fid_to_convert_fid_
  | label_mean e => e.cat_fid_to_convert_fid_

/-- The member `GetConvertFid(cat_fid)`: a checked access to the mapping. -/
def GetConvertFid (enc : CategoryFeatureEncoder) (cat_fid : Int) : Except Err Int :=
  UMap.at_ enc.cat_fid_to_convert_fid_ cat_fid

end CategoryFeatureEncoder

/-! ## The provider (`category_encoding_provider.hpp`) -/

/-- The members of `CategoryEncodingProvider` that the embedded functions read. -/
structure CategoryEncodingProvider where
  fold_prior_ : List ℚ
  is_categorical_feature_ : List Bool
  num_original_features_ : Int
  num_total_features_ : Int
  count_info_ : UMap (List (UMap Int))
  label_info_ : UMap (List (UMap ℚ))
  category_encoders_ : List CategoryFeatureEncoder

/-- The three outputs of `GetCategoryEncodingStatForOneCatValue`. -/
structure EncodingStat where
  label_sum : ℚ
  total_count : ℚ
  all_fold_total_count : ℚ
  deriving DecidableEq, Repr

namespace CategoryEncodingProvider

/-- The member `GetCategoryEncodingStatForOneCatValue<IS_TRAIN>(fid, fval, fold_id, ...)`;
the three output parameters are returned as an `EncodingStat`. -/
def GetCategoryEncodingStatForOneCatValue (p : CategoryEncodingProvider) (IS_TRAIN : Bool)
    (fid : Int) (fval : ℚ) (fold_id : Int) : Except Err EncodingStat := do
  let int_fval := static_cast_int fval
  let fold_label_info ←
    if IS_TRAIN then (do Vec.at_ (← UMap.at_ p.label_info_ fid) fold_id)
    else (do Vec.back (← UMap.at_ p.label_info_ fid))
  let fold_count_info ←
    if IS_TRAIN then (do Vec.at_ (← UMap.at_ p.count_info_ fid) fold_id)
    else (do Vec.back (← UMap.at_ p.count_info_ fid))
  let (out_label_sum, out_total_count) ←
    if UMap.count fold_count_info int_fval > 0 then
      (do
        let l ← UMap.at_ fold_label_info int_fval
        let c ← UMap.at_ fold_count_info int_fval
        pure (l, (c : ℚ)))
    else pure ((0 : ℚ), (0 : ℚ))
  if IS_TRAIN then do
    let all_fold_count_info ← Vec.back (← UMap.at_ p.count_info_ fid)
    if UMap.count all_fold_count_info int_fval > 0 then do
      let a ← UMap.at_ all_fold_count_info int_fval
      pure ⟨out_label_sum, out_total_count, (a : ℚ)⟩
    else pure ⟨out_label_sum, out_total_count, 0⟩
  else
    pure ⟨out_label_sum, out_total_count, out_total_count⟩

/-- The member `HandleOneCatConverter<IS_TRAIN>(fid, fval, fold_id, cat_converter)`. -/
def HandleOneCatConverter (p : CategoryEncodingProvider) (IS_TRAIN : Bool)
    (fid : Int) (fval : ℚ) (fold_id : Int) (cat_converter : CategoryFeatureEncoder) :
    Except Err (Option ℚ) := do
  let s ← p.GetCategoryEncodingStatForOneCatValue IS_TRAIN fid fval fold_id
  if IS_TRAIN then do
    let prior ← Vec.index p.fold_prior_ fold_id
    cat_converter.CalcValue4 s.label_sum s.total_count s.all_fold_total_count prior
  else
    cat_converter.CalcValue3 s.label_sum s.total_count s.all_fold_total_count

/-- The member `AddCountAndLabel(count_map, label_map, cat_value, count_value, label_value)`;
the two maps are returned updated.  The `+=` on the `int` count wraps to 32 bits. -/
def AddCountAndLabel (count_map : UMap Int) (label_map : UMap ℚ)
    (cat_value count_value : Int) (label_value : ℚ) : UMap Int × UMap ℚ :=
  if UMap.count count_map cat_value = 0 then
    (UMap.set count_map cat_value count_value, UMap.set label_map cat_value label_value)
  else
    (UMap.set count_map cat_value (wrap32 (UMap.index count_map cat_value + count_value)),
     UMap.set label_map cat_value (UMap.index label_map cat_value + label_value))

end CategoryEncodingProvider

/-! ## Accumulating rows -/

/-- The effect of the calls `AddCountAndLabel(&count_map, &label_map, cat_i, 1, label_i)`,
one for each row `(cat_i, label_i)` in list order, on a pair of maps. -/
def accumulate_rows (rows : List (Int × ℚ)) (maps : UMap Int × UMap ℚ) : UMap Int × UMap ℚ :=
  rows.foldl (fun m r => CategoryEncodingProvider.AddCountAndLabel m.1 m.2 r.1 1 r.2) maps

/-- The rows of category `k`. -/
def rows_of_cat (rows : List (Int × ℚ)) (k : Int) : List (Int × ℚ) :=
  rows.filter (fun r => decide (r.1 = k))

/-- The number of rows of category `k`. -/
def cat_count (rows : List (Int × ℚ)) (k : Int) : Nat :=
  (rows_of_cat rows k).length

/-- The sum of the labels of the rows of category `k`. -/
def cat_label_sum (rows : List (Int × ℚ)) (k : Int) : ℚ :=
  ((rows_of_cat rows k).map Prod.snd).sum

/-- A training row as one categorical feature sees it: the fold the row is assigned to,
the raw value of the feature and the label. -/
structure TrainRow where
  fold_id : Nat
  fval : ℚ
  label : ℚ

/-- The (category, label) pair a training row contributes. -/
def TrainRow.entry (r : TrainRow) : Int × ℚ :=
  (static_cast_int r.fval, r.label)

/-- The training rows with the label of row `r` replaced by `label`. -/
def relabel : List TrainRow → Nat → ℚ → List TrainRow
  | [], _, _ => []
  | x :: t, 0, label => { x with label := label } :: t
  | x :: t, r + 1, label => x :: relabel t r label

/-- Modelled from the spec: the bodies of `ProcessOneLineInner` and `FinishProcess`, which
fill `count_info_` and `label_info_`, are not among the sources (the header only declares
them).  By the spec (inner accumulation) every row increments the store at
`(fid, fold_id, int(value))`, where `fold_id` is the fold of the row, by
`(count = 1, label_sum = label)`: the cell of fold `f` is accumulated from the rows of
fold `f`. -/
def fold_cell (rows : List TrainRow) (f : Nat) : UMap Int × UMap ℚ :=
  accumulate_rows ((rows.filter (fun r => decide (r.fold_id = f))).map TrainRow.entry) ([], [])

/-- Modelled from the spec: the fold-K "all folds" aggregate, the sum of the cells of the
folds `f < K`, i.e. the accumulation of the rows of these folds (the code that fills it is
not among the sources). -/
def all_folds_cell (K : Nat) (rows : List TrainRow) : UMap Int × UMap ℚ :=
  accumulate_rows ((rows.filter (fun r => decide (r.fold_id < K))).map TrainRow.entry) ([], [])

/-- A call of one of the two callbacks handed to `IterateOverCatConvertersInner`. -/
inductive Call where
  /-- The call `write_func(convert_fid, fid, convert_value)`. -/
  | write_func (convert_fid fid : Int) (convert_value : Option ℚ)
  /-- The call `post_process_func(fid)`. -/
  | post_process_func (fid : Int)

namespace CategoryEncodingProvider

/-- The value one encoder contributes in the loop of `IterateOverCatConvertersInner`:
the four-argument `CalcValue` with `fold_prior_[fold_id]` when `IS_TRAIN`, the
three-argument one otherwise. -/
def convert_value (p : CategoryEncodingProvider) (IS_TRAIN : Bool) (fold_id : Int)
    (s : EncodingStat) (cat_converter : CategoryFeatureEncoder) : Except Err (Option ℚ) :=
  if IS_TRAIN then do
    let prior ← Vec.index p.fold_prior_ fold_id
    cat_converter.CalcValue4 s.label_sum s.total_count s.all_fold_total_count prior
  else
    cat_converter.CalcValue3 s.label_sum s.total_count s.all_fold_total_count

/-- The loop `for (const auto& cat_converter : category_encoders_)` of
`IterateOverCatConvertersInner`: the calls of `write_func` made, in order, and whether the
loop ran to its end or was stopped by an error. -/
def iterate_loop (p : CategoryEncodingProvider) (IS_TRAIN : Bool) (fid fold_id : Int)
    (s : EncodingStat) : List CategoryFeatureEncoder → List Call × Except Err Unit
  | [] => ([], .ok ())
  | cat_converter :: rest =>
    match p.convert_value IS_TRAIN fold_id s cat_converter with
    | .error err => ([], .error err)
    | .ok value =>
      match cat_converter.GetConvertFid fid with
      | .error err => ([], .error err)
      | .ok convert_fid =>
        (Call.write_func convert_fid fid value :: (iterate_loop p IS_TRAIN fid fold_id s rest).1,
          (iterate_loop p IS_TRAIN fid fold_id s rest).2)

/-- The member `IterateOverCatConvertersInner<IS_TRAIN>(fid, fval, fold_id, write_func,
post_process_func)`: the sequence of callback calls it makes and its outcome. -/
def IterateOverCatConvertersInner (p : CategoryEncodingProvider) (IS_TRAIN : Bool)
    (fid : Int) (fval : ℚ) (fold_id : Int) : List Call × Except Err Unit :=
  match p.GetCategoryEncodingStatForOneCatValue IS_TRAIN fid fval fold_id with
  | .error err => ([], .error err)
  | .ok s =>
    match iterate_loop p IS_TRAIN fid fold_id s p.category_encoders_ with
    | (calls, .error err) => (calls, .error err)
    | (calls, .ok _) => (calls ++ [Call.post_process_func fid], .ok ())

end CategoryEncodingProvider

/-! ## JSON form of an encoder (`target_label_mean_encoder.cpp`) -/

/-- The `json11::Json` values that `DumpToJSONObject` builds. -/
inductive Json where
  | int (n : Int)
  | double (x : ℚ)
  | string (s : String)
  | array (items : List Json)
  | object (members : List (String × Json))

/-- The keys of a JSON object (none for other values). -/
def Json.keys : Json → List String
  | .object members => members.map Prod.fst
  | _ => []

/-- The member of a JSON object stored under `key`. -/
def Json.member? : Json → String → Option Json
  | .object members, key => (members.find? (fun m => m.1 == key)).map Prod.snd
  | _, _ => none

/-- The JSON object `DumpToJSONObject` appends for one entry of `cat_fid_to_convert_fid_`. -/
def cat_fid_pair_to_json (pair : Int × Int) : Json :=
  .object [("cat_fid", .int pair.1), ("convert_fid", .int pair.2)]

/-- The member `TargetEncoderLabelMean::DumpToJSONObject()`. -/
def TargetEncoderLabelMean.DumpToJSONObject (e : TargetEncoderLabelMean) : Json :=
  let cat_fid_to_convert_fid_array := e.cat_fid_to_convert_fid_.map cat_fid_pair_to_json
  .object [("name", .string "target_encoder"),
    ("prior", .double e.prior_),
    ("categorical_feature_index_to_encoded_feature_index", .array cat_fid_to_convert_fid_array)]

/-! ## The column iterator `Category_Encoding_CSC_RowIterator` -/

/-- Modelled from the spec: the base class `CSC_RowIterator` is not among the sources.  By
the spec its `next_non_zero()` yields the stored `(row, value)` entries of the column in
order and then the end marker `(-1, 0)`; the protected flag `is_end_`, which the derived
class reads, records that the end marker has been produced. -/
structure CSC_RowIterator where
  entries : List (Int × ℚ)
  nonzero_idx_ : Nat
  is_end_ : Bool

namespace CSC_RowIterator

/-- Modelled from the spec: `CSC_RowIterator::NextNonZero()`, the next stored entry or the
end marker `(-1, 0)`, together with the advanced iterator. -/
def NextNonZero (it : CSC_RowIterator) : (Int × ℚ) × CSC_RowIterator :=
  if it.is_end_ then ((-1, 0), it)
  else
    match it.entries[it.nonzero_idx_]? with
    | some e => (e, { it with nonzero_idx_ := it.nonzero_idx_ + 1 })
    | none => ((-1, 0), { it with nonzero_idx_ := it.nonzero_idx_ + 1, is_end_ := true })

/-- Modelled from the spec: `CSC_RowIterator::Reset()`, back to the first stored entry. -/
def Reset (it : CSC_RowIterator) : CSC_RowIterator :=
  { it with nonzero_idx_ := 0, is_end_ := false }

end CSC_RowIterator

/-- The class `Category_Encoding_CSC_RowIterator`: its base-class part and its own members.
The encoder, the provider and the column index only enter through the two conversions
passed to `NextNonZero`. -/
structure Category_Encoding_CSC_RowIterator where
  base : CSC_RowIterator
  is_valid_ : Bool
  num_row_ : Int
  cur_row_idx_ : Int
  cached_pair_ : Int × ℚ

namespace Category_Encoding_CSC_RowIterator

/-- A freshly constructed iterator over the stored `entries` of a column. -/
def new (entries : List (Int × ℚ)) (is_valid : Bool) (num_row : Int) :
    Category_Encoding_CSC_RowIterator :=
  { base := { entries := entries, nonzero_idx_ := 0, is_end_ := false },
    is_valid_ := is_valid, num_row_ := num_row, cur_row_idx_ := -1, cached_pair_ := (-1, 0) }

/-- The member `Reset()`. -/
def Reset (it : Category_Encoding_CSC_RowIterator) : Category_Encoding_CSC_RowIterator :=
  { it with base := it.base.Reset, cur_row_idx_ := -1, cached_pair_ := (-1, 0) }

/-- The member `NextNonZero()`: the returned pair (or the error of the conversion) and the
iterator after the call.  The two overloads of the provider's
`ConvertCatToEncodingValues(value, cat_converter_, col_idx_ [, row])`, which the header
only declares, are the parameters `convert_infer` and `convert_train`. -/
def NextNonZero (convert_infer : ℚ → Except Err (Option ℚ))
    (convert_train : ℚ → Int → Except Err (Option ℚ))
    (it : Category_Encoding_CSC_RowIterator) :
    Except Err (Int × Option ℚ) × Category_Encoding_CSC_RowIterator :=
  if wrap32 (it.cur_row_idx_ + 1) < wrap32 it.num_row_ then
    let fetched : (Int × ℚ) × CSC_RowIterator :=
      if it.cur_row_idx_ = it.cached_pair_.1 then it.base.NextNonZero
      else (it.cached_pair_, it.base)
    let pair : Int × ℚ :=
      if wrap32 (it.cur_row_idx_ + 1) < fetched.1.1 ∨ fetched.2.is_end_ = true then
        (wrap32 (it.cur_row_idx_ + 1), 0)
      else fetched.1
    let value : Except Err (Option ℚ) :=
      if it.is_valid_ then convert_infer pair.2 else convert_train pair.2 pair.1
    (value.map (fun v => (pair.1, v)),
      { it with base := fetched.2, cached_pair_ := fetched.1,
                cur_row_idx_ := wrap32 (it.cur_row_idx_ + 1) })
  else (.ok (-1, some 0), it)

/-- The iterator after `n` calls of `NextNonZero`. -/
def after_calls (convert_infer : ℚ → Except Err (Option ℚ))
    (convert_train : ℚ → Int → Except Err (Option ℚ)) :
    Nat → Category_Encoding_CSC_RowIterator → Category_Encoding_CSC_RowIterator
  | 0, it => it
  | n + 1, it => after_calls convert_infer convert_train n (NextNonZero convert_infer convert_train it).2

end Category_Encoding_CSC_RowIterator

/-- The raw value a column stores at row `k`: the value of the stored entry of that row,
or 0 when the row has no stored entry. -/
def raw_value_at (entries : List (Int × ℚ)) (k : Int) : ℚ :=
  match entries.find? (fun e => decide (e.1 = k)) with
  | some e => e.2
  | none => 0

/-! ## Line form of an encoder (`target_label_mean_encoder.cpp`, `category_feature_encoder.cpp`)

A `const char*` is the list of the characters before the terminating NUL, and so is a
`std::string`; advancing the pointer drops characters from the front. -/

/-- The conversions between numbers and text that the serialisation code uses and that are
not among the sources: the stream insertion of an `int` and of a `double` (C++ standard
library, classic locale) and the parsers `Common::Atoi` and `Common::Atof`. -/
structure NumberText where
  int_to_text : Int → List Char
  double_to_text : ℚ → List Char
  Atoi : List Char → Int
  Atof : List Char → ℚ

/-- The characters at which `Common::GetLine` stops: NUL, line feed, carriage return. -/
def is_line_end (c : Char) : Bool :=
  c == Char.ofNat 0 || c == '\n' || c == '\r'

/-- Modelled from the spec: `Common::GetLine(str)` (not among the sources), the length of
the first line of `str`, i.e. the number of characters before the first NUL, line feed or
carriage return. -/
def GetLine : List Char → Nat
  | [] => 0
  | c :: t => if is_line_end c then 0 else GetLine t + 1

/-- Modelled from the spec: `Common::SkipNewLine(str)` (not among the sources), which steps
over one line terminator: an optional carriage return, then an optional line feed. -/
def SkipNewLine (str : List Char) : List Char :=
  let str1 := match str with
    | '\r' :: t => t
    | _ => str
  match str1 with
  | '\n' :: t => t
  | _ => str1

/-- Modelled from the spec: `Common::StartsWith(str, prefix)` (not among the sources). -/
def StartsWith (str pre : List Char) : Bool :=
  str.take pre.length == pre

/-- The loop of `Common::Split`: `cur` is the token being read. -/
def SplitAux (delimiters : List Char) : List Char → List Char → List (List Char)
  | [], cur => if cur = [] then [] else [cur]
  | c :: t, cur =>
    if c ∈ delimiters then
      (if cur = [] then SplitAux delimiters t [] else cur :: SplitAux delimiters t [])
    else SplitAux delimiters t (cur ++ [c])

/-- Modelled from the spec: `Common::Split(c_str, delimiters)` (not among the sources), the
fields of a line: the maximal non-empty runs of characters that are not delimiters. -/
def Split (c_str delimiters : List Char) : List (List Char) :=
  SplitAux delimiters c_str []

/-- The text `first<tuple_delimiter>second` of one map entry. -/
def pair_to_text (nt : NumberText) (tuple_delimiter : Char) (pair : Int × Int) : List Char :=
  nt.int_to_text pair.1 ++ tuple_delimiter :: nt.int_to_text pair.2

/-- The tokens joined by single separator characters. -/
def join_tokens (sep : Char) : List (List Char) → List Char
  | [] => []
  | t :: rest => t ++ (rest.map (fun q => sep :: q)).flatten

/-- Modelled from the spec: `CommonC::UnorderedMapToString<false, false, int, int>(map,
tuple_delimiter, pair_delimiter)` (not among the sources): the entries of the map as
`first<tuple_delimiter>second`, separated by single `pair_delimiter` characters. -/
def UnorderedMapToString (nt : NumberText) (map : UMap Int)
    (tuple_delimiter pair_delimiter : Char) : List Char :=
  join_tokens pair_delimiter (map.map (pair_to_text nt tuple_delimiter))

/-- The key of the mapping line. -/
def mapping_key : List Char :=
  "categorical_feature_index_to_encoded_feature_index=".toList

/-- The member `TargetEncoderLabelMean::DumpToString()`. -/
def TargetEncoderLabelMean.DumpToString (nt : NumberText) (e : TargetEncoderLabelMean) :
    List Char :=
  "type=target_encoder_label_mean\n".toList
    ++ ("prior=".toList ++ nt.double_to_text e.prior_ ++ "\n".toList)
    ++ (mapping_key ++ UnorderedMapToString nt e.cat_fid_to_convert_fid_ ':' ' ' ++ "\n".toList)

/-- Modelled from the spec: `TargetEncoder::SetPrior(prior, prior_weight)`, declared in the
header and defined outside the sources.  The constructed prior is fixed (`prior_` is
`const`, the first parameter is unnamed); the call stores the prior weight. -/
def TargetEncoder.SetPrior (e : TargetEncoder) (_prior prior_weight : ℚ) : TargetEncoder :=
  { e with prior_weight_ := prior_weight }

namespace CategoryFeatureEncoder

/-- Virtual dispatch of `SetPrior(prior, prior_weight)`; the base-class body, which
`CountEncoder` inherits, does nothing. -/
def SetPrior (enc : CategoryFeatureEncoder) (prior prior_weight : ℚ) : CategoryFeatureEncoder :=
  match enc with
  | target e => target (e.SetPrior prior prior_weight)
  | count e => count e
  | label_mean e => label_mean (e.SetPrior prior prior_weight)

/-- Replace the member `cat_fid_to_convert_fid_`. -/
def with_cat_fid_to_convert_fid (enc : CategoryFeatureEncoder) (m : UMap Int) :
    CategoryFeatureEncoder :=
  match enc with
  | target e => target { e with cat_fid_to_convert_fid_ := m }
  | count _ => count { cat_fid_to_convert_fid_ := m }
  | label_mean e => label_mean { e with cat_fid_to_convert_fid_ := m }

/-- The message of the three `Log::Fatal("CategoryFeatureEncoder model format error")`. -/
def model_format_msg : String := "CategoryFeatureEncoder model format error"

/-- The message of `Log::Fatal("Unknown CategoryFeatureEncoder type %s", type.c_str())`. -/
def unknown_type_msg (type : List Char) : String :=
  "Unknown CategoryFeatureEncoder type " ++ String.mk type

/-- The loop over `feature_index_pair` in `CreateFromCharPointer`: every pair string is split
at `:` and registered in the map. -/
def register_pairs (nt : NumberText) : List (List Char) → UMap Int → Except Err (UMap Int)
  | [], m => .ok m
  | pair_string :: rest, m => do
    let cat_fid_and_convert_fid_string := Split pair_string ":".toList
    let cat_fid := nt.Atoi (← Vec.index cat_fid_and_convert_fid_string 0)
    let convert_fid := nt.Atoi (← Vec.index cat_fid_and_convert_fid_string 1)
    register_pairs nt rest (UMap.set m cat_fid convert_fid)

/-- The part of `CreateFromCharPointer` that reads the line after the `type=` line for the
two target kinds: the `prior=` line, the construction of the encoder and `SetPrior`.
Returns the encoder and the advanced pointer. -/
def read_prior_line (nt : NumberText) (type char_pointer : List Char)
    (prior_weight indeterminate : ℚ) : Except Err (CategoryFeatureEncoder × List Char) := do
  let line_len := GetLine char_pointer
  let line := char_pointer.take line_len
  let char_pointer := SkipNewLine (char_pointer.drop line_len)
  if !StartsWith line "prior=".toList then
    throw (.fatal model_format_msg)
  let prior := nt.Atof (← Vec.index (Split line "=".toList) 1)
  let ret : CategoryFeatureEncoder :=
    if type = "target_encoder".toList then target (TargetEncoder.new prior indeterminate)
    else label_mean (TargetEncoderLabelMean.new indeterminate indeterminate)
  pure (ret.SetPrior prior prior_weight, char_pointer)

/-- The last part of `CreateFromCharPointer`, from the reading of the mapping line on: the
check of the line, the registration of its pairs in the encoder `ret` and the value of
`*used_len`, the distance of the final pointer from the start (`start_length` is the
length of the text at the start). -/
def read_mapping_line (nt : NumberText) (ret : CategoryFeatureEncoder) (start_length : Nat)
    (char_pointer : List Char) : Except Err (CategoryFeatureEncoder × Nat) := do
  let line_len := GetLine char_pointer
  let line := char_pointer.take line_len
  let char_pointer := SkipNewLine (char_pointer.drop line_len)
  if !StartsWith line mapping_key then
    throw (.fatal model_format_msg)
  let feature_index_pair := Split (← Vec.index (Split line "=".toList) 1) " ".toList
  let map ← register_pairs nt feature_index_pair []
  pure (ret.with_cat_fid_to_convert_fid map, start_length - char_pointer.length)

/-- The static member `CreateFromCharPointer(char_pointer, used_len, prior_weight)`: the
encoder created and the value stored in `*used_len`.  `indeterminate` stands for the
values of the members a constructor leaves uninitialised. -/
def CreateFromCharPointer (nt : NumberText) (char_pointer : List Char)
    (prior_weight indeterminate : ℚ) : Except Err (CategoryFeatureEncoder × Nat) := do
  let char_pointer_start := char_pointer
  let line_len := GetLine char_pointer
  let line := char_pointer.take line_len
  let char_pointer := SkipNewLine (char_pointer.drop line_len)
  if StartsWith line "type=".toList then
    let type ← Vec.index (Split line "=".toList) 1
    let (ret, char_pointer) ←
      if type = "target_encoder".toList ∨ type = "target_encoder_label_mean".toList then
        read_prior_line nt type char_pointer prior_weight indeterminate
      else if type = "count_encoder".toList then
        pure (count CountEncoder.new, char_pointer)
      else
        throw (.fatal (unknown_type_msg type))
    read_mapping_line nt ret char_pointer_start.length char_pointer
  else
    throw (.fatal model_format_msg)

end CategoryFeatureEncoder

/-- The characters of `l` are no line ends (NUL, line feed, carriage return). -/
def no_line_end (l : List Char) : Prop :=
  ∀ c ∈ l, is_line_end c = false

/-- The text `nl`, followed by `rest`, is a terminator of a line: a line feed, a carriage
return and a line feed, a lone carriage return, or the end of the text. -/
def line_terminator (nl rest : List Char) : Prop :=
  nl = ['\n'] ∨ nl = ['\r', '\n'] ∨ (nl = ['\r'] ∧ rest.head? ≠ some '\n')
    ∨ (nl = [] ∧ rest = [])

/-- A field of the line form: not empty and free of the separators ` `, `:`, `=` and of
line ends. -/
def good_field (f : List Char) : Prop :=
  f ≠ [] ∧ ∀ c ∈ f, c ≠ ' ' ∧ c ≠ ':' ∧ c ≠ '=' ∧ is_line_end c = false

/-- The token `cat_fid:output_col` of one pair of fields. -/
def pair_token (pair : List Char × List Char) : List Char :=
  pair.1 ++ ':' :: pair.2

/-- The mapping line for a list of pairs of fields (without its terminator). -/
def mapping_line (pairs : List (List Char × List Char)) : List Char :=
  mapping_key ++ join_tokens ' ' (pairs.map pair_token)

/-- The map that registering the pairs of a mapping line one after the other builds. -/
def map_of_pairs (nt : NumberText) (pairs : List (List Char × List Char)) (m : UMap Int) :
    UMap Int :=
  pairs.foldl (fun acc pair => UMap.set acc (nt.Atoi pair.1) (nt.Atoi pair.2)) m

/-- The value of a run of decimal digits. -/
def digits_value (cs : List Char) : Nat :=
  cs.foldl (fun v c => v * 10 + (c.toNat - 48)) 0

/-- A decimal reader of integers: an optional minus sign, then digits. -/
def decimal_Atoi : List Char → Int
  | '-' :: cs => - (digits_value (cs.takeWhile Char.isDigit) : Int)
  | cs => (digits_value (cs.takeWhile Char.isDigit) : Int)

/-- A sample of number conversions for the examples: integers in decimal; the doubles
1/2 and 1 written as `0.5` and `1`, and the double `1 + 2^-20` written as `1`, as the
default stream precision of six significant digits does. -/
def sample_number_text : NumberText :=
  { int_to_text := fun n => (toString n).toList
    double_to_text := fun x => if x = 1/2 then "0.5".toList else "1".toList
    Atoi := decimal_Atoi
    Atof := fun cs => if cs = "0.5".toList then 1/2 else 1 }

/-- The invariant of `Category_Encoding_CSC_RowIterator` after `k` calls of `NextNonZero`:
`cur_row_idx_` is `k - 1`, and `cached_pair_` is the first entry whose row is at least
`k - 1` in the list of stored entries preceded by the initial pair `(-1, 0)`, or the end
marker once the stored entries are used up. -/
def csc_invariant (entries : List (Int × ℚ)) (is_valid : Bool) (num_row : Int) (k : Nat)
    (it : Category_Encoding_CSC_RowIterator) : Prop :=
  it.base.entries = entries ∧ it.is_valid_ = is_valid ∧ it.num_row_ = num_row
  ∧ it.cur_row_idx_ = (k : Int) - 1
  ∧ ∃ pre post : List (Int × ℚ), (-1, 0) :: entries = pre ++ post
    ∧ (∀ e ∈ pre, e.1 < (k : Int) - 1)
    ∧ ((∃ c rest, post = c :: rest ∧ it.cached_pair_ = c ∧ (k : Int) - 1 ≤ c.1
          ∧ it.base.is_end_ = false ∧ it.base.nonzero_idx_ = pre.length)
       ∨ (post = [] ∧ it.cached_pair_ = (-1, 0) ∧ it.base.is_end_ = true ∧ 1 ≤ k))

/-! ## Schema queries and boundary adapters (`category_encoding_provider.hpp`) -/

namespace CategoryEncodingProvider

/-- The member `IsCategorical(fid)`; the unchecked `is_categorical_feature_[fid]` is
undefined outside the vector. -/
def IsCategorical (p : CategoryEncodingProvider) (fid : Int) : Except Err Bool :=
  if fid < p.num_original_features_ then Vec.index p.is_categorical_feature_ fid
  else .ok false

/-- The member `GetNumTotalFeatures()`. -/
def GetNumTotalFeatures (p : CategoryEncodingProvider) : Int :=
  p.num_total_features_

/-- The member `WrapRowFunctionInner<T, INDEX_T>(get_row_fun, is_valid)`: the wrapped row
accessor.  The two overloads of `ConvertCatToEncodingValues(&row [, row_idx])`, which the
header only declares, are the parameters `convert_infer` and `convert_train`; they return
the converted row. -/
def WrapRowFunctionInner {Row Converted : Type} (convert_infer : Row → Converted)
    (convert_train : Row → Int → Converted) (get_row_fun : Int → Row) (is_valid : Bool) :
    Int → Converted :=
  if is_valid then
    fun row_idx => convert_infer (get_row_fun row_idx)
  else
    fun row_idx => convert_train (get_row_fun row_idx) row_idx

end CategoryEncodingProvider

/-- The class `CategoryEncodingParser`: the inner parser (its `ParseOneLine` maps a line and
the current contents of the two output parameters to their new contents), the provider
and the mode flag. -/
structure CategoryEncodingParser (Features : Type) where
  inner_parser_ : List Char → Features × ℚ → Features × ℚ
  category_encoding_provider_ : CategoryEncodingProvider
  is_valid_ : Bool

namespace CategoryEncodingParser

/-- The member `ParseOneLine(str, out_features, out_label, line_idx)`: the contents of
`out_features` (as the conversion leaves it) and of `out_label` after the call.  The two
overloads of the provider's `ConvertCatToEncodingValues(out_features [, line_idx])`,
which the header only declares, are the parameters `convert_infer` and `convert_train`. -/
def ParseOneLine {Features Converted : Type}
    (convert_infer : CategoryEncodingProvider → Features → Converted)
    (convert_train : CategoryEncodingProvider → Features → Int → Converted)
    (parser : CategoryEncodingParser Features) (str : List Char) (out : Features × ℚ)
    (line_idx : Int) : Converted × ℚ :=
  let parsed := parser.inner_parser_ str out
  if parser.is_valid_ then
    (convert_infer parser.category_encoding_provider_ parsed.1, parsed.2)
  else
    (convert_train parser.category_encoding_provider_ parsed.1 line_idx, parsed.2)

/-- The member `NumFeatures()`. -/
def NumFeatures {Features : Type} (parser : CategoryEncodingParser Features) : Int :=
  parser.category_encoding_provider_.GetNumTotalFeatures

end CategoryEncodingParser

/-- The member `Category_Encoding_CSC_RowIterator::Get(row_idx)`: the value returned and the
iterator after the call.  The base-class `CSC_RowIterator::Get`, which is not among the
sources, is the parameter `base_Get` (the raw value of the row and the advanced base
iterator); the conversions are parameters as in `NextNonZero`. -/
def Category_Encoding_CSC_RowIterator.Get
    (base_Get : CSC_RowIterator → Int → ℚ × CSC_RowIterator)
    (convert_infer : ℚ → Except Err (Option ℚ))
    (convert_train : ℚ → Int → Except Err (Option ℚ))
    (it : Category_Encoding_CSC_RowIterator) (row_idx : Int) :
    Except Err (Option ℚ) × Category_Encoding_CSC_RowIterator :=
  let value := (base_Get it.base row_idx).1
  let it' := { it with base := (base_Get it.base row_idx).2 }
  if it.is_valid_ then (convert_infer value, it')
  else (convert_train value row_idx, it')

/-! ## Sequences of updates -/

/-- An update `(cat_value, count_value, label_value)` of a pair of maps. -/
abbrev Update := Int × Int × ℚ

/-- The effect of the calls `AddCountAndLabel(&count_map, &label_map, cat, count, label)`,
one for each update in list order, on a pair of maps. -/
def apply_updates (updates : List Update) (maps : UMap Int × UMap ℚ) : UMap Int × UMap ℚ :=
  updates.foldl
    (fun m u => CategoryEncodingProvider.AddCountAndLabel m.1 m.2 u.1 u.2.1 u.2.2) maps

/-- The updates of category `k`. -/
def updates_of_cat (updates : List Update) (k : Int) : List Update :=
  updates.filter (fun u => decide (u.1 = k))

/-- The sum of the counts of the updates of category `k`. -/
def update_count_sum (updates : List Update) (k : Int) : Int :=
  ((updates_of_cat updates k).map (fun u => u.2.1)).sum

/-- The sum of the labels of the updates of category `k`. -/
def update_label_sum (updates : List Update) (k : Int) : ℚ :=
  ((updates_of_cat updates k).map (fun u => u.2.2)).sum

/-- The contents of a pair of maps, as the lookups see them. -/
abbrev MapContents := (Int → Option Int) × (Int → Option ℚ)

/-- The contents of a count map and a label map. -/
def contents (maps : UMap Int × UMap ℚ) : MapContents :=
  (fun k => UMap.find? maps.1 k, fun k => UMap.find? maps.2 k)

/-- The effect of one `AddCountAndLabel` on the contents of the two maps. -/
def contents_step (s : MapContents) (u : Update) : MapContents :=
  (fun k => if u.1 = k then
      (match s.1 u.1 with
        | none => some u.2.1
        | some c => some (wrap32 (c + u.2.1)))
    else s.1 k,
   fun k => if u.1 = k then
      (match s.1 u.1 with
        | none => some u.2.2
        | some _ => some ((match s.2 u.1 with | some l => l | none => 0) + u.2.2))
    else s.2 k)

/-- The count map and the label map have the same keys. -/
def same_keys (count_map : UMap Int) (label_map : UMap ℚ) : Prop :=
  ∀ k, (UMap.find? count_map k).isSome = (UMap.find? label_map k).isSome

/-! ## Auxiliary lemmas -/

theorem wrap32_of_range (x : Int) (h1 : -2147483648 ≤ x) (h2 : x < 2147483648) :
    wrap32 x = x := by
  unfold wrap32; omega

theorem wrap32_wrap32_add (x y : Int) : wrap32 (wrap32 x + y) = wrap32 (x + y) := by
  unfold wrap32; omega

theorem UMap.find?_set {V : Type} (m : UMap V) (k k' : Int) (v : V) :
    UMap.find? (UMap.set m k v) k' = if k = k' then some v else UMap.find? m k' := by
  induction m with
  | nil => simp [UMap.set, UMap.find?]
  | cons x t ih =>
    obtain ⟨a, b⟩ := x
    simp only [UMap.set]
    split_ifs with h1 h2 <;> simp_all [UMap.find?]

theorem get_stat_infer_eq (p : CategoryEncodingProvider) (fid : Int) (fval : ℚ) (fold_id : Int)
    (lv : List (UMap ℚ)) (cv : List (UMap Int)) (lm : UMap ℚ) (cm : UMap Int)
    (hl : UMap.find? p.label_info_ fid = some lv) (hlm : lv.getLast? = some lm)
    (hc : UMap.find? p.count_info_ fid = some cv) (hcm : cv.getLast? = some cm) :
    p.GetCategoryEncodingStatForOneCatValue false fid fval fold_id =
      match UMap.find? cm (static_cast_int fval) with
      | none => .ok ⟨0, 0, 0⟩
      | some c =>
        match UMap.find? lm (static_cast_int fval) with
        | none => .error .out_of_range
        | some l => .ok ⟨l, (c : ℚ), (c : ℚ)⟩ := by
  unfold CategoryEncodingProvider.GetCategoryEncodingStatForOneCatValue
  cases h1 : UMap.find? cm (static_cast_int fval) <;>
  cases h2 : UMap.find? lm (static_cast_int fval) <;>
  simp [UMap.at_, Vec.back, hl, hlm, hc, hcm, UMap.count, h1, h2, bind, Except.bind,
    pure, Except.pure]

theorem get_stat_train_eq (p : CategoryEncodingProvider) (fid : Int) (fval : ℚ) (f : Nat)
    (lv : List (UMap ℚ)) (cv : List (UMap Int)) (lm : UMap ℚ) (cm am : UMap Int)
    (hl : UMap.find? p.label_info_ fid = some lv) (hlm : lv[f]? = some lm)
    (hc : UMap.find? p.count_info_ fid = some cv) (hcm : cv[f]? = some cm)
    (ham : cv.getLast? = some am) :
    p.GetCategoryEncodingStatForOneCatValue true fid fval (f : Int) =
      match UMap.find? cm (static_cast_int fval) with
      | none => .ok ⟨0, 0, ((UMap.index am (static_cast_int fval) : Int) : ℚ)⟩
      | some c =>
        match UMap.find? lm (static_cast_int fval) with
        | none => .error .out_of_range
        | some l => .ok ⟨l, (c : ℚ), ((UMap.index am (static_cast_int fval) : Int) : ℚ)⟩ := by
  unfold CategoryEncodingProvider.GetCategoryEncodingStatForOneCatValue
  have hf : ¬ ((f : Int) < 0) := by omega
  cases h3 : UMap.find? am (static_cast_int fval) <;>
  cases h1 : UMap.find? cm (static_cast_int fval) <;>
  cases h2 : UMap.find? lm (static_cast_int fval) <;>
  simp [UMap.at_, Vec.at_, Vec.back, hl, hlm, hc, hcm, ham, UMap.count, UMap.index, h1, h2,
    h3, hf, bind, Except.bind, pure, Except.pure]


theorem accumulate_rows_snoc (rows : List (Int × ℚ)) (r : Int × ℚ) (m : UMap Int × UMap ℚ) :
    accumulate_rows (rows ++ [r]) m =
      CategoryEncodingProvider.AddCountAndLabel (accumulate_rows rows m).1
        (accumulate_rows rows m).2 r.1 1 r.2 := by
  simp [accumulate_rows, List.foldl_append]

theorem cat_count_snoc (rows : List (Int × ℚ)) (r : Int × ℚ) (k : Int) :
    cat_count (rows ++ [r]) k = cat_count rows k + (if r.1 = k then 1 else 0) := by
  unfold cat_count rows_of_cat
  by_cases h : r.1 = k <;> simp [List.filter_append, List.filter_cons, h]

theorem cat_label_sum_snoc (rows : List (Int × ℚ)) (r : Int × ℚ) (k : Int) :
    cat_label_sum (rows ++ [r]) k = cat_label_sum rows k + (if r.1 = k then r.2 else 0) := by
  unfold cat_label_sum rows_of_cat
  by_cases h : r.1 = k <;> simp [List.filter_append, List.filter_cons, h]

/-- The maps built from empty ones hold, for every category, the wrapped number of its rows
and the sum of their labels; a category without rows has no entry in either map. -/
theorem accumulate_rows_find? (rows : List (Int × ℚ)) (k : Int) :
    UMap.find? (accumulate_rows rows ([], [])).1 k
        = (if cat_count rows k = 0 then none else some (wrap32 (cat_count rows k)))
    ∧ UMap.find? (accumulate_rows rows ([], [])).2 k
        = (if cat_count rows k = 0 then none else some (cat_label_sum rows k)) := by
  induction rows using List.reverseRecOn generalizing k with
  | nil => simp [accumulate_rows, cat_count, rows_of_cat, UMap.find?]
  | append_singleton rows r ih =>
    rw [accumulate_rows_snoc, cat_count_snoc, cat_label_sum_snoc]
    have ihr := ih r.1
    have ihk := ih k
    unfold CategoryEncodingProvider.AddCountAndLabel
    by_cases h0 : cat_count rows r.1 = 0
    · have hc : UMap.count (accumulate_rows rows ([], [])).1 r.1 = 0 := by
        simp [UMap.count, ihr.1, h0]
      rw [if_pos hc]
      simp only [UMap.find?_set]
      by_cases hk : r.1 = k
      · subst hk
        have hl : cat_label_sum rows r.1 = 0 := by
          have : rows_of_cat rows r.1 = [] := List.length_eq_zero.mp h0
          simp [cat_label_sum, this]
        simp [h0, hl, wrap32]
      · simp [hk, ihk.1, ihk.2]
    · have hc : ¬ UMap.count (accumulate_rows rows ([], [])).1 r.1 = 0 := by
        simp [UMap.count, ihr.1, h0]
      rw [if_neg hc]
      simp only [UMap.find?_set]
      by_cases hk : r.1 = k
      · subst hk
        have h1 : UMap.index (accumulate_rows rows ([], [])).1 r.1 = wrap32 (cat_count rows r.1) := by
          simp [UMap.index, ihr.1, h0]
        have h2 : UMap.index (accumulate_rows rows ([], [])).2 r.1 = cat_label_sum rows r.1 := by
          simp [UMap.index, ihr.2, h0]
        rw [h1, h2, wrap32_wrap32_add]
        simp
      · simp [hk, ihk.1, ihk.2]

theorem cat_count_le_length (rows : List (Int × ℚ)) (k : Int) :
    cat_count rows k ≤ rows.length := by
  unfold cat_count rows_of_cat
  exact List.length_filter_le _ _

theorem cat_label_sum_of_count_zero (rows : List (Int × ℚ)) (k : Int)
    (h : cat_count rows k = 0) : cat_label_sum rows k = 0 := by
  have h' : rows_of_cat rows k = [] := List.length_eq_zero.mp h
  simp [cat_label_sum, h']

/-- Looking up the maps accumulated from `rows` (fewer than `2^31` of them) through the
inference-view formula gives the number of rows of the key and the sum of their labels. -/
theorem accumulate_rows_lookup (rows : List (Int × ℚ)) (k : Int)
    (hn : rows.length < 2147483648) :
    (match UMap.find? (accumulate_rows rows ([], [])).1 k with
      | none => (Except.ok ⟨0, 0, 0⟩ : Except Err EncodingStat)
      | some c =>
        match UMap.find? (accumulate_rows rows ([], [])).2 k with
        | none => .error .out_of_range
        | some l => .ok ⟨l, (c : ℚ), (c : ℚ)⟩)
      = .ok ⟨cat_label_sum rows k, (cat_count rows k : ℚ), (cat_count rows k : ℚ)⟩ := by
  obtain ⟨h1, h2⟩ := accumulate_rows_find? rows k
  rw [h1, h2]
  by_cases h0 : cat_count rows k = 0
  · simp [h0, cat_label_sum_of_count_zero rows k h0]
  · have hle := cat_count_le_length rows k
    have hw : wrap32 (cat_count rows k : Int) = (cat_count rows k : Int) :=
      wrap32_of_range _ (by omega) (by omega)
    simp [h0, hw]

theorem accumulate_rows_fst_congr (rows rows' : List (Int × ℚ))
    (h : rows.map Prod.fst = rows'.map Prod.fst) (m m' : UMap Int × UMap ℚ)
    (hm : m.1 = m'.1) :
    (accumulate_rows rows m).1 = (accumulate_rows rows' m').1 := by
  induction rows generalizing rows' m m' with
  | nil =>
    cases rows' with
    | nil => simpa [accumulate_rows] using hm
    | cons y t' => simp at h
  | cons x t ih =>
    cases rows' with
    | nil => simp at h
    | cons y t' =>
      simp only [List.map_cons, List.cons.injEq] at h
      simp only [accumulate_rows, List.foldl_cons]
      apply ih t' h.2
      simp only [CategoryEncodingProvider.AddCountAndLabel, hm, h.1]
      split_ifs <;> rfl

theorem relabel_keys (rows : List TrainRow) (r : Nat) (label : ℚ) :
    ((relabel rows r label).map TrainRow.entry).map Prod.fst
      = (rows.map TrainRow.entry).map Prod.fst := by
  induction rows generalizing r with
  | nil => simp [relabel]
  | cons x t ih =>
    cases r with
    | zero => simp [relabel, TrainRow.entry]
    | succ n => simp [relabel, ih n]

theorem accumulate_rows_index (rows : List (Int × ℚ)) (k : Int)
    (hn : rows.length < 2147483648) :
    UMap.index (accumulate_rows rows ([], [])).1 k = (cat_count rows k : Int) := by
  have hle := cat_count_le_length rows k
  by_cases h0 : cat_count rows k = 0
  · simp [UMap.index, (accumulate_rows_find? rows k).1, h0]
  · have hw : wrap32 (cat_count rows k : Int) = (cat_count rows k : Int) :=
      wrap32_of_range _ (by omega) (by omega)
    simp [UMap.index, (accumulate_rows_find? rows k).1, h0, hw]

/-- C1: both `CalcValue` overloads of a `TargetEncoder` with prior `P = prior_` and prior
weight `w = prior_weight_` return the quotient `(label_sum + P*w) / (count_in_fold + w)`
(a number whenever the divisor is not zero); the training view depends neither on
`fold_prior` nor on `count_all_folds`; and with `P = 1/2`, `w = 2` the aggregates
`(1,2)`, `(1,1)`, `(0,0)` give `1/2`, `2/3`, `1/2`. -/
theorem TargetEncoder_CalcValue_formula :
    (∀ (e : TargetEncoder) (label_sum count_in_fold count_all_folds fold_prior : ℚ),
      e.CalcValue3 label_sum count_in_fold count_all_folds
          = .ok (fdiv (label_sum + e.prior_ * e.prior_weight_) (count_in_fold + e.prior_weight_))
      ∧ e.CalcValue4 label_sum count_in_fold count_all_folds fold_prior
          = .ok (fdiv (label_sum + e.prior_ * e.prior_weight_) (count_in_fold + e.prior_weight_)))
    ∧ (∀ (e : TargetEncoder) (label_sum count_in_fold count_all_folds fold_prior : ℚ),
      count_in_fold + e.prior_weight_ ≠ 0 →
      e.CalcValue3 label_sum count_in_fold count_all_folds
          = .ok (some ((label_sum + e.prior_ * e.prior_weight_) / (count_in_fold + e.prior_weight_)))
      ∧ e.CalcValue4 label_sum count_in_fold count_all_folds fold_prior
          = .ok (some ((label_sum + e.prior_ * e.prior_weight_) / (count_in_fold + e.prior_weight_))))
    ∧ (∀ (e : TargetEncoder) (label_sum count_in_fold a a' fold_prior fold_prior' : ℚ),
      e.CalcValue4 label_sum count_in_fold a fold_prior
          = e.CalcValue4 label_sum count_in_fold a' fold_prior')
    ∧ (∀ (m : UMap Int) (a : ℚ),
      TargetEncoder.CalcValue3 ⟨m, 1/2, 2⟩ 1 2 a = .ok (some (1/2))
      ∧ TargetEncoder.CalcValue3 ⟨m, 1/2, 2⟩ 1 1 a = .ok (some (2/3))
      ∧ TargetEncoder.CalcValue3 ⟨m, 1/2, 2⟩ 0 0 a = .ok (some (1/2))) := by
  refine ⟨fun e ls c a fp => ⟨rfl, rfl⟩, ?_, fun e ls c a a' fp fp' => rfl, ?_⟩
  · intro e ls c a fp h
    simp [TargetEncoder.CalcValue3, TargetEncoder.CalcValue4, fdiv, h]
  · intro m a
    refine ⟨?_, ?_, ?_⟩ <;> norm_num [TargetEncoder.CalcValue3, fdiv]

/-- Witness of C1: a `TargetEncoder` with prior 1/2 and prior weight 2 maps the
aggregates `label_sum = 1`, `count_in_fold = 1` to `2/3` in both views. -/
theorem TargetEncoder_CalcValue_formula_witness :
    ((1 : ℚ) + (TargetEncoder.mk [] (1/2) 2).prior_weight_ ≠ 0)
    ∧ (TargetEncoder.mk [] (1/2) 2).CalcValue3 1 1 5 = .ok (some (2/3))
    ∧ (TargetEncoder.mk [] (1/2) 2).CalcValue4 1 1 5 7 = .ok (some (2/3)) := by
  have hne : (1 : ℚ) + (TargetEncoder.mk [] (1/2) 2).prior_weight_ ≠ 0 := by norm_num
  have h := TargetEncoder_CalcValue_formula.2.1 (TargetEncoder.mk [] (1/2) 2) 1 1 5 7 hne
  refine ⟨hne, ?_, ?_⟩
  · rw [h.1]; norm_num
  · rw [h.2]; norm_num

/-- C2: once `SetPrior(P, w)` has been called on a `TargetEncoderLabelMean`, the training
view returns `(label_sum + fold_prior*w) / (count_in_fold + w)` and the inference view
returns `(label_sum + P*w) / (count_in_fold + w)`. -/
theorem TargetEncoderLabelMean_CalcValue_formula
    (e : TargetEncoderLabelMean) (P w label_sum count_in_fold count_all_folds fold_prior : ℚ) :
    (e.SetPrior P w).CalcValue4 label_sum count_in_fold count_all_folds fold_prior
        = .ok (fdiv (label_sum + fold_prior * w) (count_in_fold + w))
    ∧ (e.SetPrior P w).CalcValue3 label_sum count_in_fold count_all_folds
        = .ok (fdiv (label_sum + P * w) (count_in_fold + w)) := by
  constructor
  · simp [TargetEncoderLabelMean.CalcValue4, TargetEncoderLabelMean.SetPrior]
  · simp [TargetEncoderLabelMean.CalcValue3, TargetEncoderLabelMean.SetPrior, mul_comm]

/-- C3: both `CalcValue` overloads of a `CountEncoder` return exactly `count_all_folds`. -/
theorem CountEncoder_CalcValue_is_count_all_folds
    (e : CountEncoder) (label_sum count_in_fold count_all_folds fold_prior : ℚ) :
    e.CalcValue4 label_sum count_in_fold count_all_folds fold_prior = .ok (some count_all_folds)
    ∧ e.CalcValue3 label_sum count_in_fold count_all_folds = .ok (some count_all_folds) :=
  ⟨rfl, rfl⟩

/-! ## Lookups of the encoding statistics -/

/-- Counterexample to C5 as stated: the prior weight `w = 0` is admissible (`w >= 0`), and
a `TargetEncoder` with prior `P = 1/2` and `w = 0` does not return `P` on the aggregates
`(0,0,0)` of an unseen category; the quotient is `0/0`, which is not a number. -/
theorem unseen_category_counterexample :
    (0 : ℚ) ≤ (TargetEncoder.mk [] (1/2) 0).prior_weight_
    ∧ (TargetEncoder.mk [] (1/2) 0).CalcValue3 0 0 0 = .ok none
    ∧ (TargetEncoder.mk [] (1/2) 0).CalcValue3 0 0 0
        ≠ .ok (some (TargetEncoder.mk [] (1/2) 0).prior_)
    ∧ (TargetEncoder.mk [] (1/2) 0).CalcValue4 0 0 0 (1/2) = .ok none := by
  simp [TargetEncoder.CalcValue3, TargetEncoder.CalcValue4, fdiv]

/-- C5 (amended): a value whose integer key is absent from the count maps consulted has the
aggregates `(0,0,0)` in the inference view and in the training view; on `(0,0,0)` a
`CountEncoder` returns 0, and a `TargetEncoder` with prior `P` and prior weight `w`
returns the quotient `(0 + P*w) / (0 + w)`, which in exact arithmetic is `P` for every
`w > 0` and is `0/0`, not a number, for `w = 0`. -/
theorem unseen_category_encoding :
    (∀ (p : CategoryEncodingProvider) (fid : Int) (fval : ℚ) (fold_id : Int)
        (lv : List (UMap ℚ)) (cv : List (UMap Int)) (lm : UMap ℚ) (cm : UMap Int),
      UMap.find? p.label_info_ fid = some lv → lv.getLast? = some lm →
      UMap.find? p.count_info_ fid = some cv → cv.getLast? = some cm →
      UMap.find? cm (static_cast_int fval) = none →
      p.GetCategoryEncodingStatForOneCatValue false fid fval fold_id = .ok ⟨0, 0, 0⟩)
    ∧ (∀ (p : CategoryEncodingProvider) (fid : Int) (fval : ℚ) (fold_id : Nat)
        (lv : List (UMap ℚ)) (cv : List (UMap Int)) (lm : UMap ℚ) (cm am : UMap Int),
      UMap.find? p.label_info_ fid = some lv → lv[fold_id]? = some lm →
      UMap.find? p.count_info_ fid = some cv → cv[fold_id]? = some cm →
      cv.getLast? = some am →
      UMap.find? cm (static_cast_int fval) = none →
      UMap.find? am (static_cast_int fval) = none →
      p.GetCategoryEncodingStatForOneCatValue true fid fval (fold_id : Int) = .ok ⟨0, 0, 0⟩)
    ∧ (∀ (e : CountEncoder) (fold_prior : ℚ),
      e.CalcValue3 0 0 0 = .ok (some 0) ∧ e.CalcValue4 0 0 0 fold_prior = .ok (some 0))
    ∧ (∀ (e : TargetEncoder) (fold_prior : ℚ),
      e.CalcValue3 0 0 0 = .ok (fdiv (0 + e.prior_ * e.prior_weight_) (0 + e.prior_weight_))
      ∧ e.CalcValue4 0 0 0 fold_prior
          = .ok (fdiv (0 + e.prior_ * e.prior_weight_) (0 + e.prior_weight_))
      ∧ (0 < e.prior_weight_ →
          fdiv (0 + e.prior_ * e.prior_weight_) (0 + e.prior_weight_) = some e.prior_)
      ∧ (e.prior_weight_ = 0 →
          fdiv (0 + e.prior_ * e.prior_weight_) (0 + e.prior_weight_) = none)) := by
  refine ⟨?_, ?_, fun e fp => ⟨rfl, rfl⟩, ?_⟩
  · intro p fid fval fold_id lv cv lm cm hl hlm hc hcm hk
    rw [get_stat_infer_eq p fid fval fold_id lv cv lm cm hl hlm hc hcm, hk]
  · intro p fid fval fold_id lv cv lm cm am hl hlm hc hcm ham hk hak
    rw [get_stat_train_eq p fid fval fold_id lv cv lm cm am hl hlm hc hcm ham, hk]
    simp [UMap.index, hak]
  · intro e fp
    refine ⟨rfl, rfl, fun hw => ?_, fun hw => ?_⟩
    · have hne : e.prior_weight_ ≠ 0 := ne_of_gt hw
      simp [fdiv, hne]
    · simp [fdiv, hw]

/-- Witness of C5 (amended): a provider whose all-folds maps of feature 0 hold only the
key 1, looked up at the raw value 7, and a `TargetEncoder` with prior 1/2 and weight 2. -/
theorem unseen_category_encoding_witness :
    (CategoryEncodingProvider.mk [] [] 1 2 [(0, [[(1, 2)]])] [(0, [[(1, 1)]])] []
        ).GetCategoryEncodingStatForOneCatValue false 0 7 0 = .ok ⟨0, 0, 0⟩
    ∧ (TargetEncoder.mk [] (1/2) 2).CalcValue3 0 0 0 = .ok (some (1/2)) := by
  constructor
  · exact unseen_category_encoding.1
      (CategoryEncodingProvider.mk [] [] 1 2 [(0, [[(1, 2)]])] [(0, [[(1, 1)]])] [])
      0 7 0 [[(1, 1)]] [[(1, 2)]] [(1, 1)] [(1, 2)] rfl rfl rfl rfl
      (by simp [UMap.find?, static_cast_int, Int.tdiv])
  · have h := unseen_category_encoding.2.2.2 (TargetEncoder.mk [] (1/2) 2) 0
    rw [h.1, h.2.2.1 (by norm_num)]


/-- C6: the inference-view lookup does not depend on `fold_id`; it reads the last entries
of `label_info_[fid]` and `count_info_[fid]`, returns the label sum and the count stored
there for the key `int(fval)` (zeros for a key absent from the count map), and its
`count_all_folds` always equals its `count_in_fold`. -/
theorem inference_lookup_reads_all_folds_entry :
    (∀ (p : CategoryEncodingProvider) (fid : Int) (fval : ℚ) (fold_id fold_id' : Int),
      p.GetCategoryEncodingStatForOneCatValue false fid fval fold_id
        = p.GetCategoryEncodingStatForOneCatValue false fid fval fold_id')
    ∧ (∀ (p : CategoryEncodingProvider) (fid : Int) (fval : ℚ) (fold_id : Int)
        (lv : List (UMap ℚ)) (cv : List (UMap Int)) (lm : UMap ℚ) (cm : UMap Int),
      UMap.find? p.label_info_ fid = some lv → lv.getLast? = some lm →
      UMap.find? p.count_info_ fid = some cv → cv.getLast? = some cm →
      (∀ (c : Int) (l : ℚ), UMap.find? cm (static_cast_int fval) = some c →
        UMap.find? lm (static_cast_int fval) = some l →
        p.GetCategoryEncodingStatForOneCatValue false fid fval fold_id
          = .ok ⟨l, (c : ℚ), (c : ℚ)⟩)
      ∧ (UMap.find? cm (static_cast_int fval) = none →
        p.GetCategoryEncodingStatForOneCatValue false fid fval fold_id = .ok ⟨0, 0, 0⟩))
    ∧ (∀ (p : CategoryEncodingProvider) (fid : Int) (fval : ℚ) (fold_id : Int)
        (s : EncodingStat),
      p.GetCategoryEncodingStatForOneCatValue false fid fval fold_id = .ok s →
      s.all_fold_total_count = s.total_count) := by
  refine ⟨fun p fid fval fold_id fold_id' => rfl, ?_, ?_⟩
  · intro p fid fval fold_id lv cv lm cm hl hlm hc hcm
    rw [get_stat_infer_eq p fid fval fold_id lv cv lm cm hl hlm hc hcm]
    refine ⟨fun c l h1 h2 => ?_, fun h1 => ?_⟩
    · rw [h1, h2]
    · rw [h1]
  · intro p fid fval fold_id s hs
    unfold CategoryEncodingProvider.GetCategoryEncodingStatForOneCatValue at hs
    simp only [Bool.false_eq_true, if_false, bind, Except.bind, pure, Except.pure] at hs
    repeat' split at hs
    all_goals (cases hs; try rfl)

/-- Witness of C6: the all-folds maps of feature 0 store count 2 and label sum 1 under the
key 1; the inference view of the raw value 1 returns them, whatever the fold id. -/
theorem inference_lookup_reads_all_folds_entry_witness :
    (CategoryEncodingProvider.mk [] [] 1 2 [(0, [[(1, 5)], [(1, 2)]])]
        [(0, [[(1, 3)], [(1, 1)]])] []).GetCategoryEncodingStatForOneCatValue false 0 1 0
      = .ok ⟨1, 2, 2⟩ := by
  have h := (inference_lookup_reads_all_folds_entry.2.1
      (CategoryEncodingProvider.mk [] [] 1 2 [(0, [[(1, 5)], [(1, 2)]])]
        [(0, [[(1, 3)], [(1, 1)]])] [])
      0 1 0 [[(1, 3)], [(1, 1)]] [[(1, 5)], [(1, 2)]] [(1, 1)] [(1, 2)] rfl rfl rfl rfl).1 2 1
      (by simp [UMap.find?, static_cast_int, Int.tdiv])
      (by simp [UMap.find?, static_cast_int, Int.tdiv])
  simpa using h

/-- C7: in the training view, for a feature with stored statistics and a fold id that
indexes its per-fold vectors, the lookup returns the label sum and the count stored for
the key `int(fval)` in entry `fold_id`, and as `count_all_folds` the count stored for the
key in the last entry of `count_info_[fid]`; a key absent from the fold's count map gives
label sum 0 and count 0, a key absent from the last count map gives `count_all_folds` 0. -/
theorem training_lookup_reads_fold_entry
    (p : CategoryEncodingProvider) (fid : Int) (fval : ℚ) (fold_id : Nat)
    (lv : List (UMap ℚ)) (cv : List (UMap Int)) (lm : UMap ℚ) (cm am : UMap Int)
    (hl : UMap.find? p.label_info_ fid = some lv) (hlm : lv[fold_id]? = some lm)
    (hc : UMap.find? p.count_info_ fid = some cv) (hcm : cv[fold_id]? = some cm)
    (ham : cv.getLast? = some am) :
    (∀ (c a : Int) (l : ℚ), UMap.find? cm (static_cast_int fval) = some c →
        UMap.find? lm (static_cast_int fval) = some l →
        UMap.find? am (static_cast_int fval) = some a →
        p.GetCategoryEncodingStatForOneCatValue true fid fval (fold_id : Int)
          = .ok ⟨l, (c : ℚ), (a : ℚ)⟩)
    ∧ (∀ (c : Int) (l : ℚ), UMap.find? cm (static_cast_int fval) = some c →
        UMap.find? lm (static_cast_int fval) = some l →
        UMap.find? am (static_cast_int fval) = none →
        p.GetCategoryEncodingStatForOneCatValue true fid fval (fold_id : Int)
          = .ok ⟨l, (c : ℚ), 0⟩)
    ∧ (∀ (a : Int), UMap.find? cm (static_cast_int fval) = none →
        UMap.find? am (static_cast_int fval) = some a →
        p.GetCategoryEncodingStatForOneCatValue true fid fval (fold_id : Int)
          = .ok ⟨0, 0, (a : ℚ)⟩)
    ∧ (UMap.find? cm (static_cast_int fval) = none →
        UMap.find? am (static_cast_int fval) = none →
        p.GetCategoryEncodingStatForOneCatValue true fid fval (fold_id : Int)
          = .ok ⟨0, 0, 0⟩) := by
  rw [get_stat_train_eq p fid fval fold_id lv cv lm cm am hl hlm hc hcm ham]
  refine ⟨fun c a l h1 h2 h3 => ?_, fun c l h1 h2 h3 => ?_, fun a h1 h3 => ?_,
    fun h1 h3 => ?_⟩ <;> simp [UMap.index, *]

/-- Witness of C7: two folds; entry 0 of feature 0 stores count 5 and label sum 3 under the
key 1, the all-folds count map stores 7; the training view of the raw value 1 in fold 0
returns `(3, 5, 7)`. -/
theorem training_lookup_reads_fold_entry_witness :
    (CategoryEncodingProvider.mk [] [] 1 2 [(0, [[(1, 5)], [(1, 2)], [(1, 7)]])]
        [(0, [[(1, 3)], [(1, 1)], [(1, 4)]])] []).GetCategoryEncodingStatForOneCatValue
        true 0 1 0
      = .ok ⟨3, 5, 7⟩ := by
  have h := (training_lookup_reads_fold_entry
      (CategoryEncodingProvider.mk [] [] 1 2 [(0, [[(1, 5)], [(1, 2)], [(1, 7)]])]
        [(0, [[(1, 3)], [(1, 1)], [(1, 4)]])] [])
      0 1 0 [[(1, 3)], [(1, 1)], [(1, 4)]] [[(1, 5)], [(1, 2)], [(1, 7)]]
      [(1, 3)] [(1, 5)] [(1, 7)] rfl rfl rfl rfl rfl).1 5 7 3
      (by simp [UMap.find?, static_cast_int, Int.tdiv])
      (by simp [UMap.find?, static_cast_int, Int.tdiv])
      (by simp [UMap.find?, static_cast_int, Int.tdiv])
  simpa using h

/-- C8: starting from empty all-folds maps, after `AddCountAndLabel(cat_i, 1, label_i)` for
every row of a list (row indices are `int`, so fewer than `2^31` rows), the inference-view
lookup of a value with key `k` returns as count the number of rows with `cat_i = k` and as
label sum the sum of their labels, and a `CountEncoder` encodes the value as that number. -/
theorem accumulate_then_lookup_exact
    (rows : List (Int × ℚ)) (p : CategoryEncodingProvider) (fid : Int) (fval : ℚ)
    (fold_id : Int) (lv : List (UMap ℚ)) (cv : List (UMap Int))
    (hn : rows.length < 2147483648)
    (hl : UMap.find? p.label_info_ fid = some lv)
    (hlm : lv.getLast? = some (accumulate_rows rows ([], [])).2)
    (hc : UMap.find? p.count_info_ fid = some cv)
    (hcm : cv.getLast? = some (accumulate_rows rows ([], [])).1) :
    p.GetCategoryEncodingStatForOneCatValue false fid fval fold_id
        = .ok ⟨cat_label_sum rows (static_cast_int fval),
            (cat_count rows (static_cast_int fval) : ℚ),
            (cat_count rows (static_cast_int fval) : ℚ)⟩
    ∧ ∀ (e : CountEncoder),
      p.HandleOneCatConverter false fid fval fold_id (.count e)
        = .ok (some (cat_count rows (static_cast_int fval) : ℚ)) := by
  have h := get_stat_infer_eq p fid fval fold_id lv cv _ _ hl hlm hc hcm
  rw [accumulate_rows_lookup rows (static_cast_int fval) hn] at h
  refine ⟨h, fun e => ?_⟩
  simp [CategoryEncodingProvider.HandleOneCatConverter, h, bind, Except.bind,
    CategoryFeatureEncoder.CalcValue3, CountEncoder.CalcValue3]

/-- Witness of C8: the rows `(A,1), (A,0), (B,1)` with `A = 1`, `B = 2`; a `CountEncoder`
encodes `A` as 2, `B` as 1 and the unseen `C = 3` as 0. -/
theorem accumulate_then_lookup_exact_witness :
    (CategoryEncodingProvider.mk [] [] 1 2
        [(0, [(accumulate_rows [(1, 1), (1, 0), (2, 1)] ([], [])).1])]
        [(0, [(accumulate_rows [(1, 1), (1, 0), (2, 1)] ([], [])).2])]
        [.count CountEncoder.new]).HandleOneCatConverter false 0 1 0 (.count CountEncoder.new)
      = .ok (some 2)
    ∧ (CategoryEncodingProvider.mk [] [] 1 2
        [(0, [(accumulate_rows [(1, 1), (1, 0), (2, 1)] ([], [])).1])]
        [(0, [(accumulate_rows [(1, 1), (1, 0), (2, 1)] ([], [])).2])]
        [.count CountEncoder.new]).HandleOneCatConverter false 0 2 0 (.count CountEncoder.new)
      = .ok (some 1)
    ∧ (CategoryEncodingProvider.mk [] [] 1 2
        [(0, [(accumulate_rows [(1, 1), (1, 0), (2, 1)] ([], [])).1])]
        [(0, [(accumulate_rows [(1, 1), (1, 0), (2, 1)] ([], [])).2])]
        [.count CountEncoder.new]).HandleOneCatConverter false 0 3 0 (.count CountEncoder.new)
      = .ok (some 0) := by
  refine ⟨?_, ?_, ?_⟩
  · have h := (accumulate_then_lookup_exact [(1, 1), (1, 0), (2, 1)]
      (CategoryEncodingProvider.mk [] [] 1 2
        [(0, [(accumulate_rows [(1, 1), (1, 0), (2, 1)] ([], [])).1])]
        [(0, [(accumulate_rows [(1, 1), (1, 0), (2, 1)] ([], [])).2])]
        [.count CountEncoder.new]) 0 1 0 _ _ (by simp) rfl rfl rfl rfl).2 CountEncoder.new
    rw [h]
    simp [cat_count, rows_of_cat, static_cast_int, Int.tdiv, List.filter_cons]
  · have h := (accumulate_then_lookup_exact [(1, 1), (1, 0), (2, 1)]
      (CategoryEncodingProvider.mk [] [] 1 2
        [(0, [(accumulate_rows [(1, 1), (1, 0), (2, 1)] ([], [])).1])]
        [(0, [(accumulate_rows [(1, 1), (1, 0), (2, 1)] ([], [])).2])]
        [.count CountEncoder.new]) 0 2 0 _ _ (by simp) rfl rfl rfl rfl).2 CountEncoder.new
    rw [h]
    simp [cat_count, rows_of_cat, static_cast_int, Int.tdiv, List.filter_cons]
  · have h := (accumulate_then_lookup_exact [(1, 1), (1, 0), (2, 1)]
      (CategoryEncodingProvider.mk [] [] 1 2
        [(0, [(accumulate_rows [(1, 1), (1, 0), (2, 1)] ([], [])).1])]
        [(0, [(accumulate_rows [(1, 1), (1, 0), (2, 1)] ([], [])).2])]
        [.count CountEncoder.new]) 0 3 0 _ _ (by simp) rfl rfl rfl rfl).2 CountEncoder.new
    rw [h]
    simp [cat_count, rows_of_cat, static_cast_int, Int.tdiv, List.filter_cons]

/-! ## Failure behaviour of the encoders -/

/-- C9: a `TargetEncoderLabelMean` whose prior has not been set (as the constructor leaves
it) fails with the fatal error of the unset prior on both `CalcValue` overloads, for every
argument; after `SetPrior(P, w)` both overloads return a value and do not raise it. -/
theorem TargetEncoderLabelMean_unset_prior_fatal :
    (∀ (a b : ℚ), (TargetEncoderLabelMean.new a b).prior_set_ = false)
    ∧ (∀ (e : TargetEncoderLabelMean) (label_sum count_in_fold count_all_folds fold_prior : ℚ),
      e.prior_set_ = false →
      e.CalcValue3 label_sum count_in_fold count_all_folds = .error (.fatal prior_not_set_msg)
      ∧ e.CalcValue4 label_sum count_in_fold count_all_folds fold_prior
          = .error (.fatal prior_not_set_msg))
    ∧ (∀ (e : TargetEncoderLabelMean)
        (P w label_sum count_in_fold count_all_folds fold_prior : ℚ),
      (∃ v, (e.SetPrior P w).CalcValue3 label_sum count_in_fold count_all_folds = .ok v)
      ∧ (∃ v, (e.SetPrior P w).CalcValue4 label_sum count_in_fold count_all_folds fold_prior
          = .ok v)
      ∧ (e.SetPrior P w).CalcValue3 label_sum count_in_fold count_all_folds
          ≠ .error (.fatal prior_not_set_msg)
      ∧ (e.SetPrior P w).CalcValue4 label_sum count_in_fold count_all_folds fold_prior
          ≠ .error (.fatal prior_not_set_msg)) := by
  refine ⟨fun a b => rfl, ?_, ?_⟩
  · intro e ls c a fp h
    simp [TargetEncoderLabelMean.CalcValue3, TargetEncoderLabelMean.CalcValue4, h]
  · intro e P w ls c a fp
    simp [TargetEncoderLabelMean.CalcValue3, TargetEncoderLabelMean.CalcValue4,
      TargetEncoderLabelMean.SetPrior]

/-- Witness of C9: the freshly constructed encoder fails on the aggregates `(1, 2, 2)`. -/
theorem TargetEncoderLabelMean_unset_prior_fatal_witness :
    (TargetEncoderLabelMean.new 0 0).CalcValue3 1 2 2 = .error (.fatal prior_not_set_msg)
    ∧ (TargetEncoderLabelMean.new 0 0).CalcValue4 1 2 2 (1/2)
        = .error (.fatal prior_not_set_msg) :=
  TargetEncoderLabelMean_unset_prior_fatal.2.1 (TargetEncoderLabelMean.new 0 0) 1 2 2 (1/2) rfl

/-- Counterexample to C10 as stated: the prior weight `w = 0` is admissible and an unseen
category has `count_in_fold = 0`; the divisor `count_in_fold + w` is then zero and neither
the `TargetEncoder` nor the `TargetEncoderLabelMean` result is a number. -/
theorem CalcValue_zero_divisor_counterexample :
    (0 : ℚ) ≤ (TargetEncoder.mk [] (1/2) 0).prior_weight_
    ∧ (0 : ℚ) + (TargetEncoder.mk [] (1/2) 0).prior_weight_ = 0
    ∧ (TargetEncoder.mk [] (1/2) 0).CalcValue3 1 0 0 = .ok none
    ∧ (TargetEncoder.mk [] (1/2) 0).CalcValue4 1 0 0 (1/2) = .ok none
    ∧ ((TargetEncoderLabelMean.new 0 0).SetPrior (1/2) 0).CalcValue3 1 0 0 = .ok none
    ∧ ((TargetEncoderLabelMean.new 0 0).SetPrior (1/2) 0).CalcValue4 1 0 0 (1/2) = .ok none := by
  simp [TargetEncoder.CalcValue3, TargetEncoder.CalcValue4, TargetEncoderLabelMean.CalcValue3,
    TargetEncoderLabelMean.CalcValue4, TargetEncoderLabelMean.SetPrior,
    TargetEncoderLabelMean.new, fdiv]

/-- C10 (amended): once constructed (a `TargetEncoderLabelMean` with its prior set), no
encoder raises an error in either `CalcValue` overload, for any arguments.  A
`CountEncoder` returns the number `count_all_folds`.  For a `TargetEncoder` and a
`TargetEncoderLabelMean` with prior weight `w >= 0` and `count_in_fold >= 0`, the divisor
`count_in_fold + w` is zero exactly when `w` and `count_in_fold` are both zero; the result
is not a number when the divisor is zero, and in exact arithmetic it is a number whenever
the divisor is not zero. -/
theorem CalcValue_well_defined :
    (∀ (e : CountEncoder) (label_sum count_in_fold count_all_folds fold_prior : ℚ),
      e.CalcValue3 label_sum count_in_fold count_all_folds = .ok (some count_all_folds)
      ∧ e.CalcValue4 label_sum count_in_fold count_all_folds fold_prior
          = .ok (some count_all_folds))
    ∧ (∀ (e : TargetEncoder) (label_sum count_in_fold count_all_folds fold_prior : ℚ),
      (∃ x, e.CalcValue3 label_sum count_in_fold count_all_folds = .ok x)
      ∧ (∃ x, e.CalcValue4 label_sum count_in_fold count_all_folds fold_prior = .ok x))
    ∧ (∀ (e : TargetEncoderLabelMean)
        (P w label_sum count_in_fold count_all_folds fold_prior : ℚ),
      (∃ x, (e.SetPrior P w).CalcValue3 label_sum count_in_fold count_all_folds = .ok x)
      ∧ (∃ x, (e.SetPrior P w).CalcValue4 label_sum count_in_fold count_all_folds fold_prior
          = .ok x))
    ∧ (∀ w count_in_fold : ℚ, 0 ≤ w → 0 ≤ count_in_fold →
      (count_in_fold + w = 0 ↔ (w = 0 ∧ count_in_fold = 0)))
    ∧ (∀ (e : TargetEncoder) (label_sum count_in_fold count_all_folds fold_prior : ℚ),
      (count_in_fold + e.prior_weight_ ≠ 0 →
        (∃ v, e.CalcValue3 label_sum count_in_fold count_all_folds = .ok (some v))
        ∧ (∃ v, e.CalcValue4 label_sum count_in_fold count_all_folds fold_prior
            = .ok (some v)))
      ∧ (count_in_fold + e.prior_weight_ = 0 →
        e.CalcValue3 label_sum count_in_fold count_all_folds = .ok none
        ∧ e.CalcValue4 label_sum count_in_fold count_all_folds fold_prior = .ok none))
    ∧ (∀ (e : TargetEncoderLabelMean)
        (P w label_sum count_in_fold count_all_folds fold_prior : ℚ),
      (count_in_fold + w ≠ 0 →
        (∃ v, (e.SetPrior P w).CalcValue3 label_sum count_in_fold count_all_folds
            = .ok (some v))
        ∧ (∃ v, (e.SetPrior P w).CalcValue4 label_sum count_in_fold count_all_folds
            fold_prior = .ok (some v)))
      ∧ (count_in_fold + w = 0 →
        (e.SetPrior P w).CalcValue3 label_sum count_in_fold count_all_folds = .ok none
        ∧ (e.SetPrior P w).CalcValue4 label_sum count_in_fold count_all_folds fold_prior
            = .ok none)) := by
  refine ⟨fun e ls c a fp => ⟨rfl, rfl⟩, fun e ls c a fp => ⟨⟨_, rfl⟩, ⟨_, rfl⟩⟩, ?_, ?_, ?_, ?_⟩
  · intro e P w ls c a fp
    simp [TargetEncoderLabelMean.CalcValue3, TargetEncoderLabelMean.CalcValue4,
      TargetEncoderLabelMean.SetPrior]
  · intro w c hw hc
    constructor
    · intro h
      constructor <;> linarith
    · rintro ⟨h1, h2⟩
      rw [h1, h2, add_zero]
  · intro e ls c a fp
    constructor
    · intro hne
      simp [TargetEncoder.CalcValue3, TargetEncoder.CalcValue4, fdiv, hne]
    · intro h0
      simp [TargetEncoder.CalcValue3, TargetEncoder.CalcValue4, fdiv, h0]
  · intro e P w ls c a fp
    constructor
    · intro hne
      simp [TargetEncoderLabelMean.CalcValue3, TargetEncoderLabelMean.CalcValue4,
        TargetEncoderLabelMean.SetPrior, fdiv, hne]
    · intro h0
      simp [TargetEncoderLabelMean.CalcValue3, TargetEncoderLabelMean.CalcValue4,
        TargetEncoderLabelMean.SetPrior, fdiv, h0]

/-- Witness of C10 (amended): prior weight 0 with a seen category (`count_in_fold = 2`),
and prior weight 1 with an unseen one (`count_in_fold = 0`). -/
theorem CalcValue_well_defined_witness :
    ((∃ v, (TargetEncoder.mk [] (1/2) 0).CalcValue3 1 2 2 = .ok (some v))
      ∧ (∃ v, (TargetEncoder.mk [] (1/2) 0).CalcValue4 1 2 2 (1/3) = .ok (some v)))
    ∧ ((∃ v, ((TargetEncoderLabelMean.new 0 0).SetPrior (1/2) 1).CalcValue3 0 0 0
          = .ok (some v))
      ∧ (∃ v, ((TargetEncoderLabelMean.new 0 0).SetPrior (1/2) 1).CalcValue4 0 0 0 (1/3)
          = .ok (some v))) :=
  ⟨(CalcValue_well_defined.2.2.2.2.1 (TargetEncoder.mk [] (1/2) 0) 1 2 2 (1/3)).1
      (by norm_num),
   (CalcValue_well_defined.2.2.2.2.2 (TargetEncoderLabelMean.new 0 0) (1/2) 1 0 0 0 (1/3)).1
      (by norm_num)⟩

/-! ## Integer keys of category values -/

theorem static_cast_int_range (x : ℚ) :
    -2147483648 ≤ static_cast_int x ∧ static_cast_int x ≤ 2147483647 := by
  unfold static_cast_int
  simp only
  split_ifs with h
  · exact h
  · constructor <;> norm_num

theorem static_cast_int_intCast (k : Int) (h1 : -2147483648 ≤ k) (h2 : k ≤ 2147483647) :
    static_cast_int (k : ℚ) = k := by
  unfold static_cast_int
  simp [h1, h2]

/-- C11: category values are matched by their truncated integer key.  The key
`static_cast<int>(z)` of a raw value `z` is its truncation toward zero (the floor of a
non-negative value, the ceiling of a negative one) when that is an `int`.  Two raw values
`x`, `y` with the same key get identical lookup results in either view, and these are the
aggregates stored under that key: in the inference view the label sum and the count of the
all-folds maps at the key, in the training view the label sum and the count of the maps of
the fold at the key and the all-folds count at the key (zeros for a key that is absent
from the count map). -/
theorem lookup_matches_truncated_key
    (p : CategoryEncodingProvider) (fid : Int) (x y : ℚ)
    (h : static_cast_int x = static_cast_int y) :
    (∀ (IS_TRAIN : Bool) (fold_id : Int),
      p.GetCategoryEncodingStatForOneCatValue IS_TRAIN fid x fold_id
        = p.GetCategoryEncodingStatForOneCatValue IS_TRAIN fid y fold_id)
    ∧ (∀ (fold_id : Int) (lv : List (UMap ℚ)) (cv : List (UMap Int)) (lm : UMap ℚ)
        (cm : UMap Int),
      UMap.find? p.label_info_ fid = some lv → lv.getLast? = some lm →
      UMap.find? p.count_info_ fid = some cv → cv.getLast? = some cm →
      (∀ (c : Int) (l : ℚ), UMap.find? cm (static_cast_int x) = some c →
        UMap.find? lm (static_cast_int x) = some l →
        p.GetCategoryEncodingStatForOneCatValue false fid x fold_id = .ok ⟨l, (c : ℚ), (c : ℚ)⟩
        ∧ p.GetCategoryEncodingStatForOneCatValue false fid y fold_id
            = .ok ⟨l, (c : ℚ), (c : ℚ)⟩)
      ∧ (UMap.find? cm (static_cast_int x) = none →
        p.GetCategoryEncodingStatForOneCatValue false fid x fold_id = .ok ⟨0, 0, 0⟩
        ∧ p.GetCategoryEncodingStatForOneCatValue false fid y fold_id = .ok ⟨0, 0, 0⟩))
    ∧ (∀ (f : Nat) (lv : List (UMap ℚ)) (cv : List (UMap Int)) (lm : UMap ℚ)
        (cm am : UMap Int),
      UMap.find? p.label_info_ fid = some lv → lv[f]? = some lm →
      UMap.find? p.count_info_ fid = some cv → cv[f]? = some cm →
      cv.getLast? = some am →
      (∀ (c : Int) (l : ℚ), UMap.find? cm (static_cast_int x) = some c →
        UMap.find? lm (static_cast_int x) = some l →
        p.GetCategoryEncodingStatForOneCatValue true fid x (f : Int)
            = .ok ⟨l, (c : ℚ), ((UMap.index am (static_cast_int x) : Int) : ℚ)⟩
        ∧ p.GetCategoryEncodingStatForOneCatValue true fid y (f : Int)
            = .ok ⟨l, (c : ℚ), ((UMap.index am (static_cast_int x) : Int) : ℚ)⟩)
      ∧ (UMap.find? cm (static_cast_int x) = none →
        p.GetCategoryEncodingStatForOneCatValue true fid x (f : Int)
            = .ok ⟨0, 0, ((UMap.index am (static_cast_int x) : Int) : ℚ)⟩
        ∧ p.GetCategoryEncodingStatForOneCatValue true fid y (f : Int)
            = .ok ⟨0, 0, ((UMap.index am (static_cast_int x) : Int) : ℚ)⟩))
    ∧ (∀ z : ℚ, -2147483648 ≤ z.num.tdiv z.den → z.num.tdiv z.den ≤ 2147483647 →
        static_cast_int z = (if 0 ≤ z then ⌊z⌋ else ⌈z⌉)) := by
  have hxy : ∀ (IS_TRAIN : Bool) (fold_id : Int),
      p.GetCategoryEncodingStatForOneCatValue IS_TRAIN fid x fold_id
        = p.GetCategoryEncodingStatForOneCatValue IS_TRAIN fid y fold_id := by
    intro IS_TRAIN fold_id
    unfold CategoryEncodingProvider.GetCategoryEncodingStatForOneCatValue
    simp only [h]
  refine ⟨hxy, ?_, ?_, ?_⟩
  · intro fold_id lv cv lm cm hl hlm hc hcm
    have e := get_stat_infer_eq p fid x fold_id lv cv lm cm hl hlm hc hcm
    refine ⟨fun c l h1 h2 => ?_, fun h1 => ?_⟩
    · rw [h1, h2] at e
      exact ⟨e, (hxy false fold_id) ▸ e⟩
    · rw [h1] at e
      exact ⟨e, (hxy false fold_id) ▸ e⟩
  · intro f lv cv lm cm am hl hlm hc hcm ham
    have e := get_stat_train_eq p fid x f lv cv lm cm am hl hlm hc hcm ham
    refine ⟨fun c l h1 h2 => ?_, fun h1 => ?_⟩
    · rw [h1, h2] at e
      exact ⟨e, (hxy true f) ▸ e⟩
    · rw [h1] at e
      exact ⟨e, (hxy true f) ▸ e⟩
  · intro z h1 h2
    unfold static_cast_int
    simp only [h1, h2, and_self, if_true]
    by_cases hz : 0 ≤ z
    · rw [if_pos hz, Rat.floor_def]
      have hn : 0 ≤ z.num := Rat.num_nonneg.mpr hz
      exact Int.tdiv_eq_ediv hn (Int.natCast_nonneg _)
    · rw [if_neg hz]
      have hn : z.num < 0 := Rat.num_neg.mpr (not_le.mp hz)
      have hc : ⌈z⌉ = -⌊-z⌋ := by rw [Int.floor_neg, neg_neg]
      rw [hc, Rat.floor_def, Rat.neg_num, Rat.neg_den]
      have h3 : (-z.num).tdiv (z.den : Int) = (-z.num) / (z.den : Int) :=
        Int.tdiv_eq_ediv (by omega) (Int.natCast_nonneg _)
      rw [← h3, Int.neg_tdiv, neg_neg]

/-- Witness of C11: the all-folds maps of feature 0 store count 5 and label sum 2 under the
key 3; the raw values 3.2 and 3.9 have the key 3 and both get these aggregates. -/
theorem lookup_matches_truncated_key_witness :
    static_cast_int (16/5) = 3 ∧ static_cast_int (39/10) = 3
    ∧ (CategoryEncodingProvider.mk [] [] 1 2 [(0, [[(3, 5)]])] [(0, [[(3, 2)]])]
          []).GetCategoryEncodingStatForOneCatValue false 0 (16/5) 0 = .ok ⟨2, 5, 5⟩
    ∧ (CategoryEncodingProvider.mk [] [] 1 2 [(0, [[(3, 5)]])] [(0, [[(3, 2)]])]
          []).GetCategoryEncodingStatForOneCatValue false 0 (39/10) 0 = .ok ⟨2, 5, 5⟩ := by
  have n1 : (16/5 : ℚ).num = 16 := by norm_num
  have d1 : (16/5 : ℚ).den = 5 := by norm_num
  have n2 : (39/10 : ℚ).num = 39 := by norm_num
  have d2 : (39/10 : ℚ).den = 10 := by norm_num
  have k1 : static_cast_int (16/5) = 3 := by
    simp only [static_cast_int, n1, d1]; decide
  have k2 : static_cast_int (39/10) = 3 := by
    simp only [static_cast_int, n2, d2]; decide
  have hw := ((lookup_matches_truncated_key
    (CategoryEncodingProvider.mk [] [] 1 2 [(0, [[(3, 5)]])] [(0, [[(3, 2)]])] [])
    0 (16/5) (39/10) (by rw [k1, k2])).2.1 0 [[(3, 2)]] [[(3, 5)]] [(3, 2)] [(3, 5)]
    rfl rfl rfl rfl).1 5 2 (by rw [k1]; rfl) (by rw [k1]; rfl)
  refine ⟨k1, k2, ?_, ?_⟩
  · have := hw.1
    simpa using this
  · have := hw.2
    simpa using this

/-! ## JSON form -/

/-- C18, evaluated on the code: the `name` member of the JSON object that a
`TargetEncoderLabelMean` dumps is the string `target_encoder`, the name that denotes the
plain Target encoder, although the line form of the same encoder carries the distinct tag
`target_encoder_label_mean`. -/
theorem TargetEncoderLabelMean_json_name_is_target_encoder (e : TargetEncoderLabelMean)
    (nt : NumberText) :
    e.DumpToJSONObject.member? "name" = some (.string "target_encoder")
    ∧ (TargetEncoderLabelMean.DumpToString nt e).take 31
        = "type=target_encoder_label_mean\n".toList := by
  constructor
  · simp [TargetEncoderLabelMean.DumpToJSONObject, Json.member?, List.find?]
  · simp [TargetEncoderLabelMean.DumpToString]

/-- C19: `TargetEncoderLabelMean::DumpToJSONObject` returns an object with exactly the keys
`name`, `prior` and `categorical_feature_index_to_encoded_feature_index`; `prior` is the
encoder's prior, and the mapping array has one object `{cat_fid, convert_fid}` for each
entry of the encoder's mapping, element `i` coming from entry `i`. -/
theorem TargetEncoderLabelMean_DumpToJSONObject_shape (e : TargetEncoderLabelMean) :
    e.DumpToJSONObject.keys
        = ["name", "prior", "categorical_feature_index_to_encoded_feature_index"]
    ∧ e.DumpToJSONObject.member? "prior" = some (.double e.prior_)
    ∧ ∃ arr : List Json,
        e.DumpToJSONObject.member? "categorical_feature_index_to_encoded_feature_index"
          = some (.array arr)
        ∧ arr.length = e.cat_fid_to_convert_fid_.length
        ∧ ∀ i : Nat, arr[i]? = (e.cat_fid_to_convert_fid_[i]?).map (fun pair =>
            Json.object [("cat_fid", .int pair.1), ("convert_fid", .int pair.2)]) := by
  refine ⟨rfl, ?_, e.cat_fid_to_convert_fid_.map cat_fid_pair_to_json, ?_, ?_, ?_⟩
  · simp [TargetEncoderLabelMean.DumpToJSONObject, Json.member?, List.find?]
  · simp [TargetEncoderLabelMean.DumpToJSONObject, Json.member?, List.find?]
  · simp
  · intro i
    simp only [List.getElem?_map]
    rfl

/-! ## One encoded value per encoder -/

theorem iterate_loop_ok (p : CategoryEncodingProvider) (IS_TRAIN : Bool) (fid fold_id : Int)
    (s : EncodingStat) (encoders : List CategoryFeatureEncoder)
    (outputs : List (Int × Option ℚ))
    (h : List.Forall₂ (fun enc (o : Int × Option ℚ) =>
        p.convert_value IS_TRAIN fold_id s enc = .ok o.2 ∧ enc.GetConvertFid fid = .ok o.1)
      encoders outputs) :
    CategoryEncodingProvider.iterate_loop p IS_TRAIN fid fold_id s encoders
      = (outputs.map (fun o => Call.write_func o.1 fid o.2), .ok ()) := by
  induction h with
  | nil => rfl
  | cons hd _ ih =>
    simp only [CategoryEncodingProvider.iterate_loop, hd.1, hd.2, ih, List.map_cons]

/-- C20: transforming one categorical value makes one `write_func` call per encoder, in the
order of the encoder list, and then one `post_process_func(fid)` call.  When the lookup
returns the aggregates `s` and encoder `i` yields the value `v_i` (four-argument
`CalcValue` with `fold_prior_[fold_id]` in the training view, three-argument `CalcValue` in
the inference view, on the aggregates of that single lookup) and the column
`c_i = GetConvertFid(fid)`, the calls are `write_func(c_0, fid, v_0)`, ...,
`write_func(c_{n-1}, fid, v_{n-1})`, `post_process_func(fid)`. -/
theorem IterateOverCatConvertersInner_calls
    (p : CategoryEncodingProvider) (IS_TRAIN : Bool) (fid : Int) (fval : ℚ) (fold_id : Int)
    (s : EncodingStat) (outputs : List (Int × Option ℚ))
    (hs : p.GetCategoryEncodingStatForOneCatValue IS_TRAIN fid fval fold_id = .ok s)
    (h : List.Forall₂ (fun enc (o : Int × Option ℚ) =>
        p.convert_value IS_TRAIN fold_id s enc = .ok o.2 ∧ enc.GetConvertFid fid = .ok o.1)
      p.category_encoders_ outputs) :
    p.IterateOverCatConvertersInner IS_TRAIN fid fval fold_id
        = (outputs.map (fun o => Call.write_func o.1 fid o.2) ++ [Call.post_process_func fid],
            .ok ())
    ∧ outputs.length = p.category_encoders_.length
    ∧ (∀ enc : CategoryFeatureEncoder,
        p.convert_value false fold_id s enc
          = enc.CalcValue3 s.label_sum s.total_count s.all_fold_total_count)
    ∧ (∀ (enc : CategoryFeatureEncoder) (prior : ℚ),
        Vec.index p.fold_prior_ fold_id = .ok prior →
        p.convert_value true fold_id s enc
          = enc.CalcValue4 s.label_sum s.total_count s.all_fold_total_count prior) := by
  refine ⟨?_, h.length_eq.symm, fun enc => rfl, fun enc prior hp => ?_⟩
  · simp only [CategoryEncodingProvider.IterateOverCatConvertersInner, hs,
      iterate_loop_ok p IS_TRAIN fid fold_id s _ outputs h]
  · simp [CategoryEncodingProvider.convert_value, hp, bind, Except.bind]

/-- Witness of C20: a provider with a Count encoder (output column 5) and a Target encoder
(prior 1/2, weight 2, output column 6); the all-folds maps of feature 0 store count 2 and
label sum 1 under the key 1.  The inference-view transform of the raw value 1 writes
`(5, 0, 2)`, then `(6, 0, 1/2)`, then post-processes feature 0. -/
theorem IterateOverCatConvertersInner_calls_witness :
    (CategoryEncodingProvider.mk [] [] 1 3 [(0, [[(1, 2)]])] [(0, [[(1, 1)]])]
        [.count ⟨[(0, 5)]⟩, .target ⟨[(0, 6)], 1/2, 2⟩]).IterateOverCatConvertersInner
        false 0 1 0
      = ([Call.write_func 5 0 (some 2), Call.write_func 6 0 (some (1/2)),
          Call.post_process_func 0], .ok ()) := by
  have hs : (CategoryEncodingProvider.mk [] [] 1 3 [(0, [[(1, 2)]])] [(0, [[(1, 1)]])]
        [.count ⟨[(0, 5)]⟩, .target ⟨[(0, 6)], 1/2, 2⟩]).GetCategoryEncodingStatForOneCatValue
        false 0 1 0 = .ok ⟨1, 2, 2⟩ := by
    rw [get_stat_infer_eq (CategoryEncodingProvider.mk [] [] 1 3 [(0, [[(1, 2)]])]
        [(0, [[(1, 1)]])] [.count ⟨[(0, 5)]⟩, .target ⟨[(0, 6)], 1/2, 2⟩])
      0 1 0 [[(1, 1)]] [[(1, 2)]] [(1, 1)] [(1, 2)] rfl rfl rfl rfl]
    simp [UMap.find?, static_cast_int, Int.tdiv]
  have h := (IterateOverCatConvertersInner_calls
    (CategoryEncodingProvider.mk [] [] 1 3 [(0, [[(1, 2)]])] [(0, [[(1, 1)]])]
        [.count ⟨[(0, 5)]⟩, .target ⟨[(0, 6)], 1/2, 2⟩])
    false 0 1 0 ⟨1, 2, 2⟩ [(5, some 2), (6, some (1/2))] hs
    (List.Forall₂.cons ⟨rfl, rfl⟩
      (List.Forall₂.cons
        ⟨by norm_num [CategoryEncodingProvider.convert_value, CategoryFeatureEncoder.CalcValue3,
            TargetEncoder.CalcValue3, fdiv], rfl⟩
        List.Forall₂.nil))).1
  simpa using h

/-! ## The column iterator fills implicit zeros -/

theorem raw_value_at_of_split (entries : List (Int × ℚ)) (k : Nat)
    (pre post : List (Int × ℚ)) (h : (-1, 0) :: entries = pre ++ post)
    (hpre : ∀ e ∈ pre, e.1 < (k : Int)) :
    raw_value_at entries k =
      match post.find? (fun e => decide (e.1 = (k : Int))) with
      | some e => e.2
      | none => 0 := by
  have h1 : entries.find? (fun e => decide (e.1 = (k : Int)))
      = ((-1, 0) :: entries).find? (fun e => decide (e.1 = (k : Int))) := by
    have : ¬ ((-1 : Int) = (k : Int)) := by omega
    simp [List.find?_cons, this]
  have h2 : pre.find? (fun e => decide (e.1 = (k : Int))) = none := by
    rw [List.find?_eq_none]
    intro e he
    have := hpre e he
    simp only [decide_eq_true_eq]
    omega
  unfold raw_value_at
  rw [h1, h, List.find?_append, h2]
  simp

theorem find?_none_of_gt (l : List (Int × ℚ)) (k : Int) (h : ∀ e ∈ l, k < e.1) :
    l.find? (fun e => decide (e.1 = k)) = none := by
  rw [List.find?_eq_none]
  intro e he
  have := h e he
  simp only [decide_eq_true_eq]
  omega

theorem csc_invariant_new (entries : List (Int × ℚ)) (is_valid : Bool) (num_row : Int) :
    csc_invariant entries is_valid num_row 0
      (Category_Encoding_CSC_RowIterator.new entries is_valid num_row) := by
  refine ⟨rfl, rfl, rfl, rfl, [], (-1, 0) :: entries, rfl, ?_, Or.inl ?_⟩
  · intro e he; cases he
  · exact ⟨(-1, 0), entries, rfl, rfl, by simp, rfl, rfl⟩

theorem csc_step (ci : ℚ → Except Err (Option ℚ)) (ct : ℚ → Int → Except Err (Option ℚ))
    (entries : List (Int × ℚ)) (is_valid : Bool) (num_row : Int) (k : Nat)
    (it : Category_Encoding_CSC_RowIterator)
    (hsorted : ((-1, 0) :: entries).Pairwise (fun a b => a.1 < b.1))
    (hn : num_row < 2147483648) (hk : (k : Int) < num_row)
    (hinv : csc_invariant entries is_valid num_row k it) :
    (Category_Encoding_CSC_RowIterator.NextNonZero ci ct it).1
        = (if is_valid then ci (raw_value_at entries k)
            else ct (raw_value_at entries k) k).map (fun v => ((k : Int), v))
    ∧ csc_invariant entries is_valid num_row (k + 1)
        (Category_Encoding_CSC_RowIterator.NextNonZero ci ct it).2 := by
  obtain ⟨⟨ents, idx, isend⟩, v, n, cur, cached⟩ := it
  obtain ⟨hent, hv, hnr, hcur, pre, post, hsplit, hpre, hcase⟩ := hinv
  simp only at hent hv hnr hcur hcase
  subst hent hv hnr hcur
  have hw : wrap32 (k : Int) = (k : Int) := by
    unfold wrap32; omega
  have hwn : wrap32 n = n := by
    unfold wrap32; omega
  have hlt : (k : Int) < n := hk
  rcases hcase with ⟨c, rest, hpost, hcached, hc, hend, hidx⟩ | ⟨hpost, hcached, hend, hk1⟩
  · subst hpost hcached hend hidx
    obtain ⟨crow, cval⟩ := cached
    simp only at hc
    have hrest : ∀ x ∈ rest, crow < x.1 := by
      rw [hsplit, List.pairwise_append] at hsorted
      exact (List.pairwise_cons.mp hsorted.2.1).1
    have hget : ents[pre.length]? = rest[0]? := by
      have h1 : ((-1, 0) :: ents)[pre.length + 1]? = ents[pre.length]? := by simp
      rw [← h1, hsplit, List.getElem?_append_right (by omega)]
      simp
    by_cases hfetch : (k : Int) - 1 = crow
    · subst hfetch
      have hpre' : ∀ e ∈ pre ++ [((k : Int) - 1, cval)], e.1 < ((k + 1 : Nat) : Int) - 1 := by
        intro e he
        rcases List.mem_append.mp he with h | h
        · have := hpre e h; push_cast; omega
        · simp only [List.mem_singleton] at h; subst h; push_cast; omega
      cases rest with
      | nil =>
        have hraw := raw_value_at_of_split ents k (pre ++ [((k : Int) - 1, cval)]) []
          (by simpa using hsplit) (by intro e he; have := hpre' e he; push_cast at this; omega)
        simp only [List.find?_nil] at hraw
        simp only [List.getElem?_nil] at hget
        constructor
        · simp [Category_Encoding_CSC_RowIterator.NextNonZero, hlt,
            CSC_RowIterator.NextNonZero, hget, hw, hwn, hraw]
        · refine ⟨?_, ?_, ?_, ?_, pre ++ [((k : Int) - 1, cval)], [], by simpa using hsplit,
            hpre', Or.inr ?_⟩
          · simp [Category_Encoding_CSC_RowIterator.NextNonZero, hlt,
              CSC_RowIterator.NextNonZero, hget, hw, hwn]
          · simp [Category_Encoding_CSC_RowIterator.NextNonZero, hlt, hw, hwn]
          · simp [Category_Encoding_CSC_RowIterator.NextNonZero, hlt, hw, hwn]
          · simp [Category_Encoding_CSC_RowIterator.NextNonZero, hlt, hw, hwn]
          · refine ⟨rfl, ?_, ?_, by omega⟩
            · simp [Category_Encoding_CSC_RowIterator.NextNonZero, hlt,
                CSC_RowIterator.NextNonZero, hget, hw, hwn]
            · simp [Category_Encoding_CSC_RowIterator.NextNonZero, hlt,
                CSC_RowIterator.NextNonZero, hget, hw, hwn]
      | cons c' rest' =>
        obtain ⟨crow', cval'⟩ := c'
        have hc' : (k : Int) ≤ crow' := by
          have := hrest (crow', cval') (by simp)
          simp only at this; omega
        have hrest' : ∀ x ∈ rest', crow' < x.1 := by
          rw [hsplit, List.pairwise_append] at hsorted
          have h2 := (List.pairwise_cons.mp hsorted.2.1).2
          exact (List.pairwise_cons.mp h2).1
        have hraw := raw_value_at_of_split ents k (pre ++ [((k : Int) - 1, cval)])
          ((crow', cval') :: rest')
          (by simpa using hsplit) (by intro e he; have := hpre' e he; push_cast at this; omega)
        simp only [List.getElem?_cons_zero] at hget
        have hinv' : ∀ it' : Category_Encoding_CSC_RowIterator,
            it'.base = { entries := ents, nonzero_idx_ := pre.length + 1, is_end_ := false } →
            it'.is_valid_ = v → it'.num_row_ = n → it'.cur_row_idx_ = (k : Int) →
            it'.cached_pair_ = (crow', cval') → csc_invariant ents v n (k + 1) it' := by
          intro it' h1 h2 h3 h4 h5
          refine ⟨by rw [h1], h2, h3, by rw [h4]; push_cast; omega,
            pre ++ [((k : Int) - 1, cval)], (crow', cval') :: rest', by simpa using hsplit,
            hpre', Or.inl ⟨(crow', cval'), rest', rfl, h5, by push_cast; simpa using hc',
              by rw [h1], by rw [h1]; simp⟩⟩
        by_cases heq : crow' = (k : Int)
        · subst heq
          simp only [List.find?_cons, decide_True] at hraw
          constructor
          · simp [Category_Encoding_CSC_RowIterator.NextNonZero, hlt,
              CSC_RowIterator.NextNonZero, hget, hw, hwn, hraw]
          · apply hinv' <;>
              simp [Category_Encoding_CSC_RowIterator.NextNonZero, hlt,
                CSC_RowIterator.NextNonZero, hget, hw, hwn]
        · have hgt : (k : Int) < crow' := by omega
          have hnone := find?_none_of_gt rest' (k : Int)
            (fun e he => by have := hrest' e he; omega)
          simp only [List.find?_cons, heq, decide_False, hnone] at hraw
          constructor
          · simp [Category_Encoding_CSC_RowIterator.NextNonZero, hlt,
              CSC_RowIterator.NextNonZero, hget, hw, hwn, hraw, hgt]
          · apply hinv' <;>
              simp [Category_Encoding_CSC_RowIterator.NextNonZero, hlt,
                CSC_RowIterator.NextNonZero, hget, hw, hwn]
    · have hge : (k : Int) ≤ crow := by omega
      have hraw := raw_value_at_of_split ents k pre ((crow, cval) :: rest) hsplit
        (by intro e he; have := hpre e he; omega)
      have hnone := find?_none_of_gt rest (k : Int)
        (fun e he => by have := hrest e he; omega)
      have hinv' : ∀ it' : Category_Encoding_CSC_RowIterator,
          it'.base = { entries := ents, nonzero_idx_ := pre.length, is_end_ := false } →
          it'.is_valid_ = v → it'.num_row_ = n → it'.cur_row_idx_ = (k : Int) →
          it'.cached_pair_ = (crow, cval) → csc_invariant ents v n (k + 1) it' := by
        intro it' h1 h2 h3 h4 h5
        refine ⟨by rw [h1], h2, h3, by rw [h4]; push_cast; omega,
          pre, (crow, cval) :: rest, hsplit,
          (fun e he => by have := hpre e he; push_cast; omega),
          Or.inl ⟨(crow, cval), rest, rfl, h5, by push_cast; simpa using hge,
            by rw [h1], by rw [h1]⟩⟩
      by_cases heq : crow = (k : Int)
      · subst heq
        simp only [List.find?_cons, decide_True] at hraw
        constructor
        · simp [Category_Encoding_CSC_RowIterator.NextNonZero, hlt, hfetch,
            hw, hwn, hraw]
        · apply hinv' <;>
            simp [Category_Encoding_CSC_RowIterator.NextNonZero, hlt, hfetch, hw, hwn]
      · have hgt : (k : Int) < crow := by omega
        simp only [List.find?_cons, heq, decide_False, hnone] at hraw
        constructor
        · simp [Category_Encoding_CSC_RowIterator.NextNonZero, hlt, hfetch,
            hw, hwn, hraw, hgt]
        · apply hinv' <;>
            simp [Category_Encoding_CSC_RowIterator.NextNonZero, hlt, hfetch, hw, hwn]
  · subst hpost hcached hend
    have hne : ¬ ((k : Int) - 1 = -1) := by omega
    have hraw := raw_value_at_of_split ents k pre [] hsplit
      (by intro e he; have := hpre e he; omega)
    simp only [List.find?_nil] at hraw
    constructor
    · simp [Category_Encoding_CSC_RowIterator.NextNonZero, hlt, hne, hw, hwn, hraw]
    · refine ⟨?_, ?_, ?_, ?_, pre, [], hsplit,
        (fun e he => by have := hpre e he; push_cast; omega), Or.inr ⟨rfl, ?_, ?_, by omega⟩⟩ <;>
        simp [Category_Encoding_CSC_RowIterator.NextNonZero, hlt, hne, hw, hwn]

theorem after_calls_succ (ci : ℚ → Except Err (Option ℚ)) (ct : ℚ → Int → Except Err (Option ℚ))
    (n : Nat) (it : Category_Encoding_CSC_RowIterator) :
    Category_Encoding_CSC_RowIterator.after_calls ci ct (n + 1) it
      = (Category_Encoding_CSC_RowIterator.NextNonZero ci ct
          (Category_Encoding_CSC_RowIterator.after_calls ci ct n it)).2 := by
  induction n generalizing it with
  | zero => rfl
  | succ m ih =>
    rw [Category_Encoding_CSC_RowIterator.after_calls, ih]
    rfl

theorem csc_invariant_after_calls (ci : ℚ → Except Err (Option ℚ))
    (ct : ℚ → Int → Except Err (Option ℚ)) (entries : List (Int × ℚ)) (is_valid : Bool)
    (num_row : Int) (k : Nat)
    (hsorted : ((-1, 0) :: entries).Pairwise (fun a b => a.1 < b.1))
    (hn : num_row < 2147483648) (hk : (k : Int) ≤ num_row) :
    csc_invariant entries is_valid num_row k
      (Category_Encoding_CSC_RowIterator.after_calls ci ct k
        (Category_Encoding_CSC_RowIterator.new entries is_valid num_row)) := by
  induction k with
  | zero => exact csc_invariant_new entries is_valid num_row
  | succ m ih =>
    rw [after_calls_succ]
    exact (csc_step ci ct entries is_valid num_row m _ hsorted hn (by push_cast at hk; omega)
      (ih (by push_cast at hk; omega))).2

theorem csc_exhausted (ci : ℚ → Except Err (Option ℚ)) (ct : ℚ → Int → Except Err (Option ℚ))
    (it : Category_Encoding_CSC_RowIterator)
    (h : ¬ wrap32 (it.cur_row_idx_ + 1) < wrap32 it.num_row_) (j : Nat) :
    Category_Encoding_CSC_RowIterator.after_calls ci ct j it = it
    ∧ (Category_Encoding_CSC_RowIterator.NextNonZero ci ct it) = (.ok (-1, some 0), it) := by
  have h1 : Category_Encoding_CSC_RowIterator.NextNonZero ci ct it = (.ok (-1, some 0), it) := by
    simp [Category_Encoding_CSC_RowIterator.NextNonZero, h]
  refine ⟨?_, h1⟩
  induction j with
  | zero => rfl
  | succ m ih => rw [Category_Encoding_CSC_RowIterator.after_calls, h1]; exact ih

theorem after_calls_add (ci : ℚ → Except Err (Option ℚ)) (ct : ℚ → Int → Except Err (Option ℚ))
    (a b : Nat) (it : Category_Encoding_CSC_RowIterator) :
    Category_Encoding_CSC_RowIterator.after_calls ci ct (a + b) it
      = Category_Encoding_CSC_RowIterator.after_calls ci ct b
          (Category_Encoding_CSC_RowIterator.after_calls ci ct a it) := by
  induction a generalizing it with
  | zero => simp [Category_Encoding_CSC_RowIterator.after_calls]
  | succ m ih =>
    rw [Nat.succ_add, Category_Encoding_CSC_RowIterator.after_calls, ih]
    rfl

/-- C12: `NextNonZero` fills implicit zeros.  For a freshly constructed (or reset) iterator
over a column of `num_row` rows whose stored entries have strictly increasing row indices
from 0 on, call number `k` (counted from 0, `k < num_row`) returns the pair
`(k, enc(v_k))`, where `v_k` is the raw value stored at row `k`, or 0 if the row has no
stored entry, and `enc` is the inference-view conversion when `is_valid` and the
training-view conversion with row index `k` otherwise; every later call returns `(-1, 0)`. -/
theorem NextNonZero_fills_implicit_zeros
    (convert_infer : ℚ → Except Err (Option ℚ)) (convert_train : ℚ → Int → Except Err (Option ℚ))
    (entries : List (Int × ℚ)) (is_valid : Bool) (num_row : Int) (k : Nat)
    (hsorted : entries.Pairwise (fun a b => a.1 < b.1))
    (hrows : ∀ e ∈ entries, 0 ≤ e.1)
    (hn : 0 ≤ num_row ∧ num_row < 2147483648) :
    ((k : Int) < num_row →
      (Category_Encoding_CSC_RowIterator.NextNonZero convert_infer convert_train
        (Category_Encoding_CSC_RowIterator.after_calls convert_infer convert_train k
          (Category_Encoding_CSC_RowIterator.new entries is_valid num_row))).1
        = (if is_valid then convert_infer (raw_value_at entries k)
            else convert_train (raw_value_at entries k) k).map (fun v => ((k : Int), v)))
    ∧ (num_row ≤ (k : Int) →
      (Category_Encoding_CSC_RowIterator.NextNonZero convert_infer convert_train
        (Category_Encoding_CSC_RowIterator.after_calls convert_infer convert_train k
          (Category_Encoding_CSC_RowIterator.new entries is_valid num_row))).1
        = .ok (-1, some 0))
    ∧ (∀ it : Category_Encoding_CSC_RowIterator, it.base.entries = entries →
        it.is_valid_ = is_valid → it.num_row_ = num_row →
        it.Reset = Category_Encoding_CSC_RowIterator.new entries is_valid num_row) := by
  have hs : ((-1, 0) :: entries).Pairwise (fun a b => a.1 < b.1) := by
    rw [List.pairwise_cons]
    exact ⟨fun e he => by have := hrows e he; simp only; omega, hsorted⟩
  refine ⟨fun hk => ?_, fun hk => ?_, ?_⟩
  · exact (csc_step convert_infer convert_train entries is_valid num_row k _ hs hn.2 hk
      (csc_invariant_after_calls convert_infer convert_train entries is_valid num_row k hs hn.2
        (le_of_lt hk))).1
  · obtain ⟨m, hm⟩ : ∃ m : Nat, (m : Int) = num_row := ⟨num_row.toNat, Int.toNat_of_nonneg hn.1⟩
    have hmk : m ≤ k := by omega
    obtain ⟨j, rfl⟩ : ∃ j, k = m + j := ⟨k - m, by omega⟩
    have hinv := csc_invariant_after_calls convert_infer convert_train entries is_valid num_row m
      hs hn.2 (le_of_eq hm)
    obtain ⟨_, _, hnr, hcur, _⟩ := hinv
    have hex : ¬ wrap32 ((Category_Encoding_CSC_RowIterator.after_calls convert_infer
        convert_train m (Category_Encoding_CSC_RowIterator.new entries is_valid
          num_row)).cur_row_idx_ + 1)
        < wrap32 (Category_Encoding_CSC_RowIterator.after_calls convert_infer
        convert_train m (Category_Encoding_CSC_RowIterator.new entries is_valid
          num_row)).num_row_ := by
      rw [hcur, hnr]; unfold wrap32; omega
    rw [after_calls_add, (csc_exhausted convert_infer convert_train _ hex j).1,
      (csc_exhausted convert_infer convert_train _ hex j).2]
  · intro it h1 h2 h3
    obtain ⟨⟨ents, idx, isend⟩, v, n, cur, cached⟩ := it
    simp only at h1 h2 h3
    subst h1 h2 h3
    rfl

/-- Witness of C12: a column of 8 rows with the value 3 stored at rows 2 and 5, validation
mode, with the identity as stand-in for the conversion: call 2 returns `(2, 3)`, call 3
returns `(3, 0)`, and the call after the eighth returns `(-1, 0)`. -/
theorem NextNonZero_fills_implicit_zeros_witness :
    (Category_Encoding_CSC_RowIterator.NextNonZero (fun v => .ok (some v))
        (fun v _ => .ok (some v))
        (Category_Encoding_CSC_RowIterator.after_calls (fun v => .ok (some v))
          (fun v _ => .ok (some v)) 2
          (Category_Encoding_CSC_RowIterator.new [(2, 3), (5, 3)] true 8))).1
      = .ok (2, some 3)
    ∧ (Category_Encoding_CSC_RowIterator.NextNonZero (fun v => .ok (some v))
        (fun v _ => .ok (some v))
        (Category_Encoding_CSC_RowIterator.after_calls (fun v => .ok (some v))
          (fun v _ => .ok (some v)) 3
          (Category_Encoding_CSC_RowIterator.new [(2, 3), (5, 3)] true 8))).1
      = .ok (3, some 0)
    ∧ (Category_Encoding_CSC_RowIterator.NextNonZero (fun v => .ok (some v))
        (fun v _ => .ok (some v))
        (Category_Encoding_CSC_RowIterator.after_calls (fun v => .ok (some v))
          (fun v _ => .ok (some v)) 8
          (Category_Encoding_CSC_RowIterator.new [(2, 3), (5, 3)] true 8))).1
      = .ok (-1, some 0) := by
  have hsorted : ([(2, 3), (5, 3)] : List (Int × ℚ)).Pairwise (fun a b => a.1 < b.1) := by
    simp
  have hrows : ∀ e ∈ ([(2, 3), (5, 3)] : List (Int × ℚ)), 0 ≤ e.1 := by
    simp
  refine ⟨?_, ?_, ?_⟩
  · have h := (NextNonZero_fills_implicit_zeros (fun v => .ok (some v))
      (fun v _ => .ok (some v)) [(2, 3), (5, 3)] true 8 2 hsorted hrows
      (by norm_num)).1 (by norm_num)
    rw [h]
    simp [raw_value_at, List.find?, Except.map]
  · have h := (NextNonZero_fills_implicit_zeros (fun v => .ok (some v))
      (fun v _ => .ok (some v)) [(2, 3), (5, 3)] true 8 3 hsorted hrows
      (by norm_num)).1 (by norm_num)
    rw [h]
    simp [raw_value_at, List.find?, Except.map]
  · exact (NextNonZero_fills_implicit_zeros (fun v => .ok (some v))
      (fun v _ => .ok (some v)) [(2, 3), (5, 3)] true 8 8 hsorted hrows
      (by norm_num)).2.1 (by norm_num)

/-! ## Reading lines and fields -/

theorem GetLine_append (line rest : List Char) (hl : no_line_end line)
    (hr : rest = [] ∨ ∃ c t, rest = c :: t ∧ is_line_end c = true) :
    GetLine (line ++ rest) = line.length := by
  induction line with
  | nil =>
    rcases hr with h | ⟨c, t, h, hc⟩
    · subst h; rfl
    · subst h; simp [GetLine, hc]
  | cons a l ih =>
    have ha : is_line_end a = false := hl a (by simp)
    have hl' : no_line_end l := fun c hc => hl c (by simp [hc])
    simp [GetLine, ha, ih hl']

theorem read_line (line nl rest : List Char) (hl : no_line_end line)
    (ht : line_terminator nl rest) :
    (line ++ (nl ++ rest)).take (GetLine (line ++ (nl ++ rest))) = line
    ∧ SkipNewLine ((line ++ (nl ++ rest)).drop (GetLine (line ++ (nl ++ rest)))) = rest := by
  have hg : GetLine (line ++ (nl ++ rest)) = line.length := by
    apply GetLine_append line _ hl
    rcases ht with h | h | ⟨h, _⟩ | ⟨h, h'⟩
    · subst h; exact Or.inr ⟨'\n', rest, rfl, by decide⟩
    · subst h; exact Or.inr ⟨'\r', '\n' :: rest, rfl, by decide⟩
    · subst h; exact Or.inr ⟨'\r', rest, rfl, by decide⟩
    · subst h h'; exact Or.inl rfl
  rw [hg]
  refine ⟨by simp, ?_⟩
  simp only [List.drop_left]
  rcases ht with h | h | ⟨h, h'⟩ | ⟨h, h'⟩
  · subst h; rfl
  · subst h; rfl
  · subst h
    cases rest with
    | nil => rfl
    | cons c t =>
      have hc : c ≠ '\n' := by
        intro hc; subst hc; simp at h'
      simp only [SkipNewLine, List.singleton_append]
      split
      · next h1 => simp only [List.cons.injEq] at h1; exact absurd h1.1 hc
      · rfl
  · subst h h'; rfl

theorem StartsWith_append (pre x : List Char) : StartsWith (pre ++ x) pre = true := by
  simp [StartsWith]

theorem SplitAux_run (d : List Char) (tok rest cur : List Char) (h : ∀ c ∈ tok, c ∉ d) :
    SplitAux d (tok ++ rest) cur = SplitAux d rest (cur ++ tok) := by
  induction tok generalizing cur with
  | nil => simp
  | cons a t ih =>
    have ha : a ∉ d := h a (by simp)
    have ht : ∀ c ∈ t, c ∉ d := fun c hc => h c (by simp [hc])
    simp only [List.cons_append, SplitAux, ha, if_false, List.append_eq]
    rw [ih _ ht]
    simp

theorem SplitAux_tokens (sep : Char) (tokens : List (List Char)) (cur : List Char)
    (hcur : cur ≠ [])
    (h : ∀ t ∈ tokens, t ≠ [] ∧ ∀ c ∈ t, c ≠ sep) :
    SplitAux [sep] (tokens.map (fun q => sep :: q)).flatten cur = cur :: tokens := by
  induction tokens generalizing cur with
  | nil => simp [SplitAux, hcur]
  | cons t r ih =>
    have ht := h t (by simp)
    have hr : ∀ t' ∈ r, t' ≠ [] ∧ ∀ c ∈ t', c ≠ sep := fun t' ht' => h t' (by simp [ht'])
    simp only [List.map_cons, List.flatten_cons, List.cons_append, SplitAux,
      List.mem_singleton, if_true, hcur, if_false, List.append_eq]
    rw [SplitAux_run [sep] t _ [] (by simpa using ht.2)]
    rw [List.nil_append, ih t ht.1 hr]

theorem Split_join_tokens (sep : Char) (tokens : List (List Char))
    (h : ∀ t ∈ tokens, t ≠ [] ∧ ∀ c ∈ t, c ≠ sep) :
    Split (join_tokens sep tokens) [sep] = tokens := by
  cases tokens with
  | nil => rfl
  | cons t r =>
    have ht := h t (by simp)
    have hr : ∀ t' ∈ r, t' ≠ [] ∧ ∀ c ∈ t', c ≠ sep := fun t' ht' => h t' (by simp [ht'])
    unfold Split join_tokens
    rw [SplitAux_run [sep] t _ [] (by simpa using ht.2), List.nil_append,
      SplitAux_tokens sep r t ht.1 hr]

theorem Split_key_value (sep : Char) (key value : List Char)
    (hk : key ≠ [] ∧ ∀ c ∈ key, c ≠ sep) (hv : value ≠ [] ∧ ∀ c ∈ value, c ≠ sep) :
    Split (key ++ sep :: value) [sep] = [key, value] := by
  have h := Split_join_tokens sep [key, value] (by
    intro t ht
    simp only [List.mem_cons, List.mem_singleton, List.not_mem_nil, or_false] at ht
    rcases ht with h | h <;> subst h <;> assumption)
  simpa [join_tokens] using h

theorem Vec_index_one {α : Type} (a b : α) : Vec.index [a, b] 1 = .ok b := rfl

theorem Vec_index_zero {α : Type} (a b : α) : Vec.index [a, b] 0 = .ok a := rfl

theorem register_pairs_tokens (nt : NumberText) (pairs : List (List Char × List Char))
    (m : UMap Int) (h : ∀ p ∈ pairs, good_field p.1 ∧ good_field p.2) :
    CategoryFeatureEncoder.register_pairs nt (pairs.map pair_token) m
      = .ok (map_of_pairs nt pairs m) := by
  induction pairs generalizing m with
  | nil => rfl
  | cons p r ih =>
    have hp := h p (by simp)
    have hr : ∀ q ∈ r, good_field q.1 ∧ good_field q.2 := fun q hq => h q (by simp [hq])
    have hs : Split (pair_token p) ":".toList = [p.1, p.2] :=
      Split_key_value ':' p.1 p.2 ⟨hp.1.1, fun c hc => (hp.1.2 c hc).2.1⟩
        ⟨hp.2.1, fun c hc => (hp.2.2 c hc).2.1⟩
    simp only [List.map_cons, CategoryFeatureEncoder.register_pairs, hs, Vec_index_zero,
      Vec_index_one, bind, Except.bind]
    rw [ih _ hr]
    rfl

theorem pair_token_good (p : List Char × List Char) (h : good_field p.1 ∧ good_field p.2) :
    pair_token p ≠ [] ∧ (∀ c ∈ pair_token p, c ≠ ' ') ∧ (∀ c ∈ pair_token p, c ≠ '=')
      ∧ no_line_end (pair_token p) := by
  unfold pair_token
  refine ⟨by simp, ?_, ?_, ?_⟩
  · intro c hc
    simp only [List.mem_append, List.mem_cons] at hc
    rcases hc with hc | hc | hc
    · exact (h.1.2 c hc).1
    · subst hc; decide
    · exact (h.2.2 c hc).1
  · intro c hc
    simp only [List.mem_append, List.mem_cons] at hc
    rcases hc with hc | hc | hc
    · exact (h.1.2 c hc).2.2.1
    · subst hc; decide
    · exact (h.2.2 c hc).2.2.1
  · intro c hc
    simp only [List.mem_append, List.mem_cons] at hc
    rcases hc with hc | hc | hc
    · exact (h.1.2 c hc).2.2.2
    · subst hc; decide
    · exact (h.2.2 c hc).2.2.2

theorem join_tokens_mem (sep : Char) (tokens : List (List Char)) (c : Char)
    (hc : c ∈ join_tokens sep tokens) : c = sep ∨ ∃ t ∈ tokens, c ∈ t := by
  cases tokens with
  | nil => simp [join_tokens] at hc
  | cons t r =>
    simp only [join_tokens, List.mem_append, List.mem_flatten, List.mem_map] at hc
    rcases hc with hc | ⟨l, ⟨q, hq, rfl⟩, hcl⟩
    · exact Or.inr ⟨t, by simp, hc⟩
    · simp only [List.mem_cons] at hcl
      rcases hcl with hcl | hcl
      · exact Or.inl hcl
      · exact Or.inr ⟨q, by simp [hq], hcl⟩

theorem join_tokens_ne_nil (sep : Char) (tokens : List (List Char)) (h : tokens ≠ [])
    (ht : ∀ t ∈ tokens, t ≠ []) : join_tokens sep tokens ≠ [] := by
  cases tokens with
  | nil => exact absurd rfl h
  | cons t r =>
    have := ht t (by simp)
    simp [join_tokens, this]

/-- What reading a well-formed mapping line yields: the line is recognised, its value is
split into the pair tokens, and these are registered one after the other. -/
theorem mapping_line_facts (pairs : List (List Char × List Char))
    (hne : pairs ≠ []) (h : ∀ p ∈ pairs, good_field p.1 ∧ good_field p.2) :
    no_line_end (mapping_line pairs)
    ∧ StartsWith (mapping_line pairs) mapping_key = true
    ∧ Split (mapping_line pairs) "=".toList
        = ["categorical_feature_index_to_encoded_feature_index".toList,
            join_tokens ' ' (pairs.map pair_token)]
    ∧ Split (join_tokens ' ' (pairs.map pair_token)) " ".toList = pairs.map pair_token := by
  have htok : ∀ t ∈ pairs.map pair_token, t ≠ [] ∧ (∀ c ∈ t, c ≠ ' ') ∧ (∀ c ∈ t, c ≠ '=')
      ∧ no_line_end t := by
    intro t ht
    obtain ⟨p, hp, rfl⟩ := List.mem_map.mp ht
    exact pair_token_good p (h p hp)
  have hbody_ne : join_tokens ' ' (pairs.map pair_token) ≠ [] :=
    join_tokens_ne_nil ' ' _ (by simpa using hne) (fun t ht => (htok t ht).1)
  have hkey : mapping_key
      = "categorical_feature_index_to_encoded_feature_index".toList ++ ['='] := by decide
  refine ⟨?_, StartsWith_append _ _, ?_, ?_⟩
  · intro c hc
    unfold mapping_line at hc
    rcases List.mem_append.mp hc with hc | hc
    · have hk : ∀ c ∈ mapping_key, is_line_end c = false := by decide
      exact hk c hc
    · rcases join_tokens_mem ' ' _ c hc with hc | ⟨t, ht, hct⟩
      · subst hc; decide
      · exact (htok t ht).2.2.2 c hct
  · unfold mapping_line
    rw [hkey, List.append_assoc, List.singleton_append]
    apply Split_key_value '='
    · exact ⟨by decide, by decide⟩
    · refine ⟨hbody_ne, fun c hc => ?_⟩
      rcases join_tokens_mem ' ' _ c hc with hc | ⟨t, ht, hct⟩
      · subst hc; decide
      · exact (htok t ht).2.2.1 c hct
  · exact Split_join_tokens ' ' _ (fun t ht => ⟨(htok t ht).1, (htok t ht).2.1⟩)

theorem read_mapping_line_ok (nt : NumberText) (ret : CategoryFeatureEncoder)
    (start_length : Nat) (pairs : List (List Char × List Char)) (nl rest : List Char)
    (hne : pairs ≠ []) (h : ∀ p ∈ pairs, good_field p.1 ∧ good_field p.2)
    (ht : line_terminator nl rest) :
    CategoryFeatureEncoder.read_mapping_line nt ret start_length
        (mapping_line pairs ++ (nl ++ rest))
      = .ok (ret.with_cat_fid_to_convert_fid (map_of_pairs nt pairs []),
          start_length - rest.length) := by
  obtain ⟨h1, h2, h3, h4⟩ := mapping_line_facts pairs hne h
  obtain ⟨r1, r2⟩ := read_line (mapping_line pairs) nl rest h1 ht
  unfold CategoryFeatureEncoder.read_mapping_line
  simp only [r1, r2, h2, h3, h4, Vec_index_one, register_pairs_tokens nt pairs [] h,
    bind, Except.bind, pure, Except.pure, Bool.not_true]
  rfl

theorem read_prior_line_ok (nt : NumberText) (type pv nl rest : List Char)
    (prior_weight indeterminate : ℚ)
    (hpv : pv ≠ [] ∧ ∀ c ∈ pv, c ≠ '=' ∧ is_line_end c = false)
    (ht : line_terminator nl rest) :
    CategoryFeatureEncoder.read_prior_line nt type ("prior=".toList ++ pv ++ (nl ++ rest))
        prior_weight indeterminate
      = .ok ((if type = "target_encoder".toList then
              CategoryFeatureEncoder.target (TargetEncoder.new (nt.Atof pv) indeterminate)
            else CategoryFeatureEncoder.label_mean
              (TargetEncoderLabelMean.new indeterminate indeterminate)).SetPrior
            (nt.Atof pv) prior_weight, rest) := by
  have h1 : no_line_end ("prior=".toList ++ pv) := by
    intro c hc
    rcases List.mem_append.mp hc with hc | hc
    · have hk : ∀ c ∈ "prior=".toList, is_line_end c = false := by decide
      exact hk c hc
    · exact (hpv.2 c hc).2
  obtain ⟨r1, r2⟩ := read_line ("prior=".toList ++ pv) nl rest h1 ht
  have h2 : StartsWith ("prior=".toList ++ pv) "prior=".toList = true := StartsWith_append _ _
  have h3 : Split ("prior=".toList ++ pv) "=".toList = ["prior".toList, pv] := by
    have hk : "prior=".toList = "prior".toList ++ ['='] := by decide
    rw [hk, List.append_assoc, List.singleton_append]
    exact Split_key_value '=' _ pv ⟨by decide, by decide⟩ ⟨hpv.1, fun c hc => (hpv.2 c hc).1⟩
  unfold CategoryFeatureEncoder.read_prior_line
  simp only [r1, r2, h2, h3, Vec_index_one, bind, Except.bind, pure, Except.pure,
    Bool.not_true]
  rfl

theorem read_prior_line_fatal (nt : NumberText) (type char_pointer : List Char)
    (prior_weight indeterminate : ℚ)
    (h : StartsWith (char_pointer.take (GetLine char_pointer)) "prior=".toList = false) :
    CategoryFeatureEncoder.read_prior_line nt type char_pointer prior_weight indeterminate
      = .error (.fatal CategoryFeatureEncoder.model_format_msg) := by
  unfold CategoryFeatureEncoder.read_prior_line
  simp only [h, Bool.not_false]
  rfl

/-- The outcome of `CreateFromCharPointer` on a text whose first line is `type=<tag>` with
a tag that is a single field: the tag selects the construction, then the mapping line is
read from the pointer the construction leaves. -/
theorem create_of_type_line (nt : NumberText) (tag nl rest : List Char)
    (prior_weight indeterminate : ℚ)
    (htag : tag ≠ [] ∧ ∀ c ∈ tag, c ≠ '=' ∧ is_line_end c = false)
    (ht : line_terminator nl rest) :
    CategoryFeatureEncoder.CreateFromCharPointer nt ("type=".toList ++ tag ++ (nl ++ rest))
        prior_weight indeterminate
      = (if tag = "target_encoder".toList ∨ tag = "target_encoder_label_mean".toList then
            CategoryFeatureEncoder.read_prior_line nt tag rest prior_weight indeterminate
          else if tag = "count_encoder".toList then
            .ok (CategoryFeatureEncoder.count CountEncoder.new, rest)
          else .error (.fatal (CategoryFeatureEncoder.unknown_type_msg tag))) >>= fun r =>
        CategoryFeatureEncoder.read_mapping_line nt r.1
          ("type=".toList ++ tag ++ (nl ++ rest)).length r.2 := by
  have h1 : no_line_end ("type=".toList ++ tag) := by
    intro c hc
    rcases List.mem_append.mp hc with hc | hc
    · have hk : ∀ c ∈ "type=".toList, is_line_end c = false := by decide
      exact hk c hc
    · exact (htag.2 c hc).2
  obtain ⟨r1, r2⟩ := read_line ("type=".toList ++ tag) nl rest h1 ht
  have h2 : StartsWith ("type=".toList ++ tag) "type=".toList = true := StartsWith_append _ _
  have h3 : Split ("type=".toList ++ tag) "=".toList = ["type".toList, tag] := by
    have hk : "type=".toList = "type".toList ++ ['='] := by decide
    rw [hk, List.append_assoc, List.singleton_append]
    exact Split_key_value '=' _ tag ⟨by decide, by decide⟩
      ⟨htag.1, fun c hc => (htag.2 c hc).1⟩
  unfold CategoryFeatureEncoder.CreateFromCharPointer
  simp only [r1, r2, h2, h3, Vec_index_one, if_true, bind, Except.bind, pure, Except.pure]
  split_ifs <;> rfl

theorem map_of_pairs_find? (nt : NumberText) (pairs : List (List Char × List Char))
    (m : UMap Int) (k : Int) :
    UMap.find? (map_of_pairs nt pairs m) k =
      match pairs.reverse.find? (fun p => decide (nt.Atoi p.1 = k)) with
      | some p => some (nt.Atoi p.2)
      | none => UMap.find? m k := by
  induction pairs generalizing m with
  | nil => rfl
  | cons p r ih =>
    have h : map_of_pairs nt (p :: r) m
        = map_of_pairs nt r (UMap.set m (nt.Atoi p.1) (nt.Atoi p.2)) := rfl
    rw [h, ih, List.reverse_cons, List.find?_append]
    cases hr : r.reverse.find? (fun p => decide (nt.Atoi p.1 = k)) with
    | some q => rfl
    | none =>
      simp only [Option.none_or, UMap.find?_set, List.find?_cons, List.find?_nil]
      by_cases hk : nt.Atoi p.1 = k <;> simp [hk]

/-! ## The line form: reading -/

/-- The three kinds of well-formed blocks and what `CreateFromCharPointer` returns on them. -/
theorem create_blocks (nt : NumberText)
    (pairs : List (List Char × List Char)) (pv nl1 nl2 nl3 rest : List Char)
    (prior_weight indeterminate : ℚ)
    (hne : pairs ≠ []) (hp : ∀ p ∈ pairs, good_field p.1 ∧ good_field p.2)
    (hpv : pv ≠ [] ∧ ∀ c ∈ pv, c ≠ '=' ∧ is_line_end c = false)
    (h1 : nl1 = ['\n'] ∨ nl1 = ['\r', '\n']) (h2 : nl2 = ['\n'] ∨ nl2 = ['\r', '\n'])
    (h3 : line_terminator nl3 rest) :
    CategoryFeatureEncoder.CreateFromCharPointer nt
        ("type=".toList ++ "count_encoder".toList ++ (nl1 ++ (mapping_line pairs ++ (nl3 ++ rest))))
        prior_weight indeterminate
      = .ok (.count ⟨map_of_pairs nt pairs []⟩,
          ("type=".toList ++ "count_encoder".toList
            ++ (nl1 ++ (mapping_line pairs ++ (nl3 ++ rest)))).length - rest.length)
    ∧ CategoryFeatureEncoder.CreateFromCharPointer nt
        ("type=".toList ++ "target_encoder".toList
          ++ (nl1 ++ ("prior=".toList ++ pv ++ (nl2 ++ (mapping_line pairs ++ (nl3 ++ rest))))))
        prior_weight indeterminate
      = .ok (.target ⟨map_of_pairs nt pairs [], nt.Atof pv, prior_weight⟩,
          ("type=".toList ++ "target_encoder".toList
            ++ (nl1 ++ ("prior=".toList ++ pv
              ++ (nl2 ++ (mapping_line pairs ++ (nl3 ++ rest)))))).length - rest.length)
    ∧ CategoryFeatureEncoder.CreateFromCharPointer nt
        ("type=".toList ++ "target_encoder_label_mean".toList
          ++ (nl1 ++ ("prior=".toList ++ pv ++ (nl2 ++ (mapping_line pairs ++ (nl3 ++ rest))))))
        prior_weight indeterminate
      = .ok (.label_mean ⟨map_of_pairs nt pairs [], nt.Atof pv, prior_weight, true⟩,
          ("type=".toList ++ "target_encoder_label_mean".toList
            ++ (nl1 ++ ("prior=".toList ++ pv
              ++ (nl2 ++ (mapping_line pairs ++ (nl3 ++ rest)))))).length - rest.length) := by
  have t1 : ∀ r : List Char, line_terminator nl1 (mapping_key ++ r) := by
    intro r
    rcases h1 with h | h
    · exact Or.inl h
    · exact Or.inr (Or.inl h)
  have t1' : ∀ r : List Char, line_terminator nl1 ("prior=".toList ++ r) := by
    intro r
    rcases h1 with h | h
    · exact Or.inl h
    · exact Or.inr (Or.inl h)
  have t2 : ∀ r : List Char, line_terminator nl2 r := by
    intro r
    rcases h2 with h | h
    · exact Or.inl h
    · exact Or.inr (Or.inl h)
  refine ⟨?_, ?_, ?_⟩
  · have ht := t1 (join_tokens ' ' (pairs.map pair_token) ++ (nl3 ++ rest))
    rw [← List.append_assoc mapping_key] at ht
    rw [create_of_type_line nt _ nl1 _ prior_weight indeterminate ⟨by decide, by decide⟩
      (by simpa [mapping_line] using ht)]
    have hne' : ¬ ("count_encoder".toList = "target_encoder".toList
        ∨ "count_encoder".toList = "target_encoder_label_mean".toList) := by decide
    simp only [hne', if_false, if_true, bind, Except.bind]
    rw [read_mapping_line_ok nt _ _ pairs nl3 rest hne hp h3]
    rfl
  · have ht := t1' (pv ++ (nl2 ++ (mapping_line pairs ++ (nl3 ++ rest))))
    rw [← List.append_assoc] at ht
    rw [create_of_type_line nt _ nl1 _ prior_weight indeterminate ⟨by decide, by decide⟩ ht]
    simp only [true_or, if_true,
      read_prior_line_ok nt _ pv nl2 _ prior_weight indeterminate hpv (t2 _),
      bind, Except.bind]
    rw [read_mapping_line_ok nt _ _ pairs nl3 rest hne hp h3]
    rfl
  · have ht := t1' (pv ++ (nl2 ++ (mapping_line pairs ++ (nl3 ++ rest))))
    rw [← List.append_assoc] at ht
    rw [create_of_type_line nt _ nl1 _ prior_weight indeterminate ⟨by decide, by decide⟩ ht]
    have hne' : ¬ ("target_encoder_label_mean".toList = "target_encoder".toList) := by decide
    simp only [or_true, if_true,
      read_prior_line_ok nt _ pv nl2 _ prior_weight indeterminate hpv (t2 _),
      bind, Except.bind, hne', if_false]
    rw [read_mapping_line_ok nt _ _ pairs nl3 rest hne hp h3]
    rfl

theorem read_mapping_line_no_pairs (nt : NumberText) (ret : CategoryFeatureEncoder)
    (start_length : Nat) (nl rest : List Char) (ht : line_terminator nl rest) :
    CategoryFeatureEncoder.read_mapping_line nt ret start_length
        (mapping_line [] ++ (nl ++ rest))
      = .error .undefined_behavior := by
  have hs : Split (mapping_line []) "=".toList
      = ["categorical_feature_index_to_encoded_feature_index".toList] := by decide
  have hl : no_line_end (mapping_line []) := by
    unfold no_line_end
    decide
  obtain ⟨r1, r2⟩ := read_line (mapping_line []) nl rest hl ht
  have hsw : StartsWith (mapping_line []) mapping_key = true := by decide
  unfold CategoryFeatureEncoder.read_mapping_line
  simp only [r1, r2, hsw, hs, bind, Except.bind, Bool.not_true]
  rfl

/-- The three kinds of blocks whose mapping line has no pair: `CreateFromCharPointer` reads
field number 1 of the mapping line, which has a single field. -/
theorem create_blocks_no_pairs (nt : NumberText) (pv nl1 nl2 nl3 rest : List Char)
    (prior_weight indeterminate : ℚ)
    (hpv : pv ≠ [] ∧ ∀ c ∈ pv, c ≠ '=' ∧ is_line_end c = false)
    (h1 : nl1 = ['\n'] ∨ nl1 = ['\r', '\n']) (h2 : nl2 = ['\n'] ∨ nl2 = ['\r', '\n'])
    (h3 : line_terminator nl3 rest) :
    CategoryFeatureEncoder.CreateFromCharPointer nt
        ("type=".toList ++ "count_encoder".toList ++ (nl1 ++ (mapping_line [] ++ (nl3 ++ rest))))
        prior_weight indeterminate
      = .error .undefined_behavior
    ∧ CategoryFeatureEncoder.CreateFromCharPointer nt
        ("type=".toList ++ "target_encoder".toList
          ++ (nl1 ++ ("prior=".toList ++ pv ++ (nl2 ++ (mapping_line [] ++ (nl3 ++ rest))))))
        prior_weight indeterminate
      = .error .undefined_behavior
    ∧ CategoryFeatureEncoder.CreateFromCharPointer nt
        ("type=".toList ++ "target_encoder_label_mean".toList
          ++ (nl1 ++ ("prior=".toList ++ pv ++ (nl2 ++ (mapping_line [] ++ (nl3 ++ rest))))))
        prior_weight indeterminate
      = .error .undefined_behavior := by
  have t1 : ∀ r : List Char, line_terminator nl1 (mapping_key ++ r) := by
    intro r
    rcases h1 with h | h
    · exact Or.inl h
    · exact Or.inr (Or.inl h)
  have t1' : ∀ r : List Char, line_terminator nl1 ("prior=".toList ++ r) := by
    intro r
    rcases h1 with h | h
    · exact Or.inl h
    · exact Or.inr (Or.inl h)
  have t2 : ∀ r : List Char, line_terminator nl2 r := by
    intro r
    rcases h2 with h | h
    · exact Or.inl h
    · exact Or.inr (Or.inl h)
  refine ⟨?_, ?_, ?_⟩
  · have ht := t1 (nl3 ++ rest)
    rw [create_of_type_line nt _ nl1 _ prior_weight indeterminate ⟨by decide, by decide⟩
      (by simpa [mapping_line, join_tokens] using ht)]
    have hne' : ¬ ("count_encoder".toList = "target_encoder".toList
        ∨ "count_encoder".toList = "target_encoder_label_mean".toList) := by decide
    simp only [hne', if_false, if_true, bind, Except.bind]
    exact read_mapping_line_no_pairs nt _ _ nl3 rest h3
  · have ht := t1' (pv ++ (nl2 ++ (mapping_line [] ++ (nl3 ++ rest))))
    rw [← List.append_assoc] at ht
    rw [create_of_type_line nt _ nl1 _ prior_weight indeterminate ⟨by decide, by decide⟩ ht]
    simp only [true_or, if_true,
      read_prior_line_ok nt _ pv nl2 _ prior_weight indeterminate hpv (t2 _),
      bind, Except.bind]
    exact read_mapping_line_no_pairs nt _ _ nl3 rest h3
  · have ht := t1' (pv ++ (nl2 ++ (mapping_line [] ++ (nl3 ++ rest))))
    rw [← List.append_assoc] at ht
    rw [create_of_type_line nt _ nl1 _ prior_weight indeterminate ⟨by decide, by decide⟩ ht]
    simp only [or_true, if_true,
      read_prior_line_ok nt _ pv nl2 _ prior_weight indeterminate hpv (t2 _),
      bind, Except.bind]
    exact read_mapping_line_no_pairs nt _ _ nl3 rest h3

/-- C14, evaluated on the code: what `CreateFromCharPointer` returns on a line-form block.
A block is a type line, for the two target kinds a `prior=<value>` line, and the mapping
line `categorical_feature_index_to_encoded_feature_index=` followed by `cat_fid:output_col`
pairs separated by single spaces; lines end in a terminator and fields are non-empty and
free of separators.  When the mapping line has at least one pair, the result is the
encoder kind named by the type tag (a `CountEncoder`; a `TargetEncoder`, respectively a
`TargetEncoderLabelMean` with its prior set, carrying the parsed prior and the
`prior_weight` argument), its mapping holds exactly the pairs of the mapping line (for
every key the last pair with that key), and `*used_len` is the number of characters up to
and including the terminator of the mapping line.  When the mapping line has no pair, no
encoder with an empty mapping is returned: the code reads field number 1 of the mapping
line split at `=`, which has the single field before the `=`, outside the vector.  Without
the `prior=` line a target block stops with the fatal format error. -/
theorem CreateFromCharPointer_on_blocks (nt : NumberText)
    (pairs : List (List Char × List Char)) (pv nl1 nl2 nl3 rest : List Char)
    (prior_weight indeterminate : ℚ)
    (hp : ∀ p ∈ pairs, good_field p.1 ∧ good_field p.2)
    (hpv : pv ≠ [] ∧ ∀ c ∈ pv, c ≠ '=' ∧ is_line_end c = false)
    (h1 : nl1 = ['\n'] ∨ nl1 = ['\r', '\n']) (h2 : nl2 = ['\n'] ∨ nl2 = ['\r', '\n'])
    (h3 : line_terminator nl3 rest) :
    (pairs = [] →
      CategoryFeatureEncoder.CreateFromCharPointer nt
          ("type=".toList ++ "count_encoder".toList
            ++ (nl1 ++ (mapping_line pairs ++ (nl3 ++ rest))))
          prior_weight indeterminate
        = .error .undefined_behavior
      ∧ CategoryFeatureEncoder.CreateFromCharPointer nt
          ("type=".toList ++ "target_encoder".toList
            ++ (nl1 ++ ("prior=".toList ++ pv
              ++ (nl2 ++ (mapping_line pairs ++ (nl3 ++ rest))))))
          prior_weight indeterminate
        = .error .undefined_behavior
      ∧ CategoryFeatureEncoder.CreateFromCharPointer nt
          ("type=".toList ++ "target_encoder_label_mean".toList
            ++ (nl1 ++ ("prior=".toList ++ pv
              ++ (nl2 ++ (mapping_line pairs ++ (nl3 ++ rest))))))
          prior_weight indeterminate
        = .error .undefined_behavior)
    ∧ (pairs ≠ [] →
      CategoryFeatureEncoder.CreateFromCharPointer nt
          ("type=".toList ++ "count_encoder".toList
            ++ (nl1 ++ (mapping_line pairs ++ (nl3 ++ rest))))
          prior_weight indeterminate
        = .ok (.count ⟨map_of_pairs nt pairs []⟩,
            ("type=".toList ++ "count_encoder".toList
              ++ (nl1 ++ (mapping_line pairs ++ (nl3 ++ rest)))).length - rest.length)
      ∧ CategoryFeatureEncoder.CreateFromCharPointer nt
          ("type=".toList ++ "target_encoder".toList
            ++ (nl1 ++ ("prior=".toList ++ pv
              ++ (nl2 ++ (mapping_line pairs ++ (nl3 ++ rest))))))
          prior_weight indeterminate
        = .ok (.target ⟨map_of_pairs nt pairs [], nt.Atof pv, prior_weight⟩,
            ("type=".toList ++ "target_encoder".toList
              ++ (nl1 ++ ("prior=".toList ++ pv
                ++ (nl2 ++ (mapping_line pairs ++ (nl3 ++ rest)))))).length - rest.length)
      ∧ CategoryFeatureEncoder.CreateFromCharPointer nt
          ("type=".toList ++ "target_encoder_label_mean".toList
            ++ (nl1 ++ ("prior=".toList ++ pv
              ++ (nl2 ++ (mapping_line pairs ++ (nl3 ++ rest))))))
          prior_weight indeterminate
        = .ok (.label_mean ⟨map_of_pairs nt pairs [], nt.Atof pv, prior_weight, true⟩,
            ("type=".toList ++ "target_encoder_label_mean".toList
              ++ (nl1 ++ ("prior=".toList ++ pv
                ++ (nl2 ++ (mapping_line pairs ++ (nl3 ++ rest)))))).length - rest.length))
    ∧ (∀ tag other : List Char,
        tag = "target_encoder".toList ∨ tag = "target_encoder_label_mean".toList →
        StartsWith (other.take (GetLine other)) "prior=".toList = false →
        line_terminator nl1 other →
        CategoryFeatureEncoder.CreateFromCharPointer nt ("type=".toList ++ tag ++ (nl1 ++ other))
            prior_weight indeterminate
          = .error (.fatal CategoryFeatureEncoder.model_format_msg))
    ∧ (∀ k : Int, UMap.find? (map_of_pairs nt pairs []) k
        = (pairs.reverse.find? (fun p => decide (nt.Atoi p.1 = k))).map
            (fun p => nt.Atoi p.2)) := by
  refine ⟨?_, ?_, ?_, ?_⟩
  · intro hempty
    subst hempty
    exact create_blocks_no_pairs nt pv nl1 nl2 nl3 rest prior_weight indeterminate hpv h1 h2 h3
  · intro hne
    exact create_blocks nt pairs pv nl1 nl2 nl3 rest prior_weight indeterminate
      hne hp hpv h1 h2 h3
  · intro tag other htag hs ht
    have hgood : tag ≠ [] ∧ ∀ c ∈ tag, c ≠ '=' ∧ is_line_end c = false := by
      rcases htag with h | h <;> subst h <;> exact ⟨by decide, by decide⟩
    rw [create_of_type_line nt tag nl1 other prior_weight indeterminate hgood ht]
    simp only [htag, if_true,
      read_prior_line_fatal nt tag other prior_weight indeterminate hs, bind, Except.bind]
  · intro k
    rw [map_of_pairs_find?]
    cases pairs.reverse.find? (fun p => decide (nt.Atoi p.1 = k)) <;> rfl

/-- Witness of C14 (failing input): the Count block `type=count_encoder`,
`categorical_feature_index_to_encoded_feature_index=` whose mapping line has no pair is not
read as a `CountEncoder` with an empty mapping; the Target block `type=target_encoder`,
`prior=0.5`, mapping `3:10 4:11`, read with prior weight 2 and followed by the text `rest`,
is read. -/
theorem CreateFromCharPointer_on_blocks_witness :
    ("type=".toList ++ "count_encoder".toList
        ++ (['\n'] ++ (mapping_line [] ++ (['\n'] ++ []))))
      = ("type=count_encoder\n".toList
          ++ "categorical_feature_index_to_encoded_feature_index=\n".toList)
    ∧ CategoryFeatureEncoder.CreateFromCharPointer sample_number_text
        ("type=".toList ++ "count_encoder".toList
          ++ (['\n'] ++ (mapping_line [] ++ (['\n'] ++ [])))) 1 0
      = .error .undefined_behavior
    ∧ CategoryFeatureEncoder.CreateFromCharPointer sample_number_text
        ("type=".toList ++ "target_encoder".toList
          ++ (['\n'] ++ ("prior=".toList ++ "0.5".toList
            ++ (['\n'] ++ (mapping_line [("3".toList, "10".toList), ("4".toList, "11".toList)]
              ++ (['\n'] ++ "rest".toList)))))) 2 0
      = .ok (.target ⟨[(3, 10), (4, 11)], 1/2, 2⟩, 91) := by
  refine ⟨by decide, ?_, ?_⟩
  · exact ((CreateFromCharPointer_on_blocks sample_number_text [] "0.5".toList ['\n'] ['\n']
      ['\n'] [] 1 0 (by simp) ⟨by decide, by decide⟩ (Or.inl rfl) (Or.inl rfl)
      (Or.inl rfl)).1 rfl).1
  · have h := ((CreateFromCharPointer_on_blocks sample_number_text
      [("3".toList, "10".toList), ("4".toList, "11".toList)] "0.5".toList ['\n'] ['\n'] ['\n']
      "rest".toList 2 0
      (by
        intro p hp
        simp only [List.mem_cons, List.mem_singleton, List.not_mem_nil, or_false] at hp
        rcases hp with h | h <;> subst h <;>
          exact ⟨⟨by decide, by decide⟩, ⟨by decide, by decide⟩⟩)
      ⟨by decide, by decide⟩ (Or.inl rfl) (Or.inl rfl) (Or.inl rfl)).2.1 (by simp)).2.1
    rw [h]
    rfl

/-! ## The line form: writing, and reading back -/

/-- The text `DumpToString` writes, as a type line, a prior line and a mapping line. -/
theorem dump_shape (nt : NumberText) (e : TargetEncoderLabelMean) :
    TargetEncoderLabelMean.DumpToString nt e
      = "type=".toList ++ "target_encoder_label_mean".toList
        ++ (['\n'] ++ ("prior=".toList ++ nt.double_to_text e.prior_
          ++ (['\n'] ++ (mapping_line (e.cat_fid_to_convert_fid_.map
              (fun entry => (nt.int_to_text entry.1, nt.int_to_text entry.2)))
            ++ (['\n'] ++ []))))) := by
  have h1 : "type=target_encoder_label_mean\n".toList
      = "type=".toList ++ "target_encoder_label_mean".toList ++ ['\n'] := by decide
  have h2 : "\n".toList = ['\n'] := rfl
  simp only [TargetEncoderLabelMean.DumpToString, UnorderedMapToString, mapping_line, h1, h2,
    List.map_map, List.append_assoc, List.append_nil]
  rfl

theorem UMap.set_of_absent {V : Type} (m : UMap V) (k : Int) (v : V)
    (h : UMap.find? m k = none) : UMap.set m k v = m ++ [(k, v)] := by
  induction m with
  | nil => rfl
  | cons x t ih =>
    obtain ⟨a, b⟩ := x
    by_cases hak : a = k
    · simp [UMap.find?, hak] at h
    · simp only [UMap.find?, hak, if_false] at h
      simp [UMap.set, hak, ih h]

theorem UMap.find?_append_none {V : Type} (m : UMap V) (k : Int) (v : V) (k' : Int)
    (h : UMap.find? m k' = none) (hk : k ≠ k') : UMap.find? (m ++ [(k, v)]) k' = none := by
  induction m with
  | nil => simp [UMap.find?, hk]
  | cons x t ih =>
    obtain ⟨a, b⟩ := x
    by_cases hak : a = k'
    · simp [UMap.find?, hak] at h
    · simp only [UMap.find?, hak, if_false] at h
      simp [UMap.find?, hak, ih h]

theorem map_of_pairs_entries (nt : NumberText) (entries acc : UMap Int)
    (hnodup : (entries.map Prod.fst).Nodup)
    (hacc : ∀ entry ∈ entries, UMap.find? acc entry.1 = none)
    (hint : ∀ entry ∈ entries, nt.Atoi (nt.int_to_text entry.1) = entry.1
      ∧ nt.Atoi (nt.int_to_text entry.2) = entry.2) :
    map_of_pairs nt (entries.map
        (fun entry => (nt.int_to_text entry.1, nt.int_to_text entry.2))) acc
      = acc ++ entries := by
  induction entries generalizing acc with
  | nil => simp [map_of_pairs]
  | cons x t ih =>
    have hx := hint x (by simp)
    have hax := hacc x (by simp)
    simp only [List.map_cons, List.nodup_cons] at hnodup
    have hstep : map_of_pairs nt ((x :: t).map
        (fun entry => (nt.int_to_text entry.1, nt.int_to_text entry.2))) acc
        = map_of_pairs nt (t.map
            (fun entry => (nt.int_to_text entry.1, nt.int_to_text entry.2)))
            (UMap.set acc x.1 x.2) := by
      simp only [List.map_cons, map_of_pairs, List.foldl_cons, hx.1, hx.2]
    rw [hstep, UMap.set_of_absent acc x.1 x.2 hax]
    rw [ih (acc ++ [(x.1, x.2)]) hnodup.2]
    · simp
    · intro entry he
      apply UMap.find?_append_none _ _ _ _ (hacc entry (by simp [he]))
      intro hk
      exact hnodup.1 (hk ▸ List.mem_map_of_mem Prod.fst he)
    · intro entry he
      exact hint entry (by simp [he])

/-- The line form of a `TargetEncoderLabelMean` with a non-empty mapping is read back by
`CreateFromCharPointer`: the result is a `TargetEncoderLabelMean` with its prior set, the
same mapping and `used_len` the length of the text; its prior is what `Atof` reads from
the text written for the prior.  The number conversions are assumed to write fields that
are free of separators and to read the integers of the mapping back. -/
theorem line_form_round_trip (nt : NumberText) (e : TargetEncoderLabelMean)
    (prior_weight indeterminate : ℚ)
    (hne : e.cat_fid_to_convert_fid_ ≠ [])
    (hnodup : (e.cat_fid_to_convert_fid_.map Prod.fst).Nodup)
    (hint : ∀ entry ∈ e.cat_fid_to_convert_fid_,
      (good_field (nt.int_to_text entry.1) ∧ good_field (nt.int_to_text entry.2))
      ∧ nt.Atoi (nt.int_to_text entry.1) = entry.1
      ∧ nt.Atoi (nt.int_to_text entry.2) = entry.2)
    (hd : nt.double_to_text e.prior_ ≠ []
      ∧ ∀ c ∈ nt.double_to_text e.prior_, c ≠ '=' ∧ is_line_end c = false) :
    CategoryFeatureEncoder.CreateFromCharPointer nt (TargetEncoderLabelMean.DumpToString nt e)
        prior_weight indeterminate
      = .ok (.label_mean ⟨e.cat_fid_to_convert_fid_, nt.Atof (nt.double_to_text e.prior_),
          prior_weight, true⟩, (TargetEncoderLabelMean.DumpToString nt e).length) := by
  rw [dump_shape]
  have hb := (create_blocks nt
    (e.cat_fid_to_convert_fid_.map (fun entry => (nt.int_to_text entry.1, nt.int_to_text entry.2)))
    (nt.double_to_text e.prior_) ['\n'] ['\n'] ['\n'] [] prior_weight indeterminate
    (by simpa using hne)
    (by
      intro p hp
      obtain ⟨entry, he, rfl⟩ := List.mem_map.mp hp
      exact (hint entry he).1)
    hd (Or.inl rfl) (Or.inl rfl) (Or.inl rfl)).2.2
  rw [hb, map_of_pairs_entries nt e.cat_fid_to_convert_fid_ [] hnodup
    (fun _ _ => rfl) (fun entry he => (hint entry he).2)]
  simp

theorem Split_three_lines (l1 l2 l3 : List Char)
    (h1 : l1 ≠ [] ∧ ∀ c ∈ l1, c ≠ '\n') (h2 : l2 ≠ [] ∧ ∀ c ∈ l2, c ≠ '\n')
    (h3 : l3 ≠ [] ∧ ∀ c ∈ l3, c ≠ '\n') :
    Split ((l1 ++ ['\n']) ++ (l2 ++ ['\n']) ++ (l3 ++ ['\n'])) ['\n'] = [l1, l2, l3] := by
  have e : (l1 ++ ['\n']) ++ (l2 ++ ['\n']) ++ (l3 ++ ['\n'])
      = l1 ++ ('\n' :: (l2 ++ ('\n' :: (l3 ++ ['\n'])))) := by simp
  rw [e]
  unfold Split
  rw [SplitAux_run ['\n'] l1 _ [] (by simpa using h1.2), List.nil_append]
  simp only [SplitAux, List.mem_singleton, if_true, h1.1, if_false]
  rw [SplitAux_run ['\n'] l2 _ [] (by simpa using h2.2), List.nil_append]
  simp only [SplitAux, List.mem_singleton, if_true, h2.1, if_false]
  rw [SplitAux_run ['\n'] l3 _ [] (by simpa using h3.2), List.nil_append]
  simp [SplitAux, h3.1]

/-- C17: `TargetEncoderLabelMean::DumpToString` emits three newline-terminated lines, in
this order: `type=target_encoder_label_mean`, `prior=<prior>`, and
`categorical_feature_index_to_encoded_feature_index=` followed by one token
`cat_fid:output_col` for every entry of the mapping (token `i` for entry `i`), the tokens
separated by single spaces.  When the number texts contain no line feed, splitting the
text at line feeds gives exactly these three lines. -/
theorem DumpToString_three_lines (nt : NumberText) (e : TargetEncoderLabelMean) :
    TargetEncoderLabelMean.DumpToString nt e
      = ("type=target_encoder_label_mean".toList ++ ['\n'])
        ++ ("prior=".toList ++ nt.double_to_text e.prior_ ++ ['\n'])
        ++ ("categorical_feature_index_to_encoded_feature_index=".toList
            ++ join_tokens ' ' (e.cat_fid_to_convert_fid_.map
                (fun entry => nt.int_to_text entry.1 ++ ':' :: nt.int_to_text entry.2))
            ++ ['\n'])
    ∧ (e.cat_fid_to_convert_fid_.map
          (fun entry => nt.int_to_text entry.1 ++ ':' :: nt.int_to_text entry.2)).length
        = e.cat_fid_to_convert_fid_.length
    ∧ ((∀ c ∈ nt.double_to_text e.prior_, c ≠ '\n') →
        (∀ entry ∈ e.cat_fid_to_convert_fid_,
          (∀ c ∈ nt.int_to_text entry.1, c ≠ '\n')
          ∧ (∀ c ∈ nt.int_to_text entry.2, c ≠ '\n')) →
        Split (TargetEncoderLabelMean.DumpToString nt e) ['\n']
          = ["type=target_encoder_label_mean".toList,
              "prior=".toList ++ nt.double_to_text e.prior_,
              "categorical_feature_index_to_encoded_feature_index=".toList
                ++ join_tokens ' ' (e.cat_fid_to_convert_fid_.map
                  (fun entry => nt.int_to_text entry.1 ++ ':' :: nt.int_to_text entry.2))]) := by
  have hshape : TargetEncoderLabelMean.DumpToString nt e
      = ("type=target_encoder_label_mean".toList ++ ['\n'])
        ++ ("prior=".toList ++ nt.double_to_text e.prior_ ++ ['\n'])
        ++ ("categorical_feature_index_to_encoded_feature_index=".toList
            ++ join_tokens ' ' (e.cat_fid_to_convert_fid_.map
                (fun entry => nt.int_to_text entry.1 ++ ':' :: nt.int_to_text entry.2))
            ++ ['\n']) := by
    have h1 : "type=target_encoder_label_mean\n".toList
        = "type=target_encoder_label_mean".toList ++ ['\n'] := by decide
    have h2 : "\n".toList = ['\n'] := rfl
    simp only [TargetEncoderLabelMean.DumpToString, UnorderedMapToString, h1, h2, mapping_key]
    rfl
  refine ⟨hshape, by simp, fun hd hint => ?_⟩
  rw [hshape]
  apply Split_three_lines
  · exact ⟨by decide, by decide⟩
  · refine ⟨by simp, fun c hc => ?_⟩
    rcases List.mem_append.mp hc with hc | hc
    · have hk : ∀ c ∈ "prior=".toList, c ≠ '\n' := by decide
      exact hk c hc
    · exact hd c hc
  · refine ⟨by simp, fun c hc => ?_⟩
    rcases List.mem_append.mp hc with hc | hc
    · have hk : ∀ c ∈ "categorical_feature_index_to_encoded_feature_index=".toList,
          c ≠ '\n' := by decide
      exact hk c hc
    · rcases join_tokens_mem ' ' _ c hc with hc | ⟨t, ht, hct⟩
      · subst hc; decide
      · obtain ⟨entry, he, rfl⟩ := List.mem_map.mp ht
        simp only [List.mem_append, List.mem_cons] at hct
        rcases hct with h | h | h
        · exact (hint entry he).1 c h
        · subst h; decide
        · exact (hint entry he).2 c h

/-- Witness of C17: the encoder with prior 1/2 and the mapping `3 -> 10, 4 -> 11`. -/
theorem DumpToString_three_lines_witness :
    Split (TargetEncoderLabelMean.DumpToString sample_number_text
        ⟨[(3, 10), (4, 11)], 1/2, 1, true⟩) ['\n']
      = ["type=target_encoder_label_mean".toList, "prior=0.5".toList,
          "categorical_feature_index_to_encoded_feature_index=3:10 4:11".toList] := by
  have h := (DumpToString_three_lines sample_number_text
    ⟨[(3, 10), (4, 11)], 1/2, 1, true⟩).2.2
    (by simp [sample_number_text])
    (by
      intro entry he
      simp only [List.mem_cons, List.mem_singleton, List.not_mem_nil, or_false] at he
      rcases he with h | h <;> subst h <;> exact ⟨by decide, by decide⟩)
  rw [h]
  simp [sample_number_text, join_tokens]
  decide

/-- C15, evaluated on the code: the line form of a `TargetEncoderLabelMean` with its prior
set and an empty mapping is not read back.  `DumpToString` writes the mapping line
`categorical_feature_index_to_encoded_feature_index=` with nothing after the `=`;
`CreateFromCharPointer` splits that line at `=`, gets a single field and reads field
number 1 of it, outside the vector. -/
theorem round_trip_fails_on_empty_mapping (nt : NumberText) (e : TargetEncoderLabelMean)
    (prior_weight indeterminate : ℚ)
    (hempty : e.cat_fid_to_convert_fid_ = [])
    (hd : nt.double_to_text e.prior_ ≠ []
      ∧ ∀ c ∈ nt.double_to_text e.prior_, c ≠ '=' ∧ is_line_end c = false) :
    Split (mapping_line []) "=".toList
        = ["categorical_feature_index_to_encoded_feature_index".toList]
    ∧ CategoryFeatureEncoder.CreateFromCharPointer nt
        (TargetEncoderLabelMean.DumpToString nt e) prior_weight indeterminate
      = .error .undefined_behavior := by
  have hs : Split (mapping_line []) "=".toList
      = ["categorical_feature_index_to_encoded_feature_index".toList] := by decide
  refine ⟨hs, ?_⟩
  rw [dump_shape, hempty]
  have ht1 : line_terminator ['\n'] ("prior=".toList ++ nt.double_to_text e.prior_
      ++ (['\n'] ++ (mapping_line (([] : UMap Int).map
        (fun entry => (nt.int_to_text entry.1, nt.int_to_text entry.2))) ++ (['\n'] ++ [])))) :=
    Or.inl rfl
  rw [create_of_type_line nt _ ['\n'] _ prior_weight indeterminate ⟨by decide, by decide⟩ ht1]
  have hne : ¬ ("target_encoder_label_mean".toList = "target_encoder".toList) := by decide
  simp only [or_true, if_true,
    read_prior_line_ok nt _ (nt.double_to_text e.prior_) ['\n'] _ prior_weight indeterminate
      hd (Or.inl rfl), bind, Except.bind, List.map_nil]
  have hl : no_line_end (mapping_line []) := by
    unfold no_line_end
    decide
  obtain ⟨r1, r2⟩ := read_line (mapping_line []) ['\n'] [] hl (Or.inl rfl)
  have hsw : StartsWith (mapping_line []) mapping_key = true := by decide
  unfold CategoryFeatureEncoder.read_mapping_line
  simp only [r1, r2, hsw, hs, bind, Except.bind, Bool.not_true]
  rfl

/-- Witness of C15 (failing input): prior 1/2, prior weight 1, empty mapping. -/
theorem round_trip_fails_on_empty_mapping_witness :
    TargetEncoderLabelMean.DumpToString sample_number_text ⟨[], 1/2, 1, true⟩
      = ("type=target_encoder_label_mean\nprior=0.5\n".toList
          ++ "categorical_feature_index_to_encoded_feature_index=\n".toList)
    ∧ CategoryFeatureEncoder.CreateFromCharPointer sample_number_text
        (TargetEncoderLabelMean.DumpToString sample_number_text ⟨[], 1/2, 1, true⟩) 1 0
      = .error .undefined_behavior := by
  have hd : sample_number_text.double_to_text (1/2) = "0.5".toList := by
    simp [sample_number_text]
  refine ⟨?_, ?_⟩
  · simp only [TargetEncoderLabelMean.DumpToString, hd]
    decide
  · exact (round_trip_fails_on_empty_mapping sample_number_text ⟨[], 1/2, 1, true⟩ 1 0 rfl
      (by rw [hd]; exact ⟨by decide, by decide⟩)).2

/-- C16, evaluated on the code: the line form does not preserve the prior.  The prior
`1 + 2^-20 = 1.00000095367431640625` is written as `prior=1` (six significant digits, the
default precision of the stream); the encoder read back has prior 1, and its
inference-view `CalcValue` differs from that of the encoder written. -/
theorem line_form_loses_prior_digits :
    TargetEncoderLabelMean.DumpToString sample_number_text
        ⟨[(0, 1)], 1 + 1/1048576, 1, true⟩
      = ("type=target_encoder_label_mean\nprior=1\n".toList
          ++ "categorical_feature_index_to_encoded_feature_index=0:1\n".toList)
    ∧ CategoryFeatureEncoder.CreateFromCharPointer sample_number_text
        (TargetEncoderLabelMean.DumpToString sample_number_text
          ⟨[(0, 1)], 1 + 1/1048576, 1, true⟩) 1 0
      = .ok (.label_mean ⟨[(0, 1)], 1, 1, true⟩, 94)
    ∧ (1 : ℚ) ≠ 1 + 1/1048576
    ∧ (TargetEncoderLabelMean.mk [(0, 1)] (1 + 1/1048576) 1 true).CalcValue3 0 0 0
      = .ok (some (1 + 1/1048576))
    ∧ (TargetEncoderLabelMean.mk [(0, 1)] 1 1 true).CalcValue3 0 0 0 = .ok (some 1) := by
  have hd : sample_number_text.double_to_text (1 + 1/1048576) = "1".toList := by
    have hne : ¬ ((1 : ℚ) + 1/1048576 = 1/2) := by norm_num
    simp only [sample_number_text, hne, if_false]
  have hdump : TargetEncoderLabelMean.DumpToString sample_number_text
        ⟨[(0, 1)], 1 + 1/1048576, 1, true⟩
      = ("type=target_encoder_label_mean\nprior=1\n".toList
          ++ "categorical_feature_index_to_encoded_feature_index=0:1\n".toList) := by
    simp only [TargetEncoderLabelMean.DumpToString, hd]
    decide
  refine ⟨hdump, ?_, by norm_num, ?_, ?_⟩
  · rw [hdump]
    rfl
  · norm_num [TargetEncoderLabelMean.CalcValue3, fdiv]
  · norm_num [TargetEncoderLabelMean.CalcValue3, fdiv]

/-! ## Schema queries and boundary adapters -/

/-- C22: `IsCategorical(fid)` returns false for every `fid >= num_original_features` (so
no encoder output column is reported categorical) and returns the stored flag
`is_categorical_feature_[fid]` for every `fid` with `0 <= fid < num_original_features`. -/
theorem IsCategorical_spec (p : CategoryEncodingProvider) (fid : Int) :
    (p.num_original_features_ ≤ fid → p.IsCategorical fid = .ok false)
    ∧ (∀ flag : Bool, 0 ≤ fid → fid < p.num_original_features_ →
        p.is_categorical_feature_[fid.toNat]? = some flag →
        p.IsCategorical fid = .ok flag) := by
  constructor
  · intro h
    have : ¬ fid < p.num_original_features_ := by omega
    simp [CategoryEncodingProvider.IsCategorical, this]
  · intro flag h0 h1 hf
    have : ¬ fid < 0 := by omega
    simp [CategoryEncodingProvider.IsCategorical, h1, Vec.index, this, hf]

/-- Witness of C22: three original features of which the second is categorical; feature 1
is reported categorical, the output column 3 is not. -/
theorem IsCategorical_spec_witness :
    (CategoryEncodingProvider.mk [] [false, true, false] 3 4 [] [] []).IsCategorical 3
      = .ok false
    ∧ (CategoryEncodingProvider.mk [] [false, true, false] 3 4 [] [] []).IsCategorical 1
      = .ok true :=
  ⟨(IsCategorical_spec (CategoryEncodingProvider.mk [] [false, true, false] 3 4 [] [] []) 3).1
      (by decide),
   (IsCategorical_spec (CategoryEncodingProvider.mk [] [false, true, false] 3 4 [] [] []) 1).2
      true (by decide) (by decide) rfl⟩

/-- C21: the boundary adapters dispatch on the mode flag.  `ParseOneLine` first delegates
to the inner parser and then applies the inference-view conversion when `is_valid_` is
true and the training-view conversion with the caller's `line_idx` otherwise;
`Category_Encoding_CSC_RowIterator::Get(row_idx)` and the row accessor wrapped by
`WrapRowFunctionInner` apply the same rule with their row index; `NumFeatures` returns the
provider's `num_total_features_`. -/
theorem adapters_dispatch_on_mode :
    (∀ (Features Converted : Type)
        (convert_infer : CategoryEncodingProvider → Features → Converted)
        (convert_train : CategoryEncodingProvider → Features → Int → Converted)
        (inner : List Char → Features × ℚ → Features × ℚ) (p : CategoryEncodingProvider)
        (str : List Char) (out : Features × ℚ) (line_idx : Int),
      CategoryEncodingParser.ParseOneLine convert_infer convert_train ⟨inner, p, true⟩ str out
          line_idx
        = (convert_infer p (inner str out).1, (inner str out).2)
      ∧ CategoryEncodingParser.ParseOneLine convert_infer convert_train ⟨inner, p, false⟩ str
          out line_idx
        = (convert_train p (inner str out).1 line_idx, (inner str out).2))
    ∧ (∀ (base_Get : CSC_RowIterator → Int → ℚ × CSC_RowIterator)
        (convert_infer : ℚ → Except Err (Option ℚ))
        (convert_train : ℚ → Int → Except Err (Option ℚ))
        (it : Category_Encoding_CSC_RowIterator) (row_idx : Int),
      (it.is_valid_ = true →
        (Category_Encoding_CSC_RowIterator.Get base_Get convert_infer convert_train it
          row_idx).1 = convert_infer (base_Get it.base row_idx).1)
      ∧ (it.is_valid_ = false →
        (Category_Encoding_CSC_RowIterator.Get base_Get convert_infer convert_train it
          row_idx).1 = convert_train (base_Get it.base row_idx).1 row_idx))
    ∧ (∀ (Row Converted : Type) (convert_infer : Row → Converted)
        (convert_train : Row → Int → Converted) (get_row_fun : Int → Row) (row_idx : Int),
      CategoryEncodingProvider.WrapRowFunctionInner convert_infer convert_train get_row_fun
          true row_idx = convert_infer (get_row_fun row_idx)
      ∧ CategoryEncodingProvider.WrapRowFunctionInner convert_infer convert_train get_row_fun
          false row_idx = convert_train (get_row_fun row_idx) row_idx)
    ∧ (∀ (Features : Type) (parser : CategoryEncodingParser Features),
      parser.NumFeatures = parser.category_encoding_provider_.num_total_features_) := by
  refine ⟨fun _ _ ci ct inner p str out line_idx => ⟨rfl, rfl⟩, ?_,
    fun _ _ ci ct g row_idx => ⟨rfl, rfl⟩, fun _ parser => rfl⟩
  intro base_Get ci ct it row_idx
  constructor
  · intro h
    simp [Category_Encoding_CSC_RowIterator.Get, h]
  · intro h
    simp [Category_Encoding_CSC_RowIterator.Get, h]

/-- Witness of C21: an iterator in training mode (`is_valid_ = false`) applies the
training-view conversion with the row index 4. -/
theorem adapters_dispatch_on_mode_witness :
    (Category_Encoding_CSC_RowIterator.Get (fun b _ => (3, b)) (fun v => .ok (some v))
        (fun v row => .ok (some (v + row)))
        (Category_Encoding_CSC_RowIterator.new [(4, 3)] false 8) 4).1
      = .ok (some (3 + ((4 : Int) : ℚ))) :=
  (adapters_dispatch_on_mode.2.1 (fun b _ => (3, b)) (fun v => .ok (some v))
    (fun v row => .ok (some (v + row)))
    (Category_Encoding_CSC_RowIterator.new [(4, 3)] false 8) 4).2 rfl

/-! ## Target encoding as a shrinkage -/

theorem shrinkage_value (s c p w : ℚ) (hw : 0 ≤ w) (hc : 0 < c) :
    c + w ≠ 0
    ∧ (s + p * w) / (c + w) = (c * (s / c) + w * p) / (c + w)
    ∧ min (s / c) p ≤ (s + p * w) / (c + w)
    ∧ (s + p * w) / (c + w) ≤ max (s / c) p
    ∧ (w = 0 → (s + p * w) / (c + w) = s / c)
    ∧ (s / c = p → (s + p * w) / (c + w) = p) := by
  have hcw : 0 < c + w := by linarith
  have hne : c + w ≠ 0 := ne_of_gt hcw
  have hcne : c ≠ 0 := ne_of_gt hc
  have hs : c * (s / c) = s := by field_simp
  have hform : (s + p * w) / (c + w) = (c * (s / c) + w * p) / (c + w) := by
    rw [hs, mul_comm w p]
  refine ⟨hne, hform, ?_, ?_, ?_, ?_⟩
  · rw [hform, le_div_iff₀ hcw]
    have h1 : min (s / c) p * c ≤ (s / c) * c :=
      mul_le_mul_of_nonneg_right (min_le_left _ _) (le_of_lt hc)
    have h2 : min (s / c) p * w ≤ p * w :=
      mul_le_mul_of_nonneg_right (min_le_right _ _) hw
    nlinarith
  · rw [hform, div_le_iff₀ hcw]
    have h1 : (s / c) * c ≤ max (s / c) p * c :=
      mul_le_mul_of_nonneg_right (le_max_left _ _) (le_of_lt hc)
    have h2 : p * w ≤ max (s / c) p * w :=
      mul_le_mul_of_nonneg_right (le_max_right _ _) hw
    nlinarith
  · intro h0
    subst h0
    simp
  · intro hp
    rw [hform, hp]
    field_simp
    ring

/-- C27: target encoding is a shrinkage between the category mean and the prior.  For a
prior `p`, a prior weight `w >= 0`, a count `c > 0` and a label sum `s`, the value
`(s + p*w)/(c + w)` that `TargetEncoder` (both views, `p` its prior) and
`TargetEncoderLabelMean` (inference view with its prior, training view with the fold
prior) compute equals the weighted average `(c*(s/c) + w*p)/(c + w)`, lies between
`min(s/c, p)` and `max(s/c, p)`, equals `s/c` when `w = 0` and equals `p` when
`s/c = p`. -/
theorem target_encoding_is_shrinkage (s c a p w fold_prior : ℚ) (hw : 0 ≤ w) (hc : 0 < c) :
    (∀ m : UMap Int,
      (TargetEncoder.mk m p w).CalcValue3 s c a
          = .ok (some ((c * (s / c) + w * p) / (c + w)))
      ∧ (TargetEncoder.mk m p w).CalcValue4 s c a fold_prior
          = .ok (some ((c * (s / c) + w * p) / (c + w))))
    ∧ (∀ e : TargetEncoderLabelMean,
      (e.SetPrior p w).CalcValue3 s c a = .ok (some ((c * (s / c) + w * p) / (c + w)))
      ∧ (e.SetPrior fold_prior w).CalcValue4 s c a p
          = .ok (some ((c * (s / c) + w * p) / (c + w))))
    ∧ min (s / c) p ≤ (c * (s / c) + w * p) / (c + w)
    ∧ (c * (s / c) + w * p) / (c + w) ≤ max (s / c) p
    ∧ (w = 0 → (c * (s / c) + w * p) / (c + w) = s / c)
    ∧ (s / c = p → (c * (s / c) + w * p) / (c + w) = p)
    ∧ (s + p * w) / (c + w) = (c * (s / c) + w * p) / (c + w) := by
  obtain ⟨hne, hform, hmin, hmax, h0, hp⟩ := shrinkage_value s c p w hw hc
  rw [hform] at hmin hmax h0 hp
  refine ⟨fun m => ?_, fun e => ?_, hmin, hmax, h0, hp, hform⟩
  · simp [TargetEncoder.CalcValue3, TargetEncoder.CalcValue4, fdiv, hne, hform]
  · have hform' : (s + w * p) / (c + w) = (c * (s / c) + w * p) / (c + w) := by
      rw [← hform, mul_comm p w]
    simp [TargetEncoderLabelMean.CalcValue3, TargetEncoderLabelMean.CalcValue4,
      TargetEncoderLabelMean.SetPrior, fdiv, hne, hform, hform']

/-- Witness of C27: label sum 3 over count 4 (mean 3/4), prior 1/4, prior weight 4: the
encoded value is 1/2, between 1/4 and 3/4. -/
theorem target_encoding_is_shrinkage_witness :
    (TargetEncoder.mk [] (1/4) 4).CalcValue3 3 4 4 = .ok (some (1/2))
    ∧ min ((3 : ℚ) / 4) (1/4) ≤ 1/2 ∧ (1 : ℚ)/2 ≤ max ((3 : ℚ) / 4) (1/4) := by
  have h := target_encoding_is_shrinkage 3 4 4 (1/4) 4 0 (by norm_num) (by norm_num)
  refine ⟨?_, ?_, ?_⟩
  · rw [(h.1 []).1]; norm_num
  · have h1 := h.2.2.1
    have e : ((4 : ℚ) * (3 / 4) + 4 * (1 / 4)) / (4 + 4) = 1 / 2 := by norm_num
    rwa [e] at h1
  · have h2 := h.2.2.2.1
    have e : ((4 : ℚ) * (3 / 4) + 4 * (1 / 4)) / (4 + 4) = 1 / 2 := by norm_num
    rwa [e] at h2

/-! ## The column-wise and the row-wise transform agree -/

theorem forall₂_getElem? {α β : Type} {R : α → β → Prop} {l₁ : List α} {l₂ : List β}
    (h : List.Forall₂ R l₁ l₂) (i : Nat) (a : α) (b : β)
    (ha : l₁[i]? = some a) (hb : l₂[i]? = some b) : R a b := by
  induction h generalizing i with
  | nil => simp at ha
  | cons hd _ ih =>
    cases i with
    | zero =>
      simp only [List.getElem?_cons_zero, Option.some.injEq] at ha hb
      subst ha hb
      exact hd
    | succ n =>
      simp only [List.getElem?_cons_succ] at ha hb
      exact ih n ha hb

theorem handle_eq_lookup_then_value (p : CategoryEncodingProvider) (IS_TRAIN : Bool)
    (fid : Int) (fval : ℚ) (fold_id : Int) (enc : CategoryFeatureEncoder) :
    p.HandleOneCatConverter IS_TRAIN fid fval fold_id enc
      = p.GetCategoryEncodingStatForOneCatValue IS_TRAIN fid fval fold_id >>= fun s =>
          p.convert_value IS_TRAIN fold_id s enc := by
  cases IS_TRAIN <;> rfl

theorem iterate_loop_write (p : CategoryEncodingProvider) (IS_TRAIN : Bool) (fid fold_id : Int)
    (s : EncodingStat) (encoders : List CategoryFeatureEncoder) (i : Nat)
    (enc : CategoryFeatureEncoder) (c f : Int) (v : Option ℚ)
    (he : encoders[i]? = some enc)
    (hw : (CategoryEncodingProvider.iterate_loop p IS_TRAIN fid fold_id s encoders).1[i]?
      = some (Call.write_func c f v)) :
    p.convert_value IS_TRAIN fold_id s enc = .ok v := by
  induction encoders generalizing i with
  | nil => simp at he
  | cons e rest ih =>
    unfold CategoryEncodingProvider.iterate_loop at hw
    cases hv : p.convert_value IS_TRAIN fold_id s e with
    | error err => rw [hv] at hw; simp at hw
    | ok value =>
      rw [hv] at hw
      cases hf : e.GetConvertFid fid with
      | error err => rw [hf] at hw; simp at hw
      | ok cf =>
        rw [hf] at hw
        cases i with
        | zero =>
          simp only [List.getElem?_cons_zero, Option.some.injEq, Call.write_func.injEq] at he hw
          rw [← he, hv, hw.2.2]
        | succ n =>
          simp only [List.getElem?_cons_succ] at he hw
          exact ih n he hw

theorem iterate_write (p : CategoryEncodingProvider) (IS_TRAIN : Bool) (fid : Int) (fval : ℚ)
    (fold_id : Int) (i : Nat) (enc : CategoryFeatureEncoder) (c f : Int) (v : Option ℚ)
    (he : p.category_encoders_[i]? = some enc)
    (hw : (p.IterateOverCatConvertersInner IS_TRAIN fid fval fold_id).1[i]?
      = some (Call.write_func c f v)) :
    p.HandleOneCatConverter IS_TRAIN fid fval fold_id enc = .ok v := by
  rw [handle_eq_lookup_then_value]
  unfold CategoryEncodingProvider.IterateOverCatConvertersInner at hw
  cases hs : p.GetCategoryEncodingStatForOneCatValue IS_TRAIN fid fval fold_id with
  | error err => rw [hs] at hw; simp at hw
  | ok s =>
    rw [hs] at hw
    show p.convert_value IS_TRAIN fold_id s enc = .ok v
    cases hl : CategoryEncodingProvider.iterate_loop p IS_TRAIN fid fold_id s
        p.category_encoders_ with
    | mk calls outcome =>
      have hcalls : (CategoryEncodingProvider.iterate_loop p IS_TRAIN fid fold_id s
          p.category_encoders_).1 = calls := by rw [hl]
      simp only [hl] at hw
      cases outcome with
      | error err =>
        simp only at hw
        exact iterate_loop_write p IS_TRAIN fid fold_id s _ i enc c f v he (by rw [hcalls]; exact hw)
      | ok u =>
        simp only at hw
        by_cases hi : i < calls.length
        · rw [List.getElem?_append_left hi] at hw
          exact iterate_loop_write p IS_TRAIN fid fold_id s _ i enc c f v he
            (by rw [hcalls]; exact hw)
        · rw [List.getElem?_append_right (by omega)] at hw
          cases hn : i - calls.length with
          | zero => rw [hn] at hw; simp at hw
          | succ n => rw [hn] at hw; simp at hw

/-- C26: the column-wise and the row-wise transform agree.  For every encoder `e_i` of the
provider's encoder list, whenever `IterateOverCatConvertersInner` makes its `i`-th call
`write_func(c, f, v)`, `HandleOneCatConverter` with `e_i` returns exactly that value `v`.
And when the row-wise transform runs through, the lookup returning the aggregates `s` and
encoder `e_i` yielding the column `c_i` and the value `v_i`, `HandleOneCatConverter` is the
value computation of the loop on `s`, it returns `v_i` for `e_i`, and the `i`-th call of
the row-wise transform is `write_func(c_i, fid, v_i)`. -/
theorem HandleOneCatConverter_agrees_with_iterate
    (p : CategoryEncodingProvider) (IS_TRAIN : Bool) (fid : Int) (fval : ℚ) (fold_id : Int) :
    (∀ (i : Nat) (enc : CategoryFeatureEncoder) (c f : Int) (v : Option ℚ),
      p.category_encoders_[i]? = some enc →
      (p.IterateOverCatConvertersInner IS_TRAIN fid fval fold_id).1[i]?
        = some (Call.write_func c f v) →
      p.HandleOneCatConverter IS_TRAIN fid fval fold_id enc = .ok v)
    ∧ (∀ (s : EncodingStat) (outputs : List (Int × Option ℚ)),
      p.GetCategoryEncodingStatForOneCatValue IS_TRAIN fid fval fold_id = .ok s →
      List.Forall₂ (fun enc (o : Int × Option ℚ) =>
          p.convert_value IS_TRAIN fold_id s enc = .ok o.2 ∧ enc.GetConvertFid fid = .ok o.1)
        p.category_encoders_ outputs →
      (∀ enc : CategoryFeatureEncoder,
        p.HandleOneCatConverter IS_TRAIN fid fval fold_id enc
          = p.convert_value IS_TRAIN fold_id s enc)
      ∧ ∀ (i : Nat) (enc : CategoryFeatureEncoder) (o : Int × Option ℚ),
        p.category_encoders_[i]? = some enc → outputs[i]? = some o →
        p.HandleOneCatConverter IS_TRAIN fid fval fold_id enc = .ok o.2
        ∧ (p.IterateOverCatConvertersInner IS_TRAIN fid fval fold_id).1[i]?
            = some (Call.write_func o.1 fid o.2)) := by
  refine ⟨fun i enc c f v he hw => iterate_write p IS_TRAIN fid fval fold_id i enc c f v he hw,
    ?_⟩
  intro s outputs hs h
  have hall : ∀ enc : CategoryFeatureEncoder,
      p.HandleOneCatConverter IS_TRAIN fid fval fold_id enc
        = p.convert_value IS_TRAIN fold_id s enc := by
    intro enc
    rw [handle_eq_lookup_then_value, hs]
    rfl
  refine ⟨hall, fun i enc o he ho => ⟨?_, ?_⟩⟩
  · rw [hall]
    exact (forall₂_getElem? h i enc o he ho).1
  · have hlen : i < (outputs.map (fun o => Call.write_func o.1 fid o.2)).length := by
      have := (List.getElem?_eq_some_iff.mp ho).1
      simpa using this
    simp only [CategoryEncodingProvider.IterateOverCatConvertersInner, hs,
      iterate_loop_ok p IS_TRAIN fid fold_id s _ outputs h]
    rw [List.getElem?_append_left hlen, List.getElem?_map, ho]
    rfl

/-- Witness of C26: the provider of the example of the row-wise transform (a Count encoder
and a Target encoder with prior 1/2 and weight 2; count 2 and label sum 1 under the key 1):
the column-wise value of the Target encoder for the raw value 1 is 1/2, the value of the
second write. -/
theorem HandleOneCatConverter_agrees_with_iterate_witness :
    (CategoryEncodingProvider.mk [] [] 1 3 [(0, [[(1, 2)]])] [(0, [[(1, 1)]])]
        [.count ⟨[(0, 5)]⟩, .target ⟨[(0, 6)], 1/2, 2⟩]).HandleOneCatConverter
        false 0 1 0 (.target ⟨[(0, 6)], 1/2, 2⟩)
      = .ok (some (1/2))
    ∧ ((CategoryEncodingProvider.mk [] [] 1 3 [(0, [[(1, 2)]])] [(0, [[(1, 1)]])]
        [.count ⟨[(0, 5)]⟩, .target ⟨[(0, 6)], 1/2, 2⟩]).IterateOverCatConvertersInner
        false 0 1 0).1[1]?
      = some (Call.write_func 6 0 (some (1/2))) := by
  have hs : (CategoryEncodingProvider.mk [] [] 1 3 [(0, [[(1, 2)]])] [(0, [[(1, 1)]])]
        [.count ⟨[(0, 5)]⟩, .target ⟨[(0, 6)], 1/2, 2⟩]).GetCategoryEncodingStatForOneCatValue
        false 0 1 0 = .ok ⟨1, 2, 2⟩ := by
    rw [get_stat_infer_eq (CategoryEncodingProvider.mk [] [] 1 3 [(0, [[(1, 2)]])]
        [(0, [[(1, 1)]])] [.count ⟨[(0, 5)]⟩, .target ⟨[(0, 6)], 1/2, 2⟩])
      0 1 0 [[(1, 1)]] [[(1, 2)]] [(1, 1)] [(1, 2)] rfl rfl rfl rfl]
    simp [UMap.find?, static_cast_int, Int.tdiv]
  exact ((HandleOneCatConverter_agrees_with_iterate
    (CategoryEncodingProvider.mk [] [] 1 3 [(0, [[(1, 2)]])] [(0, [[(1, 1)]])]
        [.count ⟨[(0, 5)]⟩, .target ⟨[(0, 6)], 1/2, 2⟩])
    false 0 1 0).2 ⟨1, 2, 2⟩ [(5, some 2), (6, some (1/2))] hs
    (List.Forall₂.cons ⟨rfl, rfl⟩
      (List.Forall₂.cons
        ⟨by norm_num [CategoryEncodingProvider.convert_value, CategoryFeatureEncoder.CalcValue3,
            TargetEncoder.CalcValue3, fdiv], rfl⟩
        List.Forall₂.nil))).2 1 (.target ⟨[(0, 6)], 1/2, 2⟩) (6, some (1/2)) rfl rfl

/-! ## The count map and the label map of one accumulation -/

theorem AddCountAndLabel_find? (cm : UMap Int) (lm : UMap ℚ) (cat c : Int) (l : ℚ) (k : Int) :
    UMap.find? (CategoryEncodingProvider.AddCountAndLabel cm lm cat c l).1 k
        = (if cat = k then
            (match UMap.find? cm cat with
              | none => some c
              | some c0 => some (wrap32 (c0 + c)))
          else UMap.find? cm k)
    ∧ UMap.find? (CategoryEncodingProvider.AddCountAndLabel cm lm cat c l).2 k
        = (if cat = k then
            (match UMap.find? cm cat with
              | none => some l
              | some _ => some (UMap.index lm cat + l))
          else UMap.find? lm k) := by
  unfold CategoryEncodingProvider.AddCountAndLabel
  cases h : UMap.find? cm cat with
  | none =>
    have hc : UMap.count cm cat = 0 := by simp [UMap.count, h]
    rw [if_pos hc]
    simp only [UMap.find?_set]
    exact ⟨trivial, trivial⟩
  | some c0 =>
    have hc : ¬ UMap.count cm cat = 0 := by simp [UMap.count, h]
    rw [if_neg hc]
    simp only [UMap.find?_set]
    refine ⟨?_, trivial⟩
    simp only [UMap.index, h]

/-- C25: `AddCountAndLabel` keeps the count map and the label map on the same key set.
When the two maps have the same keys before the call, they have the same keys after it;
the entry of `cat_value` is present afterwards, its label is the old label (0 when absent)
plus `label_value`, and its count is the old count (0 when absent) plus `count_value` when
that sum is in the range of `int`; the count and the label of every other key are unchanged.
With the same keys in the count map and the label map it consults, the lookup
`GetCategoryEncodingStatForOneCatValue` returns normally in both views for a feature whose
per-fold maps exist: the checked read of the label map finds its key. -/
theorem AddCountAndLabel_keeps_key_sets (count_map : UMap Int) (label_map : UMap ℚ)
    (cat_value count_value : Int) (label_value : ℚ) (hkeys : same_keys count_map label_map) :
    same_keys (CategoryEncodingProvider.AddCountAndLabel count_map label_map
        cat_value count_value label_value).1
      (CategoryEncodingProvider.AddCountAndLabel count_map label_map
        cat_value count_value label_value).2
    ∧ (-2147483648 ≤ UMap.index count_map cat_value + count_value →
        UMap.index count_map cat_value + count_value < 2147483648 →
        UMap.find? (CategoryEncodingProvider.AddCountAndLabel count_map label_map
            cat_value count_value label_value).1 cat_value
          = some (UMap.index count_map cat_value + count_value))
    ∧ UMap.find? (CategoryEncodingProvider.AddCountAndLabel count_map label_map
          cat_value count_value label_value).2 cat_value
        = some (UMap.index label_map cat_value + label_value)
    ∧ (∀ k, k ≠ cat_value →
        UMap.find? (CategoryEncodingProvider.AddCountAndLabel count_map label_map
            cat_value count_value label_value).1 k = UMap.find? count_map k
        ∧ UMap.find? (CategoryEncodingProvider.AddCountAndLabel count_map label_map
            cat_value count_value label_value).2 k = UMap.find? label_map k)
    ∧ (∀ (p : CategoryEncodingProvider) (fid : Int) (fval : ℚ) (fold_id : Int)
        (lv : List (UMap ℚ)) (cv : List (UMap Int)),
        UMap.find? p.label_info_ fid = some lv → lv.getLast? = some label_map →
        UMap.find? p.count_info_ fid = some cv → cv.getLast? = some count_map →
        ∃ s, p.GetCategoryEncodingStatForOneCatValue false fid fval fold_id = .ok s)
    ∧ (∀ (p : CategoryEncodingProvider) (fid : Int) (fval : ℚ) (f : Nat)
        (lv : List (UMap ℚ)) (cv : List (UMap Int)) (am : UMap Int),
        UMap.find? p.label_info_ fid = some lv → lv[f]? = some label_map →
        UMap.find? p.count_info_ fid = some cv → cv[f]? = some count_map →
        cv.getLast? = some am →
        ∃ s, p.GetCategoryEncodingStatForOneCatValue true fid fval (f : Int) = .ok s) := by
  have hcat := hkeys cat_value
  refine ⟨?_, ?_, ?_, ?_, ?_, ?_⟩
  · intro k
    rw [(AddCountAndLabel_find? count_map label_map cat_value count_value label_value k).1,
      (AddCountAndLabel_find? count_map label_map cat_value count_value label_value k).2]
    by_cases hk : cat_value = k
    · rw [if_pos hk, if_pos hk]
      cases UMap.find? count_map cat_value <;> rfl
    · rw [if_neg hk, if_neg hk]
      exact hkeys k
  · intro h1 h2
    rw [(AddCountAndLabel_find? count_map label_map cat_value count_value label_value
      cat_value).1, if_pos rfl]
    cases h : UMap.find? count_map cat_value with
    | none => simp [UMap.index, h]
    | some c0 =>
      simp only [UMap.index, h] at h1 h2 ⊢
      rw [wrap32_of_range _ h1 h2]
  · rw [(AddCountAndLabel_find? count_map label_map cat_value count_value label_value
      cat_value).2, if_pos rfl]
    cases h : UMap.find? count_map cat_value with
    | none =>
      rw [h] at hcat
      cases h2 : UMap.find? label_map cat_value with
      | none => simp [UMap.index, h2]
      | some l0 => rw [h2] at hcat; simp at hcat
    | some c0 => rfl
  · intro k hk
    rw [(AddCountAndLabel_find? count_map label_map cat_value count_value label_value k).1,
      (AddCountAndLabel_find? count_map label_map cat_value count_value label_value k).2,
      if_neg (Ne.symm hk), if_neg (Ne.symm hk)]
    exact ⟨rfl, rfl⟩
  · intro p fid fval fold_id lv cv hl hlm hc hcm
    rw [get_stat_infer_eq p fid fval fold_id lv cv label_map count_map hl hlm hc hcm]
    have hk := hkeys (static_cast_int fval)
    cases h1 : UMap.find? count_map (static_cast_int fval) with
    | none => exact ⟨_, rfl⟩
    | some c0 =>
      cases h2 : UMap.find? label_map (static_cast_int fval) with
      | none => rw [h1, h2] at hk; simp at hk
      | some l0 => exact ⟨_, rfl⟩
  · intro p fid fval f lv cv am hl hlm hc hcm ham
    rw [get_stat_train_eq p fid fval f lv cv label_map count_map am hl hlm hc hcm ham]
    have hk := hkeys (static_cast_int fval)
    cases h1 : UMap.find? count_map (static_cast_int fval) with
    | none => exact ⟨_, rfl⟩
    | some c0 =>
      cases h2 : UMap.find? label_map (static_cast_int fval) with
      | none => rw [h1, h2] at hk; simp at hk
      | some l0 => exact ⟨_, rfl⟩

/-- Witness of C25: the maps with the one key 7 (count 2, label 3/2) and the update
(7, 1, 1/2): the label of key 7 becomes 2. -/
theorem AddCountAndLabel_keeps_key_sets_witness :
    same_keys [(7, 2)] [(7, 3/2)]
    ∧ UMap.find? (CategoryEncodingProvider.AddCountAndLabel [(7, 2)] [(7, 3/2)] 7 1 (1/2)).2 7
        = some (UMap.index [(7, (3/2 : ℚ))] 7 + 1/2) :=
  have h : same_keys [(7, 2)] [(7, 3/2)] := by
    intro k
    by_cases hk : (7 : Int) = k <;> simp [UMap.find?, hk]
  ⟨h, (AddCountAndLabel_keeps_key_sets [(7, 2)] [(7, 3/2)] 7 1 (1/2) h).2.2.1⟩

/-! ## Accumulation does not depend on the order of the updates -/

theorem contents_AddCountAndLabel (m : UMap Int × UMap ℚ) (u : Update) :
    contents (CategoryEncodingProvider.AddCountAndLabel m.1 m.2 u.1 u.2.1 u.2.2)
      = contents_step (contents m) u := by
  unfold contents contents_step
  refine Prod.ext ?_ ?_
  · funext k
    exact (AddCountAndLabel_find? m.1 m.2 u.1 u.2.1 u.2.2 k).1
  · funext k
    simp only [(AddCountAndLabel_find? m.1 m.2 u.1 u.2.1 u.2.2 k).2, UMap.index]
    cases UMap.find? m.2 u.1 <;> rfl

theorem contents_apply_updates (updates : List Update) (m : UMap Int × UMap ℚ) :
    contents (apply_updates updates m) = updates.foldl contents_step (contents m) := by
  induction updates generalizing m with
  | nil => rfl
  | cons u t ih =>
    simp only [apply_updates, List.foldl_cons] at ih ⊢
    rw [ih, contents_AddCountAndLabel]

theorem wrap32_add_comm3 (c x y : Int) :
    wrap32 (wrap32 (c + x) + y) = wrap32 (wrap32 (c + y) + x) := by
  unfold wrap32; omega

theorem contents_step_comm (s : MapContents) (u v : Update) :
    contents_step (contents_step s u) v = contents_step (contents_step s v) u := by
  obtain ⟨sc, sl⟩ := s
  obtain ⟨uk, uc, ul⟩ := u
  obtain ⟨vk, vc, vl⟩ := v
  unfold contents_step
  by_cases huv : uk = vk
  · subst huv
    refine Prod.ext ?_ ?_
    · funext k
      by_cases hk : uk = k
      · simp only [hk, if_true]
        cases sc k with
        | none => simp only [Option.some.injEq]; unfold wrap32; omega
        | some c => simp only [Option.some.injEq]; exact wrap32_add_comm3 c uc vc
      · simp only [hk, if_false]
    · funext k
      by_cases hk : uk = k
      · simp only [hk, if_true]
        cases sc k with
        | none => simp only [Option.some.injEq]; ring
        | some c =>
          simp only [Option.some.injEq]
          cases sl k <;> simp only <;> ring
      · simp only [hk, if_false]
  · have hvu : ¬ vk = uk := fun h => huv h.symm
    refine Prod.ext ?_ ?_
    · funext k
      by_cases hk : uk = k
      · have hk2 : ¬ vk = k := fun h => huv (hk.trans h.symm)
        simp only [hk, hk2, hvu, huv, if_true, if_false]
      · by_cases hk2 : vk = k
        · subst hk2
          simp only [hk, huv, if_true, if_false]
        · simp only [hk, hk2, if_false]
    · funext k
      by_cases hk : uk = k
      · have hk2 : ¬ vk = k := fun h => huv (hk.trans h.symm)
        subst hk
        simp only [hk2, hvu, if_true, if_false]
      · by_cases hk2 : vk = k
        · subst hk2
          simp only [hk, huv, if_true, if_false]
        · simp only [hk, hk2, if_false]

theorem apply_updates_perm (updates updates' : List Update) (m : UMap Int × UMap ℚ)
    (hperm : updates.Perm updates') :
    contents (apply_updates updates m) = contents (apply_updates updates' m) := by
  rw [contents_apply_updates, contents_apply_updates]
  exact List.Perm.foldl_eq' hperm (fun x _ y _ z => contents_step_comm z x y) _

theorem apply_updates_snoc (updates : List Update) (u : Update) (m : UMap Int × UMap ℚ) :
    apply_updates (updates ++ [u]) m =
      CategoryEncodingProvider.AddCountAndLabel (apply_updates updates m).1
        (apply_updates updates m).2 u.1 u.2.1 u.2.2 := by
  simp [apply_updates, List.foldl_append]

theorem updates_of_cat_snoc (updates : List Update) (u : Update) (k : Int) :
    updates_of_cat (updates ++ [u]) k
      = updates_of_cat updates k ++ (if u.1 = k then [u] else []) := by
  unfold updates_of_cat
  by_cases h : u.1 = k <;> simp [List.filter_append, List.filter_cons, h]

theorem update_count_sum_snoc (updates : List Update) (u : Update) (k : Int) :
    update_count_sum (updates ++ [u]) k
      = update_count_sum updates k + (if u.1 = k then u.2.1 else 0) := by
  unfold update_count_sum
  rw [updates_of_cat_snoc]
  by_cases h : u.1 = k <;> simp [h]

theorem update_label_sum_snoc (updates : List Update) (u : Update) (k : Int) :
    update_label_sum (updates ++ [u]) k
      = update_label_sum updates k + (if u.1 = k then u.2.2 else 0) := by
  unfold update_label_sum
  rw [updates_of_cat_snoc]
  by_cases h : u.1 = k <;> simp [h]

/-- The maps built from an empty count map hold, for every category with an update, the
wrapped sum of the counts and the sum of the labels of its updates; a category without an
update has no count, and the label the initial label map had. -/
theorem apply_updates_find? (updates : List Update) (lm0 : UMap ℚ)
    (hrange : ∀ u ∈ updates, -2147483648 ≤ u.2.1 ∧ u.2.1 < 2147483648) (k : Int) :
    UMap.find? (apply_updates updates ([], lm0)).1 k
        = (if updates_of_cat updates k = [] then none
           else some (wrap32 (update_count_sum updates k)))
    ∧ UMap.find? (apply_updates updates ([], lm0)).2 k
        = (if updates_of_cat updates k = [] then UMap.find? lm0 k
           else some (update_label_sum updates k)) := by
  induction updates using List.reverseRecOn generalizing k with
  | nil => simp [apply_updates, updates_of_cat, UMap.find?]
  | append_singleton us u ih =>
    have hr : ∀ v ∈ us, -2147483648 ≤ v.2.1 ∧ v.2.1 < 2147483648 :=
      fun v hv => hrange v (List.mem_append_left _ hv)
    have hu := hrange u (List.mem_append_right _ (List.mem_singleton_self u))
    have ihu := ih hr u.1
    have ihk := ih hr k
    rw [apply_updates_snoc, update_count_sum_snoc, update_label_sum_snoc, updates_of_cat_snoc,
      (AddCountAndLabel_find? _ _ u.1 u.2.1 u.2.2 k).1,
      (AddCountAndLabel_find? _ _ u.1 u.2.1 u.2.2 k).2]
    by_cases hk : u.1 = k
    · subst hk
      simp only [if_true, List.append_eq_nil, and_false, if_false, reduceCtorEq]
      rw [ihu.1]
      by_cases h0 : updates_of_cat us u.1 = []
      · have hc : update_count_sum us u.1 = 0 := by simp [update_count_sum, h0]
        have hl : update_label_sum us u.1 = 0 := by simp [update_label_sum, h0]
        simp only [h0, if_true, hc, hl, zero_add]
        rw [wrap32_of_range _ hu.1 hu.2]
        exact ⟨rfl, trivial⟩
      · simp only [h0, if_false]
        rw [wrap32_wrap32_add]
        refine ⟨rfl, ?_⟩
        simp [UMap.index, ihu.2, h0]
    · simp only [hk, if_false, List.append_nil, add_zero]
      exact ihk

theorem wrap32_zero : wrap32 0 = 0 := by
  unfold wrap32; omega

theorem wrap32_sum_map_wrap32 {α : Type} (l : List α) (f : α → Int) :
    wrap32 ((l.map (fun x => wrap32 (f x))).sum) = wrap32 ((l.map f).sum) := by
  induction l with
  | nil => rfl
  | cons a t ih =>
    simp only [List.map_cons, List.sum_cons]
    have h1 : ∀ x y : Int, wrap32 (wrap32 x + y) = wrap32 (x + wrap32 y) := by
      intro x y; unfold wrap32; omega
    rw [h1, ih, ← h1, wrap32_wrap32_add]

theorem updates_of_cat_flatten (shards : List (List Update)) (k : Int) :
    updates_of_cat shards.flatten k = (shards.map (fun sh => updates_of_cat sh k)).flatten := by
  unfold updates_of_cat
  exact List.filter_flatten _ _

theorem update_count_sum_flatten (shards : List (List Update)) (k : Int) :
    update_count_sum shards.flatten k = (shards.map (fun sh => update_count_sum sh k)).sum := by
  induction shards with
  | nil => rfl
  | cons sh t ih =>
    simp only [List.flatten_cons, List.map_cons, List.sum_cons, ← ih]
    simp [update_count_sum, updates_of_cat, List.filter_append]

theorem update_label_sum_flatten (shards : List (List Update)) (k : Int) :
    update_label_sum shards.flatten k = (shards.map (fun sh => update_label_sum sh k)).sum := by
  induction shards with
  | nil => rfl
  | cons sh t ih =>
    simp only [List.flatten_cons, List.map_cons, List.sum_cons, ← ih]
    simp [update_label_sum, updates_of_cat, List.filter_append]

theorem apply_updates_index (updates : List Update)
    (hrange : ∀ u ∈ updates, -2147483648 ≤ u.2.1 ∧ u.2.1 < 2147483648) (k : Int) :
    UMap.index (apply_updates updates ([], [])).1 k = wrap32 (update_count_sum updates k)
    ∧ UMap.index (apply_updates updates ([], [])).2 k = update_label_sum updates k := by
  have h := apply_updates_find? updates [] hrange k
  unfold UMap.index
  rw [h.1, h.2]
  by_cases h0 : updates_of_cat updates k = []
  · simp [h0, update_count_sum, update_label_sum, wrap32_zero, UMap.find?]
  · simp [h0]

theorem updates_of_cat_flatten_eq_nil (shards : List (List Update)) (k : Int) :
    updates_of_cat shards.flatten k = [] ↔ ∀ sh ∈ shards, updates_of_cat sh k = [] := by
  unfold updates_of_cat
  simp only [List.filter_eq_nil_iff, List.mem_flatten]
  constructor
  · intro h sh hsh a ha
    exact h a ⟨sh, hsh, ha⟩
  · rintro h a ⟨sh, hsh, ha⟩
    exact h sh hsh a ha

theorem apply_updates_absent_iff (updates : List Update)
    (hrange : ∀ u ∈ updates, -2147483648 ≤ u.2.1 ∧ u.2.1 < 2147483648) (k : Int) :
    (UMap.find? (apply_updates updates ([], [])).1 k = none ↔ updates_of_cat updates k = [])
    ∧ (UMap.find? (apply_updates updates ([], [])).2 k = none
        ↔ updates_of_cat updates k = []) := by
  have h := apply_updates_find? updates [] hrange k
  rw [h.1, h.2]
  by_cases h0 : updates_of_cat updates k = [] <;> simp [h0, UMap.find?]

/-- C23: accumulation is order-independent.  Applying `AddCountAndLabel` for a list of
(category, count, label) updates and for a permutation of it, to the same initial count
and label maps, gives maps with the same contents: every key has the same count and
the same label in both (labels are exact rationals; the 32-bit count addition is
commutative too).  Consequently, for updates whose counts are `int` values and any
split of them into shards, each accumulated separately from empty maps: a key is in the
map of all updates exactly when it is in the map of some shard, and its count and label
in the map of all updates are the sums, key by key, over the shard maps (an absent
entry counting as 0; the count sum reduced to 32 bits as the `int` addition does,
which is the sum itself when it is in the range of `int`). -/
theorem accumulation_order_independent :
    (∀ (updates updates' : List Update) (maps : UMap Int × UMap ℚ),
      updates.Perm updates' → ∀ k,
        UMap.find? (apply_updates updates maps).1 k = UMap.find? (apply_updates updates' maps).1 k
        ∧ UMap.find? (apply_updates updates maps).2 k
            = UMap.find? (apply_updates updates' maps).2 k)
    ∧ (∀ (updates : List Update) (shards : List (List Update)),
      shards.flatten.Perm updates →
      (∀ u ∈ updates, -2147483648 ≤ u.2.1 ∧ u.2.1 < 2147483648) → ∀ k,
        (UMap.find? (apply_updates updates ([], [])).1 k = none
          ↔ ∀ sh ∈ shards, UMap.find? (apply_updates sh ([], [])).1 k = none)
        ∧ (UMap.find? (apply_updates updates ([], [])).2 k = none
          ↔ ∀ sh ∈ shards, UMap.find? (apply_updates sh ([], [])).2 k = none)
        ∧ UMap.index (apply_updates updates ([], [])).1 k
            = wrap32 ((shards.map (fun sh => UMap.index (apply_updates sh ([], [])).1 k)).sum)
        ∧ ((-2147483648 ≤ (shards.map
              (fun sh => UMap.index (apply_updates sh ([], [])).1 k)).sum
            ∧ (shards.map (fun sh => UMap.index (apply_updates sh ([], [])).1 k)).sum
              < 2147483648) →
          UMap.index (apply_updates updates ([], [])).1 k
            = (shards.map (fun sh => UMap.index (apply_updates sh ([], [])).1 k)).sum)
        ∧ UMap.index (apply_updates updates ([], [])).2 k
            = (shards.map (fun sh => UMap.index (apply_updates sh ([], [])).2 k)).sum) := by
  constructor
  · intro updates updates' maps hperm k
    have h := apply_updates_perm updates updates' maps hperm
    unfold contents at h
    exact ⟨congrFun (congrArg Prod.fst h) k, congrFun (congrArg Prod.snd h) k⟩
  · intro updates shards hperm hrange k
    have hrf : ∀ u ∈ shards.flatten, -2147483648 ≤ u.2.1 ∧ u.2.1 < 2147483648 :=
      fun u hu => hrange u (hperm.subset hu)
    have hrs : ∀ sh ∈ shards, ∀ u ∈ sh, -2147483648 ≤ u.2.1 ∧ u.2.1 < 2147483648 :=
      fun sh hsh u hu => hrf u (List.mem_flatten.mpr ⟨sh, hsh, hu⟩)
    have hp := apply_updates_perm updates shards.flatten ([], []) hperm.symm
    unfold contents at hp
    have hp1 : UMap.find? (apply_updates updates ([], [])).1 k
        = UMap.find? (apply_updates shards.flatten ([], [])).1 k :=
      congrFun (congrArg Prod.fst hp) k
    have hp2 : UMap.find? (apply_updates updates ([], [])).2 k
        = UMap.find? (apply_updates shards.flatten ([], [])).2 k :=
      congrFun (congrArg Prod.snd hp) k
    have hcount : (shards.map (fun sh => UMap.index (apply_updates sh ([], [])).1 k))
        = shards.map (fun sh => wrap32 (update_count_sum sh k)) :=
      List.map_congr_left (fun sh hsh => (apply_updates_index sh (hrs sh hsh) k).1)
    have hlabel : (shards.map (fun sh => UMap.index (apply_updates sh ([], [])).2 k))
        = shards.map (fun sh => update_label_sum sh k) :=
      List.map_congr_left (fun sh hsh => (apply_updates_index sh (hrs sh hsh) k).2)
    have hi1 : UMap.index (apply_updates updates ([], [])).1 k
        = wrap32 ((shards.map
            (fun sh => UMap.index (apply_updates sh ([], [])).1 k)).sum) := by
      unfold UMap.index
      rw [hp1]
      have := (apply_updates_index shards.flatten hrf k).1
      unfold UMap.index at this
      rw [this, update_count_sum_flatten]
      have hc2 := hcount
      unfold UMap.index at hc2
      rw [hc2, wrap32_sum_map_wrap32]
    refine ⟨?_, ?_, hi1, ?_, ?_⟩
    · rw [hp1, (apply_updates_absent_iff shards.flatten hrf k).1, updates_of_cat_flatten_eq_nil]
      exact forall₂_congr
        (fun sh hsh => ((apply_updates_absent_iff sh (hrs sh hsh) k).1).symm)
    · rw [hp2, (apply_updates_absent_iff shards.flatten hrf k).2, updates_of_cat_flatten_eq_nil]
      exact forall₂_congr
        (fun sh hsh => ((apply_updates_absent_iff sh (hrs sh hsh) k).2).symm)
    · intro hr
      rw [hi1, wrap32_of_range _ hr.1 hr.2]
    · unfold UMap.index
      rw [hp2]
      have := (apply_updates_index shards.flatten hrf k).2
      unfold UMap.index at this
      rw [this, update_label_sum_flatten]
      have hl2 := hlabel
      unfold UMap.index at hl2
      rw [hl2]

/-- Witness of C23: the updates (1, 1, 1/2), (2, 1, 1), (1, 2, 3/2) and their reversal give
the same count and label for key 1. -/
theorem accumulation_order_independent_witness :
    UMap.find? (apply_updates [(1, 1, 1/2), (2, 1, 1), (1, 2, 3/2)] ([], [])).1 1
      = UMap.find? (apply_updates [(1, 2, 3/2), (2, 1, 1), (1, 1, 1/2)] ([], [])).1 1
    ∧ UMap.find? (apply_updates [(1, 1, 1/2), (2, 1, 1), (1, 2, 3/2)] ([], [])).2 1
      = UMap.find? (apply_updates [(1, 2, 3/2), (2, 1, 1), (1, 1, 1/2)] ([], [])).2 1 :=
  accumulation_order_independent.1 [(1, 1, 1/2), (2, 1, 1), (1, 2, 3/2)]
    [(1, 2, 3/2), (2, 1, 1), (1, 1, 1/2)] ([], [])
    (List.reverse_perm ([(1, 2, 3/2), (2, 1, 1), (1, 1, 1/2)] : List Update)) 1

/-! ## No category is stored with count 0 -/

theorem update_count_sum_pos (updates : List Update) (hpos : ∀ u ∈ updates, 1 ≤ u.2.1)
    (k : Int) (h0 : updates_of_cat updates k ≠ []) : 1 ≤ update_count_sum updates k := by
  unfold update_count_sum
  have hall : ∀ x ∈ (updates_of_cat updates k).map (fun u => u.2.1), (1 : Int) ≤ x := by
    intro x hx
    obtain ⟨u, hu, rfl⟩ := List.mem_map.mp hx
    exact hpos u (List.mem_of_mem_filter hu)
  cases hl : (updates_of_cat updates k).map (fun u => u.2.1) with
  | nil => simp at hl; exact absurd hl h0
  | cons a t =>
    rw [hl] at hall
    have ha := hall a (List.mem_cons_self a t)
    have ht : (0 : Int) ≤ t.sum :=
      List.sum_nonneg (fun x hx => by have := hall x (List.mem_cons_of_mem a hx); omega)
    simp only [List.sum_cons]
    omega

theorem update_count_le_sum (updates : List Update) (hpos : ∀ u ∈ updates, 1 ≤ u.2.1)
    (u : Update) (hu : u ∈ updates) : u.2.1 ≤ update_count_sum updates u.1 := by
  unfold update_count_sum
  apply List.single_le_sum
  · intro x hx
    obtain ⟨v, hv, rfl⟩ := List.mem_map.mp hx
    have := hpos v (List.mem_of_mem_filter hv)
    omega
  · refine List.mem_map.mpr ⟨u, ?_, rfl⟩
    unfold updates_of_cat
    simp [List.mem_filter, hu]

/-- C24: no category is stored with count 0.  In the count map built from the empty map by
`AddCountAndLabel` calls whose `count_value` is at least 1, the counts of no category
adding up beyond the range of `int`: every key present has a count of at least 1; the
count read for a key (0 when absent) is 0 exactly when the key is absent; and the presence
test of the lookup, `count(key) > 0`, holds exactly when that count is positive. -/
theorem no_category_with_count_zero (updates : List Update) (label_map : UMap ℚ)
    (hpos : ∀ u ∈ updates, 1 ≤ u.2.1)
    (hno : ∀ k, update_count_sum updates k < 2147483648) :
    (∀ k c, UMap.find? (apply_updates updates ([], label_map)).1 k = some c → 1 ≤ c)
    ∧ (∀ k, UMap.index (apply_updates updates ([], label_map)).1 k = 0
        ↔ UMap.find? (apply_updates updates ([], label_map)).1 k = none)
    ∧ (∀ k, UMap.count (apply_updates updates ([], label_map)).1 k > 0
        ↔ UMap.index (apply_updates updates ([], label_map)).1 k > 0) := by
  have hrange : ∀ u ∈ updates, -2147483648 ≤ u.2.1 ∧ u.2.1 < 2147483648 := by
    intro u hu
    have h1 := hpos u hu
    have h2 := update_count_le_sum updates hpos u hu
    have h3 := hno u.1
    omega
  have hfind : ∀ k c, UMap.find? (apply_updates updates ([], label_map)).1 k = some c →
      1 ≤ c := by
    intro k c hc
    rw [(apply_updates_find? updates label_map hrange k).1] at hc
    by_cases h0 : updates_of_cat updates k = []
    · simp [h0] at hc
    · simp only [h0, if_false, Option.some.injEq] at hc
      have h1 := update_count_sum_pos updates hpos k h0
      have h2 := hno k
      rw [wrap32_of_range _ (by omega) h2] at hc
      omega
  refine ⟨hfind, ?_, ?_⟩
  · intro k
    unfold UMap.index
    cases h : UMap.find? (apply_updates updates ([], label_map)).1 k with
    | none => simp
    | some c =>
      have := hfind k c h
      simp only [reduceCtorEq, iff_false]
      omega
  · intro k
    unfold UMap.index UMap.count
    cases h : UMap.find? (apply_updates updates ([], label_map)).1 k with
    | none => simp
    | some c =>
      have := hfind k c h
      simp only [gt_iff_lt, Nat.lt_one_iff, pos_of_gt, true_iff]
      omega

/-- Witness of C24: two updates of category 1 with counts 1 and 2: the stored count is 3. -/
theorem no_category_with_count_zero_witness :
    UMap.find? (apply_updates [(1, 1, 1/2), (1, 2, 1)] ([], [])).1 1 = some 3 ∧ (1 : Int) ≤ 3 :=
  have hfind : UMap.find? (apply_updates [(1, 1, 1/2), (1, 2, 1)] ([], [])).1 1 = some 3 := by
    decide
  ⟨hfind, (no_category_with_count_zero [(1, 1, 1/2), (1, 2, 1)] []
    (by intro u hu
        simp only [List.mem_cons, List.mem_singleton, List.not_mem_nil, or_false] at hu
        rcases hu with rfl | rfl <;> decide)
    (by intro k
        by_cases hk : (1 : Int) = k
        · subst hk
          simp [update_count_sum, updates_of_cat, List.filter_cons]
        · simp [update_count_sum, updates_of_cat, List.filter_cons, hk])).1 1 3 hfind⟩

/-! ## Training view and the fold cells -/

theorem cat_count_cons (x : Int × ℚ) (t : List (Int × ℚ)) (k : Int) :
    cat_count (x :: t) k = (if x.1 = k then 1 else 0) + cat_count t k := by
  unfold cat_count rows_of_cat
  by_cases h : x.1 = k <;> simp [List.filter_cons, h, Nat.add_comm]

theorem cat_label_sum_cons (x : Int × ℚ) (t : List (Int × ℚ)) (k : Int) :
    cat_label_sum (x :: t) k = (if x.1 = k then x.2 else 0) + cat_label_sum t k := by
  unfold cat_label_sum rows_of_cat
  by_cases h : x.1 = k <;> simp [List.filter_cons, h]

theorem fold_rows_succ (rows : List TrainRow) (K : Nat) (k : Int) :
    cat_count ((rows.filter (fun x => decide (x.fold_id < K + 1))).map TrainRow.entry) k
        = cat_count ((rows.filter (fun x => decide (x.fold_id < K))).map TrainRow.entry) k
          + cat_count ((rows.filter (fun x => decide (x.fold_id = K))).map TrainRow.entry) k
    ∧ cat_label_sum ((rows.filter (fun x => decide (x.fold_id < K + 1))).map TrainRow.entry) k
        = cat_label_sum ((rows.filter (fun x => decide (x.fold_id < K))).map TrainRow.entry) k
          + cat_label_sum ((rows.filter (fun x => decide (x.fold_id = K))).map
              TrainRow.entry) k := by
  induction rows with
  | nil => simp [cat_count, cat_label_sum, rows_of_cat]
  | cons x t ih =>
    obtain ⟨ih1, ih2⟩ := ih
    rcases Nat.lt_trichotomy x.fold_id K with h | h | h
    · have d1 : decide (x.fold_id < K + 1) = true := decide_eq_true (by omega)
      have d2 : decide (x.fold_id < K) = true := decide_eq_true h
      have d3 : decide (x.fold_id = K) = false := decide_eq_false (by omega)
      simp only [List.filter_cons, d1, d2, d3, if_true, Bool.false_eq_true, if_false,
        List.map_cons, cat_count_cons, cat_label_sum_cons, ih1, ih2]
      constructor
      · omega
      · ring
    · have d1 : decide (x.fold_id < K + 1) = true := decide_eq_true (by omega)
      have d2 : decide (x.fold_id < K) = false := decide_eq_false (by omega)
      have d3 : decide (x.fold_id = K) = true := decide_eq_true h
      simp only [List.filter_cons, d1, d2, d3, if_true, Bool.false_eq_true, if_false,
        List.map_cons, cat_count_cons, cat_label_sum_cons, ih1, ih2]
      constructor
      · omega
      · ring
    · have d1 : decide (x.fold_id < K + 1) = false := decide_eq_false (by omega)
      have d2 : decide (x.fold_id < K) = false := decide_eq_false (by omega)
      have d3 : decide (x.fold_id = K) = false := decide_eq_false (by omega)
      simp only [List.filter_cons, d1, d2, d3, Bool.false_eq_true, if_false, ih1, ih2]
      exact ⟨trivial, trivial⟩

theorem accumulate_rows_label_index (rows : List (Int × ℚ)) (k : Int) :
    UMap.index (accumulate_rows rows ([], [])).2 k = cat_label_sum rows k := by
  by_cases h0 : cat_count rows k = 0
  · simp [UMap.index, (accumulate_rows_find? rows k).2, h0,
      cat_label_sum_of_count_zero rows k h0]
  · simp [UMap.index, (accumulate_rows_find? rows k).2, h0]

/-- The fitted store satisfies the invariant of the spec: for every key the counts and the
label sums of the cells of the folds `f < K` add up to those of the all-folds entry. -/
theorem fitted_store_sums (K : Nat) (rows : List TrainRow) (k : Int)
    (hn : rows.length < 2147483648) :
    ((List.range K).map (fun f => UMap.index (fold_cell rows f).1 k)).sum
        = UMap.index (all_folds_cell K rows).1 k
    ∧ ((List.range K).map (fun f => UMap.index (fold_cell rows f).2 k)).sum
        = UMap.index (all_folds_cell K rows).2 k := by
  have hle : ∀ q : TrainRow → Bool,
      ((rows.filter q).map TrainRow.entry).length < 2147483648 := by
    intro q
    have := List.length_filter_le q rows
    simp only [List.length_map]
    omega
  unfold fold_cell all_folds_cell
  simp only [accumulate_rows_index _ _ (hle _), accumulate_rows_label_index]
  induction K with
  | zero => simp [cat_count, cat_label_sum, rows_of_cat]
  | succ K ih =>
    obtain ⟨ih1, ih2⟩ := ih
    obtain ⟨s1, s2⟩ := fold_rows_succ rows K k
    rw [List.range_succ, List.map_append, List.sum_append, List.map_append, List.sum_append,
      ih1, ih2, s1, s2]
    simp

end LightGBM
